import Mathlib

/-!
# Othello minimax player (`player.c`): embedding and verification

A board is the 100-cell `int` array of the program, indexed by `row*10+col`.
Array reads and writes carry their bounds: an access outside the array has no
defined result and is rendered as `none`, as is a loop that exhausts its fuel.
The global `board` of the C file is passed explicitly; the `FILE *` log
arguments are dropped (logging has no effect on the values computed).

Conventions of the embedding:
* `int` values are `Int` (no value of the program comes near the 32-bit range);
  `/` and `%` are `Int.tdiv` and `Int.tmod`, the C operators.
* The `moves` buffer written by `legal_moves` is represented by its written
  slots `0..count`. A `receive_buffer` is the list of the ints written to it;
  receiving a chunk longer than the `malloc` capacity of the buffer is a write
  outside the array and has no result.
* The two unbounded loops (`find_bracket_piece`, the `do ... while` of
  `make_flips`) run on fuel `BOARDSIZE + 1`: a walk with a nonzero step visits
  at most `BOARDSIZE` distinct cells of the array before it leaves it.
* The search depth is a `Nat` (the only call passes 6 and the recursion counts
  down to 0).
* The message-passing collectives are modelled by their data movement:
  a broadcast gives every unit the same value, a scatter slices the send buffer
  by count and displacement, a gather lists the units' results in rank order.
-/

namespace Othello

/-! ## Constants -/

def EMPTY : Int := 0
def BLACK : Int := 1
def WHITE : Int := 2
def OUTER : Int := 3
def ALLDIRECTIONS : List Int := [-11, -10, -9, -1, 1, 9, 10, 11]
def BOARDSIZE : Nat := 100
def LEGALMOVSBUFSIZE : Nat := 65

/-- The `int *board` array: a list of cell values. -/
abbrev Board := List Int

/-- Array read `board[i]`; `none` when `i` is outside the array. -/
def rd (b : Board) (i : Int) : Option Int :=
  if 0 ≤ i then b.get? i.toNat else none

/-- Array write `board[i] = v`; `none` when `i` is outside the array. -/
def wr (b : Board) (i : Int) (v : Int) : Option Board :=
  if 0 ≤ i ∧ i.toNat < b.length then some (b.set i.toNat v) else none

/-! ## Board model: global-board primitives -/

/-- Board after `initialise_board`: rows 0 and 9 and columns 0 and 9 hold OUTER,
the four centre cells hold the opening pattern, the rest is EMPTY. -/
def initialise_board : Board :=
  ((List.range 100).map (fun i =>
    if i ≤ 9 then OUTER
    else if i ≤ 89 then (if i % 10 ≥ 1 ∧ i % 10 ≤ 8 then EMPTY else OUTER)
    else OUTER)
  |>.set 44 WHITE |>.set 45 BLACK |>.set 54 BLACK |>.set 55 WHITE)

/-- Source `validp`: the `%` is only evaluated once `11 ≤ move ≤ 88` holds. -/
def validp (move : Int) : Bool :=
  decide (move ≥ 11) && decide (move ≤ 88) && decide (move.tmod 10 ≥ 1) && decide (move.tmod 10 ≤ 8)

/-- Source `opponent` (the log line for an illegal player is dropped). -/
def opponent (player : Int) : Int :=
  if player = BLACK then WHITE
  else if player = WHITE then BLACK
  else EMPTY

/-- The `while` loop of `find_bracket_piece`, one cell read per unit of fuel. -/
def find_bracket_walk (board : Board) (dir player : Int) : Nat → Int → Option Int
  | 0, _ => none
  | fuel + 1, square =>
    match rd board square with
    | none => none
    | some v =>
      if v = opponent player then find_bracket_walk board dir player fuel (square + dir)
      else if v = player then some square
      else some 0

/-- Source `find_bracket_piece`; the walk gets one unit of fuel per board cell. -/
def find_bracket_piece (board : Board) (square dir player : Int) : Option Int :=
  find_bracket_walk board dir player (BOARDSIZE + 1) square

/-- Source `would_flip`: the bracketing location, or 0. -/
def would_flip (board : Board) (move dir player : Int) : Option Int :=
  let c := move + dir
  match rd board c with
  | none => none
  | some v =>
    if v = opponent player then find_bracket_piece board (c + dir) dir player
    else some 0

/-- The direction loop of `legalp`: stops at the first direction that brackets. -/
def legalp_scan (board : Board) (move player : Int) : List Int → Option Bool
  | [] => some false
  | d :: ds =>
    match would_flip board move d player with
    | none => none
    | some r => if r ≠ 0 then some true else legalp_scan board move player ds

/-- Source `legalp`. -/
def legalp (board : Board) (move player : Int) : Option Bool :=
  if !validp move then some false
  else
    match rd board move with
    | none => none
    | some v =>
      if v = EMPTY then legalp_scan board move player ALLDIRECTIONS
      else some false

/-- The candidate locations `11..88` scanned by `legal_moves`. -/
def scan_locations : List Int := (List.range' 11 78).map Int.ofNat

/-- The scan loop of `legal_moves`: the locations written to slots `1..i`. -/
def legal_scan (board : Board) (player : Int) : List Int → Option (List Int)
  | [] => some []
  | move :: rest =>
    match legalp board move player with
    | none => none
    | some ok =>
      match legal_scan board player rest with
      | none => none
      | some found => some (if ok then move :: found else found)

/-- Source `legal_moves`: the written part of the `moves` buffer, slot 0 holding
the count and slots `1..count` the locations found. -/
def legal_moves (board : Board) (player : Int) : Option (List Int) :=
  match legal_scan board player scan_locations with
  | none => none
  | some found => some ((found.length : Int) :: found)

/-- The `do ... while (c != bracketer)` loop of `make_flips`. -/
def flip_walk (dir player bracketer : Int) : Nat → Board → Int → Option Board
  | 0, _, _ => none
  | fuel + 1, board, c =>
    match wr board c player with
    | none => none
    | some board1 =>
      if c + dir ≠ bracketer then flip_walk dir player bracketer fuel board1 (c + dir)
      else some board1

/-- Source `make_flips`. -/
def make_flips (board : Board) (move dir player : Int) : Option Board :=
  match would_flip board move dir player with
  | none => none
  | some bracketer =>
    if bracketer ≠ 0 then flip_walk dir player bracketer (BOARDSIZE + 1) board (move + dir)
    else some board

/-- The direction loop of `make_move`. -/
def make_move_dirs (move player : Int) : List Int → Board → Option Board
  | [], board => some board
  | d :: ds, board =>
    match make_flips board move d player with
    | none => none
    | some board1 => make_move_dirs move player ds board1

/-- Source `make_move`. -/
def make_move (board : Board) (move player : Int) : Option Board :=
  match wr board move player with
  | none => none
  | some board1 => make_move_dirs move player ALLDIRECTIONS board1

/-! ## Local-board variants used by the search -/

/-- Source `opponent_1`. -/
def opponent_1 (player : Int) : Int :=
  if player = BLACK then WHITE
  else if player = WHITE then BLACK
  else EMPTY

/-- The `while` loop of `find_bracket_piece_1`. -/
def find_bracket_walk_1 (dir player : Int) (board_modified : Board) : Nat → Int → Option Int
  | 0, _ => none
  | fuel + 1, square =>
    match rd board_modified square with
    | none => none
    | some v =>
      if v = opponent_1 player then find_bracket_walk_1 dir player board_modified fuel (square + dir)
      else if v = player then some square
      else some 0

/-- Source `find_bracket_piece_1`. -/
def find_bracket_piece_1 (square dir player : Int) (board_modified : Board) : Option Int :=
  find_bracket_walk_1 dir player board_modified (BOARDSIZE + 1) square

/-- Source `would_flip_1`. -/
def would_flip_1 (move dir player : Int) (board_modified : Board) : Option Int :=
  let c := move + dir
  match rd board_modified c with
  | none => none
  | some v =>
    if v = opponent_1 player then find_bracket_piece_1 (c + dir) dir player board_modified
    else some 0

/-- The direction loop of `legalp_1`. -/
def legalp_scan_1 (move player : Int) (board_modified : Board) : List Int → Option Bool
  | [] => some false
  | d :: ds =>
    match would_flip_1 move d player board_modified with
    | none => none
    | some r => if r ≠ 0 then some true else legalp_scan_1 move player board_modified ds

/-- Source `legalp_1`. -/
def legalp_1 (move player : Int) (board_modified : Board) : Option Bool :=
  if !validp move then some false
  else
    match rd board_modified move with
    | none => none
    | some v =>
      if v = EMPTY then legalp_scan_1 move player board_modified ALLDIRECTIONS
      else some false

/-- The scan loop of `legal_moves_1`. -/
def legal_scan_1 (player : Int) (board_modified : Board) : List Int → Option (List Int)
  | [] => some []
  | move :: rest =>
    match legalp_1 move player board_modified with
    | none => none
    | some ok =>
      match legal_scan_1 player board_modified rest with
      | none => none
      | some found => some (if ok then move :: found else found)

/-- Source `legal_moves_1`: slot 0 holds the count, slots `1..count` the moves. -/
def legal_moves_1 (player : Int) (board_modified : Board) : Option (List Int) :=
  match legal_scan_1 player board_modified scan_locations with
  | none => none
  | some found => some ((found.length : Int) :: found)

/-- The `do ... while` loop of `make_flips_1`. -/
def flip_walk_1 (dir player bracketer : Int) : Nat → Board → Int → Option Board
  | 0, _, _ => none
  | fuel + 1, board_modified, c =>
    match wr board_modified c player with
    | none => none
    | some board1 =>
      if c + dir ≠ bracketer then flip_walk_1 dir player bracketer fuel board1 (c + dir)
      else some board1

/-- Source `make_flips_1`. -/
def make_flips_1 (move dir player : Int) (board_modified : Board) : Option Board :=
  match would_flip_1 move dir player board_modified with
  | none => none
  | some bracketer =>
    if bracketer ≠ 0 then
      flip_walk_1 dir player bracketer (BOARDSIZE + 1) board_modified (move + dir)
    else some board_modified

/-- The direction loop of `make_modified_move`. -/
def make_modified_dirs (move player : Int) : List Int → Board → Option Board
  | [], board_modified => some board_modified
  | d :: ds, board_modified =>
    match make_flips_1 move d player board_modified with
    | none => none
    | some board1 => make_modified_dirs move player ds board1

/-- Source `make_modified_move`. -/
def make_modified_move (move : Int) (board_modified : Board) (player : Int) : Option Board :=
  match wr board_modified move player with
  | none => none
  | some board1 => make_modified_dirs move player ALLDIRECTIONS board1

/-! ## Static evaluator -/

/-- The counting loop of `static_evaluation` over `i = 11..88`; the state is
`(white, black, blank)`. -/
def static_count (board_modified : Board) : List Int → Int × Int × Int → Option (Int × Int × Int)
  | [], acc => some acc
  | i :: rest, (white, black, blank) =>
    if i.tmod 10 ≠ 0 ∧ i.tmod 10 ≠ 9 then
      match rd board_modified i with
      | none => none
      | some v =>
        if v = WHITE then static_count board_modified rest (white + 1, black, blank)
        else if v = BLACK then static_count board_modified rest (white, black + 1, blank)
        else if v = EMPTY then static_count board_modified rest (white, black, blank + 1)
        else static_count board_modified rest (white, black, blank)
    else static_count board_modified rest (white, black, blank)

/-- Source `static_evaluation`. -/
def static_evaluation (board_modified : Board) (player_type : Int) : Option Int :=
  match static_count board_modified scan_locations (0, 0, 0) with
  | none => none
  | some (white, black, blank) =>
    if player_type = WHITE then some (white - black)
    else if player_type = BLACK then some (black - white)
    else some blank

/-! ## Minimax search -/

/-- The 100-cell copy loops (`local_board[a] = board[a]`, `a < 100`). -/
def copy_board (src : Board) : Option Board :=
  if BOARDSIZE ≤ src.length then some (src.take BOARDSIZE) else none

/-- The maximizing `for` loop of `minimax`. `child` is the recursive call at
`depth-1`; `score` is the local that still holds its initial 0. The loop state
is `temp_board`, `maxEval`, `alpha`. -/
def minimax_max_loop (child : Board → Int → Int → Int → Option (Int × Board))
    (local_board : Board) (score beta : Int) : List Int → Board → Int → Int → Option Int
  | [], _, maxEval, _ => some maxEval
  | m :: rest, temp_board, maxEval, alpha =>
    match child temp_board m alpha beta with
    | none => none
    | some (eval, _) =>
      let maxEval := if eval > maxEval then eval else maxEval
      let alpha := if alpha < score then score else alpha
      if beta ≤ alpha then some maxEval
      else
        match copy_board local_board with
        | none => none
        | some temp_board => minimax_max_loop child local_board score beta rest temp_board maxEval alpha

/-- The minimizing `for` loop of `minimax`; the loop state is `temp_board`,
`minEval`, `beta`. -/
def minimax_min_loop (child : Board → Int → Int → Int → Option (Int × Board))
    (local_board : Board) (score alpha : Int) : List Int → Board → Int → Int → Option Int
  | [], _, minEval, _ => some minEval
  | m :: rest, temp_board, minEval, beta =>
    match child temp_board m alpha beta with
    | none => none
    | some (eval, _) =>
      let minEval := if eval < minEval then eval else minEval
      let beta := if score < beta then score else beta
      if beta ≤ alpha then some minEval
      else
        match copy_board local_board with
        | none => none
        | some temp_board => minimax_min_loop child local_board score alpha rest temp_board minEval beta

/-- Source `minimax`. The result pairs the returned score with the final
contents of the `local_board` array the caller passed in. -/
def minimax : Nat → Board → Int → Int → Int → Int → Int → Option (Int × Board)
  | depth, local_board, move, maximizing_player, current_player, alpha, beta =>
    let score : Int := 0
    if move = 0 then some (0, local_board)
    else
      match make_modified_move move local_board current_player with
      | none => none
      | some local_board =>
        let current_player := opponent_1 current_player
        match legal_moves_1 current_player local_board with
        | none => none
        | some moves =>
          let total_moves := moves.headD 0
          match depth with
          | 0 => (static_evaluation local_board maximizing_player).map (fun s => (s, local_board))
          | d + 1 =>
            if total_moves = 0 then
              (static_evaluation local_board maximizing_player).map (fun s => (s, local_board))
            else
              match copy_board local_board with
              | none => none
              | some temp_board =>
                let child := fun (tb : Board) (m a b : Int) =>
                  minimax d tb m maximizing_player current_player a b
                let children := (moves.drop 1).take total_moves.toNat
                if current_player = maximizing_player then
                  (minimax_max_loop child local_board score beta children temp_board (-100) alpha).map
                    (fun s => (s, local_board))
                else
                  (minimax_min_loop child local_board score alpha children temp_board 100 beta).map
                    (fun s => (s, local_board))

/-- The `for` loop of `search_for_best_move`; the state is the shared
`local_board`, `max` and `num`. -/
def search_loop (player : Int) (moves : List Int) : Nat → Nat → Board → Int → Nat → Option (Int × Nat)
  | 0, _, _, max, num => some (max, num)
  | n + 1, i, local_board, max, num =>
    match moves[i]? with
    | none => none
    | some m =>
      match minimax 6 local_board m player player (-1000) 1000 with
      | none => none
      | some (evaluation, local_board) =>
        if evaluation > max then search_loop player moves n (i + 1) local_board evaluation i
        else search_loop player moves n (i + 1) local_board max num

/-- Source `search_for_best_move`: the pair `(best_move[0], best_move[1])`. -/
def search_for_best_move (board : Board) (moves : List Int) (buffer_size : Int) (player : Int) :
    Option (Int × Int) :=
  if buffer_size = 0 then some (-1, -100)
  else
    match copy_board board with
    | none => none
    | some local_board =>
      match search_loop player moves buffer_size.toNat 0 local_board (-100) 0 with
      | none => none
      | some (max, num) =>
        match moves[num]? with
        | none => none
        | some best => some (best, max)

/-! ## Move encoding -/

/-- Source `get_move_string`: the C string written to `ms` (the characters before
the terminating NUL). `/` and `%` are C division and remainder. -/
def get_move_string (loc : Int) : String :=
  let new_loc := loc - (9 + 2 * (loc.tdiv 10))
  let row := new_loc.tdiv 8
  let col := new_loc.tmod 8
  String.mk [Char.ofNat (row + 48).toNat, Char.ofNat (col + 48).toNat, Char.ofNat 10]

/-- Source `get_loc`; `none` when the string has fewer than two characters. -/
def get_loc (movestring : String) : Option Int :=
  match movestring.data with
  | c0 :: c1 :: _ =>
    let row : Int := (c0.toNat : Int) - 48
    let col : Int := (c1.toNat : Int) - 48
    some ((10 * (row + 1)) + col + 1)
  | _ => none

/-- Modelled from the spec: the literal pass token copied by
`strncpy(move, "pass\n", MOVEBUFSIZE)`; `MOVEBUFSIZE` is declared in `comms.h`,
which is not part of the sources, and is taken to hold the whole literal. -/
def pass_token : String := "pass\n"

/-! ## Work distribution coordinator -/

/-- The `send_counts` / `displs` loop of `gen_move_master3`: for each unit in rank
order the pair `(send_counts[i], displs[i])`. The loop state is `remainder`, `sum`. -/
def send_counts_loop (elements_per_process : Int) : Nat → Int → Int → List (Int × Int)
  | 0, _, _ => []
  | n + 1, remainder, sum =>
    let count := if remainder > 0 then elements_per_process + 1 else elements_per_process
    let remainder := if remainder > 0 then remainder - 1 else remainder
    (count, sum) :: send_counts_loop elements_per_process n remainder (sum + count)

/-- The shift loop `all_legal_moves[j] = all_legal_moves[j+1]`, `j < number_legal_moves`. -/
def shift_moves : Nat → Nat → List Int → Option (List Int)
  | 0, _, all_legal_moves => some all_legal_moves
  | n + 1, j, all_legal_moves =>
    match all_legal_moves[j + 1]? with
    | none => none
    | some v =>
      if j < all_legal_moves.length then shift_moves n (j + 1) (all_legal_moves.set j v)
      else none

/-- The part of the send buffer `MPI_Scatterv` delivers to one unit: `count`
elements starting at displacement `displ`. -/
def scatter_chunk (sendbuf : List Int) (count displ : Int) : Option (List Int) :=
  if 0 ≤ count ∧ 0 ≤ displ ∧ displ.toNat + count.toNat ≤ sendbuf.length then
    some ((sendbuf.drop displ.toNat).take count.toNat)
  else none

/-- The receive buffers `MPI_Scatterv` fills, in rank order, from the send
buffer and the `(send_counts[i], displs[i])` pairs. -/
def scatterv (sendbuf : List Int) : List (Int × Int) → Option (List (List Int))
  | [] => some []
  | (count, displ) :: rest =>
    match scatter_chunk sendbuf count displ with
    | none => none
    | some receive_buffer =>
      match scatterv sendbuf rest with
      | none => none
      | some others => some (receive_buffer :: others)

/-- One unit's side of `MPI_Scatterv`: the chunk it is sent is written to its
`receive_buffer`, an array of `capacity` ints. A chunk longer than the buffer is
written past the end of the array, which has no result. -/
def receive_chunk (capacity : Int) (chunk : List Int) : Option (List Int) :=
  if (chunk.length : Int) ≤ capacity then some chunk else none

/-- The units of rank 1 and up (`run_worker`): each receives its chunk into a
`receive_buffer` of 15 ints (`malloc(sizeof(int) * 15)`) and runs
`search_for_best_move` on its `(buffer_size, receive_buffer)` and its broadcast
copy of the board. The results are in rank order. -/
def gather_workers (board : Board) (player : Int) :
    List (Int × List Int) → Option (List (Int × Int))
  | [] => some []
  | (buffer_size, chunk) :: rest =>
    match receive_chunk 15 chunk with
    | none => none
    | some receive_buffer =>
      match search_for_best_move board receive_buffer buffer_size player with
      | none => none
      | some best_move =>
        match gather_workers board player rest with
        | none => none
        | some others => some (best_move :: others)

/-- Every unit runs `search_for_best_move` on the chunk it received: rank 0 in
`gen_move_master3`, where the `receive_buffer` holds `elements_per_process + 1`
ints, the others in `run_worker`; `MPI_Gatherv` collects the pairs in rank
order. -/
def gather_best (board : Board) (player : Int) (elements_per_process : Int) :
    List (Int × List Int) → Option (List (Int × Int))
  | [] => some []
  | (buffer_size, chunk) :: rest =>
    match receive_chunk (elements_per_process + 1) chunk with
    | none => none
    | some receive_buffer =>
      match search_for_best_move board receive_buffer buffer_size player with
      | none => none
      | some best_move =>
        match gather_workers board player rest with
        | none => none
        | some others => some (best_move :: others)

/-- The selection loop of `gen_move_master3` over the gathered pairs; the state
is `best_move_loc`, `evaluation`. -/
def select_best : List (Int × Int) → Int → Int → Int × Int
  | [], best_move_loc, evaluation => (best_move_loc, evaluation)
  | (mv, sc) :: rest, best_move_loc, evaluation =>
    if sc > evaluation then select_best rest mv sc
    else select_best rest best_move_loc evaluation

/-- The chunk sizes and displacements `gen_move_master3` computes for
`number_legal_moves` moves and `comm_sz` units. -/
def partition_moves (number_legal_moves : Int) (comm_sz : Nat) : List (Int × Int) :=
  let elements_per_process := number_legal_moves.tdiv comm_sz
  let remainder := number_legal_moves.tmod comm_sz
  send_counts_loop elements_per_process comm_sz remainder 0

/-- The `send_counts` array of `gen_move_master3`. -/
def send_counts (number_legal_moves : Int) (comm_sz : Nat) : List Int :=
  (partition_moves number_legal_moves comm_sz).map Prod.fst

/-- The `displs` array of `gen_move_master3`. -/
def displs (number_legal_moves : Int) (comm_sz : Nat) : List Int :=
  (partition_moves number_legal_moves comm_sz).map Prod.snd

/-- The chunks of one turn in rank order: the legal-move buffer is shifted to
start at index 0 and scattered by `send_counts` and `displs`. -/
def scatter_moves (all_legal_moves : List Int) (comm_sz : Nat) : Option (List (List Int)) :=
  let number_legal_moves := all_legal_moves.headD 0
  match shift_moves number_legal_moves.toNat 0 all_legal_moves with
  | none => none
  | some shifted => scatterv shifted (partition_moves number_legal_moves comm_sz)

/-- The gathered `(move, score)` pairs of one turn, in rank order: the chunks are
scattered, every unit receives its chunk into its own `receive_buffer` and
searches it. A division by `comm_sz = 0` has no defined result. -/
def gathered_results (board : Board) (my_colour : Int) (comm_sz : Nat) :
    Option (List (Int × Int)) :=
  if comm_sz = 0 then none
  else
    match legal_moves board my_colour with
    | none => none
    | some all_legal_moves =>
      let number_legal_moves := all_legal_moves.headD 0
      let elements_per_process := number_legal_moves.tdiv comm_sz
      match scatter_moves all_legal_moves comm_sz with
      | none => none
      | some chunks =>
        gather_best board my_colour elements_per_process
          ((send_counts number_legal_moves comm_sz).zip chunks)

/-- Source `gen_move_master3`: the move string emitted, the canonical board after
the turn, and the selected pair `(best_move_loc, evaluation)`. -/
def gen_move_master3 (board : Board) (my_colour : Int) (comm_sz : Nat) :
    Option (String × Board × Int × Int) :=
  match gathered_results board my_colour comm_sz with
  | none => none
  | some receive_buffer_best_moves =>
    let (best_move_loc, evaluation) := select_best receive_buffer_best_moves (-1) (-100)
    let loc := best_move_loc
    if loc = -1 then some (pass_token, board, best_move_loc, evaluation)
    else
      match make_move board loc my_colour with
      | none => none
      | some board1 => some (get_move_string loc, board1, best_move_loc, evaluation)

/-! ## Specification vocabulary -/

/-- Border cell: row or column is 0 or 9. -/
def isBorder (i : Nat) : Prop := i / 10 = 0 ∨ i / 10 = 9 ∨ i % 10 = 0 ∨ i % 10 = 9

instance (i : Nat) : Decidable (isBorder i) := by unfold isBorder; infer_instance

/-- Well-formed board: 100 cells, border cells hold OUTER, interior cells hold
EMPTY, BLACK or WHITE. -/
def WellFormed (b : Board) : Prop :=
  b.length = 100 ∧ ∀ i : Nat, i < 100 →
    if isBorder i then b[i]? = some OUTER
    else (b[i]? = some EMPTY ∨ b[i]? = some BLACK ∨ b[i]? = some WHITE)

instance (b : Board) : Decidable (WellFormed b) := by unfold WellFormed; infer_instance

/-- A bracket at distance `k` from `loc` in direction `d`. -/
def Bracket (b : Board) (loc d player : Int) (k : Nat) : Prop :=
  2 ≤ k ∧ (∀ j : Nat, 1 ≤ j → j < k → rd b (loc + j * d) = some (opponent player)) ∧
    rd b (loc + k * d) = some player

/-- Number of steps from `x` in direction `d` to the border line the ray meets. -/
def pot (d x : Int) : Int :=
  if d = 1 ∨ d = 11 ∨ d = -9 then 9 - x % 10
  else if d = -1 ∨ d = -11 ∨ d = 9 then x % 10
  else if d = 10 then 9 - x / 10
  else x / 10

/-- Legality as the spec words it: `loc` is interior, holds EMPTY, and at least
one of the 8 directions yields a bracket (`would_flip` nonzero). -/
def Legal (b : Board) (player loc : Int) : Prop :=
  validp loc = true ∧ rd b loc = some EMPTY ∧
    ∃ d ∈ ALLDIRECTIONS, ∃ r, would_flip b loc d player = some r ∧ r ≠ 0

/-- Cells strictly between `move` and a bracket of the board `b`, in a direction
selected by `S`. -/
def Flipped (b : Board) (player move : Int) (S : Int → Prop) (x : Int) : Prop :=
  ∃ d, S d ∧ ∃ k : Nat, Bracket b move d player k ∧ ∃ j : Nat, 1 ≤ j ∧ j < k ∧ x = move + j * d

/-- Cell `x` lies strictly between `move` and the bracket that `would_flip` finds
on the board `b` in some direction of ALLDIRECTIONS. -/
def FlipCell (b : Board) (player move x : Int) : Prop :=
  ∃ d ∈ ALLDIRECTIONS, ∃ r, would_flip b move d player = some r ∧ r ≠ 0 ∧
    ∃ j k : Nat, 1 ≤ j ∧ j < k ∧ x = move + j * d ∧ r = move + k * d

/-- The `(count, displacement)` pairs are contiguous from `s`: each displacement
is `s` plus the sum of the counts before it, and no count is negative. -/
def Contiguous : Int → List (Int × Int) → Prop
  | _, [] => True
  | s, (count, displ) :: rest => displ = s ∧ 0 ≤ count ∧ Contiguous (s + count) rest

/-- The 64 interior cells: rows and columns 1..8. -/
def interior_cells : List Int :=
  (List.range' 1 8).flatMap (fun r => (List.range' 1 8).map (fun c => ((10 * r + c : Nat) : Int)))

/-- Number of interior cells of `b` holding the value `v`. -/
def cell_count (b : Board) (v : Int) : Int :=
  ((interior_cells.countP (fun i => rd b i == some v) : Nat) : Int)

/-- The per-move scores `search_for_best_move` computes in its loop: `minimax` is
called on each move in chunk order, on the `local_board` array as the previous
call left it. -/
def chunk_scores (player : Int) : List Int → Board → Option (List Int)
  | [], _ => some []
  | m :: rest, local_board =>
    match minimax 6 local_board m player player (-1000) 1000 with
    | none => none
    | some (evaluation, local_board) =>
      match chunk_scores player rest local_board with
      | none => none
      | some es => some (evaluation :: es)

/-- A small well-formed position: BLACK on 11, WHITE on 12, all else EMPTY. -/
def short_board : Board :=
  [3, 3, 3, 3, 3, 3, 3, 3, 3, 3,
   3, 1, 2, 0, 0, 0, 0, 0, 0, 3,
   3, 0, 0, 0, 0, 0, 0, 0, 0, 3,
   3, 0, 0, 0, 0, 0, 0, 0, 0, 3,
   3, 0, 0, 0, 0, 0, 0, 0, 0, 3,
   3, 0, 0, 0, 0, 0, 0, 0, 0, 3,
   3, 0, 0, 0, 0, 0, 0, 0, 0, 3,
   3, 0, 0, 0, 0, 0, 0, 0, 0, 3,
   3, 0, 0, 0, 0, 0, 0, 0, 0, 3,
   3, 3, 3, 3, 3, 3, 3, 3, 3, 3]

/-- The position `short_board` after BLACK plays 13: WHITE has no move left. -/
def short_board_after : Board :=
  [3, 3, 3, 3, 3, 3, 3, 3, 3, 3,
   3, 1, 1, 1, 0, 0, 0, 0, 0, 3,
   3, 0, 0, 0, 0, 0, 0, 0, 0, 3,
   3, 0, 0, 0, 0, 0, 0, 0, 0, 3,
   3, 0, 0, 0, 0, 0, 0, 0, 0, 3,
   3, 0, 0, 0, 0, 0, 0, 0, 0, 3,
   3, 0, 0, 0, 0, 0, 0, 0, 0, 3,
   3, 0, 0, 0, 0, 0, 0, 0, 0, 3,
   3, 0, 0, 0, 0, 0, 0, 0, 0, 3,
   3, 3, 3, 3, 3, 3, 3, 3, 3, 3]

/-- The scores of the child moves, one recursive call per move, in list order. -/
def child_scores (child : Int → Option Int) : List Int → Option (List Int)
  | [] => some []
  | m :: rest =>
    match child m with
    | none => none
    | some s =>
      match child_scores child rest with
      | none => none
      | some others => some (s :: others)

/-- Plain depth-limited minimax as the spec words it, without bounds: apply the
candidate move for `current_player`, switch to the opponent, enumerate the
opponent's legal moves; at depth 0 or without a legal move return the static
evaluation for `maximizing_player`; otherwise recurse once per child move at
`depth-1` over all legal child moves and take the maximum of the child scores when
the player to move is the maximizing player and the minimum otherwise. -/
def plain_minimax : Nat → Board → Int → Int → Int → Option Int
  | depth, board, move, maximizing_player, current_player =>
    match make_modified_move move board current_player with
    | none => none
    | some next =>
      let current_player := opponent_1 current_player
      match legal_moves_1 current_player next with
      | none => none
      | some moves =>
        match depth with
        | 0 => static_evaluation next maximizing_player
        | d + 1 =>
          match moves.drop 1 with
          | [] => static_evaluation next maximizing_player
          | first :: others =>
            match child_scores
                (fun m => plain_minimax d next m maximizing_player current_player)
                (first :: others) with
            | none => none
            | some [] => none
            | some (s :: scores) =>
              if current_player = maximizing_player then some (scores.foldl max s)
              else some (scores.foldl min s)

/-- A well-formed position with four EMPTY cells (35, 52, 55, 62) on which BLACK may
play 35. -/
def prune_board : Board :=
  [3, 3, 3, 3, 3, 3, 3, 3, 3, 3,
   3, 1, 1, 2, 2, 1, 1, 2, 1, 3,
   3, 2, 1, 1, 1, 1, 2, 1, 1, 3,
   3, 2, 1, 2, 1, 0, 1, 1, 1, 3,
   3, 1, 1, 1, 2, 1, 1, 1, 1, 3,
   3, 1, 0, 1, 1, 0, 1, 1, 1, 3,
   3, 1, 0, 1, 1, 1, 2, 1, 2, 3,
   3, 1, 1, 1, 1, 1, 2, 1, 1, 3,
   3, 1, 1, 1, 1, 1, 2, 1, 1, 3,
   3, 3, 3, 3, 3, 3, 3, 3, 3, 3]

/-- The position `prune_board` after BLACK plays 35; WHITE may play 55 or 62. -/
def prune_root : Board :=
  [3, 3, 3, 3, 3, 3, 3, 3, 3, 3,
   3, 1, 1, 2, 2, 1, 1, 2, 1, 3,
   3, 2, 1, 1, 1, 1, 2, 1, 1, 3,
   3, 2, 1, 2, 1, 1, 1, 1, 1, 3,
   3, 1, 1, 1, 1, 1, 1, 1, 1, 3,
   3, 1, 0, 1, 1, 0, 1, 1, 1, 3,
   3, 1, 0, 1, 1, 1, 2, 1, 2, 3,
   3, 1, 1, 1, 1, 1, 2, 1, 1, 3,
   3, 1, 1, 1, 1, 1, 2, 1, 1, 3,
   3, 3, 3, 3, 3, 3, 3, 3, 3, 3]

/-- The position `prune_root` after WHITE plays 55; BLACK has no move. -/
def prune_first : Board :=
  [3, 3, 3, 3, 3, 3, 3, 3, 3, 3,
   3, 1, 1, 2, 2, 1, 1, 2, 1, 3,
   3, 2, 1, 1, 1, 1, 2, 1, 1, 3,
   3, 2, 1, 2, 1, 1, 1, 1, 1, 3,
   3, 1, 1, 1, 2, 1, 1, 1, 1, 3,
   3, 1, 0, 1, 1, 2, 1, 1, 1, 3,
   3, 1, 0, 1, 1, 1, 2, 1, 2, 3,
   3, 1, 1, 1, 1, 1, 2, 1, 1, 3,
   3, 1, 1, 1, 1, 1, 2, 1, 1, 3,
   3, 3, 3, 3, 3, 3, 3, 3, 3, 3]

/-- The position `prune_root` after WHITE plays 62; BLACK may play 52 or 55. -/
def prune_second : Board :=
  [3, 3, 3, 3, 3, 3, 3, 3, 3, 3,
   3, 1, 1, 2, 2, 1, 1, 2, 1, 3,
   3, 2, 1, 1, 1, 1, 2, 1, 1, 3,
   3, 2, 1, 2, 1, 2, 1, 1, 1, 3,
   3, 1, 1, 1, 2, 1, 1, 1, 1, 3,
   3, 1, 0, 2, 1, 0, 1, 1, 1, 3,
   3, 1, 2, 2, 2, 2, 2, 1, 2, 3,
   3, 1, 1, 1, 1, 1, 2, 1, 1, 3,
   3, 1, 1, 1, 1, 1, 2, 1, 1, 3,
   3, 3, 3, 3, 3, 3, 3, 3, 3, 3]

/-- The position `prune_second` after BLACK plays 52. -/
def prune_second_a : Board :=
  [3, 3, 3, 3, 3, 3, 3, 3, 3, 3,
   3, 1, 1, 2, 2, 1, 1, 2, 1, 3,
   3, 2, 1, 1, 1, 1, 2, 1, 1, 3,
   3, 2, 1, 2, 1, 2, 1, 1, 1, 3,
   3, 1, 1, 1, 2, 1, 1, 1, 1, 3,
   3, 1, 1, 1, 1, 0, 1, 1, 1, 3,
   3, 1, 1, 1, 2, 2, 2, 1, 2, 3,
   3, 1, 1, 1, 1, 1, 2, 1, 1, 3,
   3, 1, 1, 1, 1, 1, 2, 1, 1, 3,
   3, 3, 3, 3, 3, 3, 3, 3, 3, 3]

/-- The position `prune_second` after BLACK plays 55. -/
def prune_second_b : Board :=
  [3, 3, 3, 3, 3, 3, 3, 3, 3, 3,
   3, 1, 1, 2, 2, 1, 1, 2, 1, 3,
   3, 2, 1, 1, 1, 1, 2, 1, 1, 3,
   3, 2, 1, 1, 1, 2, 1, 1, 1, 3,
   3, 1, 1, 1, 1, 1, 1, 1, 1, 3,
   3, 1, 0, 2, 1, 1, 1, 1, 1, 3,
   3, 1, 2, 2, 1, 1, 1, 1, 2, 3,
   3, 1, 1, 1, 1, 1, 2, 1, 1, 3,
   3, 1, 1, 1, 1, 1, 2, 1, 1, 3,
   3, 3, 3, 3, 3, 3, 3, 3, 3, 3]

/-- A well-formed position with BLACK on 11 and 12 and WHITE on 22; BLACK may play
32 or 33. -/
def shared_board : Board :=
  [3, 3, 3, 3, 3, 3, 3, 3, 3, 3,
   3, 1, 1, 0, 0, 0, 0, 0, 0, 3,
   3, 0, 2, 0, 0, 0, 0, 0, 0, 3,
   3, 0, 0, 0, 0, 0, 0, 0, 0, 3,
   3, 0, 0, 0, 0, 0, 0, 0, 0, 3,
   3, 0, 0, 0, 0, 0, 0, 0, 0, 3,
   3, 0, 0, 0, 0, 0, 0, 0, 0, 3,
   3, 0, 0, 0, 0, 0, 0, 0, 0, 3,
   3, 0, 0, 0, 0, 0, 0, 0, 0, 3,
   3, 3, 3, 3, 3, 3, 3, 3, 3, 3]

/-- The position `shared_board` after BLACK plays 32. -/
def shared_after_32 : Board :=
  [3, 3, 3, 3, 3, 3, 3, 3, 3, 3,
   3, 1, 1, 0, 0, 0, 0, 0, 0, 3,
   3, 0, 1, 0, 0, 0, 0, 0, 0, 3,
   3, 0, 1, 0, 0, 0, 0, 0, 0, 3,
   3, 0, 0, 0, 0, 0, 0, 0, 0, 3,
   3, 0, 0, 0, 0, 0, 0, 0, 0, 3,
   3, 0, 0, 0, 0, 0, 0, 0, 0, 3,
   3, 0, 0, 0, 0, 0, 0, 0, 0, 3,
   3, 0, 0, 0, 0, 0, 0, 0, 0, 3,
   3, 3, 3, 3, 3, 3, 3, 3, 3, 3]

/-- The position `shared_after_32` after BLACK also plays 33. -/
def shared_after_32_33 : Board :=
  [3, 3, 3, 3, 3, 3, 3, 3, 3, 3,
   3, 1, 1, 0, 0, 0, 0, 0, 0, 3,
   3, 0, 1, 0, 0, 0, 0, 0, 0, 3,
   3, 0, 1, 1, 0, 0, 0, 0, 0, 3,
   3, 0, 0, 0, 0, 0, 0, 0, 0, 3,
   3, 0, 0, 0, 0, 0, 0, 0, 0, 3,
   3, 0, 0, 0, 0, 0, 0, 0, 0, 3,
   3, 0, 0, 0, 0, 0, 0, 0, 0, 3,
   3, 0, 0, 0, 0, 0, 0, 0, 0, 3,
   3, 3, 3, 3, 3, 3, 3, 3, 3, 3]

/-- The position `shared_board` after BLACK plays 33. -/
def shared_after_33 : Board :=
  [3, 3, 3, 3, 3, 3, 3, 3, 3, 3,
   3, 1, 1, 0, 0, 0, 0, 0, 0, 3,
   3, 0, 1, 0, 0, 0, 0, 0, 0, 3,
   3, 0, 0, 1, 0, 0, 0, 0, 0, 3,
   3, 0, 0, 0, 0, 0, 0, 0, 0, 3,
   3, 0, 0, 0, 0, 0, 0, 0, 0, 3,
   3, 0, 0, 0, 0, 0, 0, 0, 0, 3,
   3, 0, 0, 0, 0, 0, 0, 0, 0, 3,
   3, 0, 0, 0, 0, 0, 0, 0, 0, 3,
   3, 3, 3, 3, 3, 3, 3, 3, 3, 3]

/-- The loop of `count` over `i = 1..88`: the state is `cnt`. -/
def count_loop (player : Int) (board : Board) : List Int → Int → Option Int
  | [], cnt => some cnt
  | i :: rest, cnt =>
    match rd board i with
    | none => none
    | some v => count_loop player board rest (if v = player then cnt + 1 else cnt)

/-- The cell indices `1..88` the loop of `count` runs over. -/
def count_locations : List Int := (List.range' 1 88).map Int.ofNat

/-- Source `count`: the number of cells `1..88` of `board` that hold `player`. -/
def count (player : Int) (board : Board) : Option Int :=
  count_loop player board count_locations 0

theorem validp_iff (x : Int) :
    validp x = true ↔ 11 ≤ x ∧ x ≤ 88 ∧ 1 ≤ x % 10 ∧ x % 10 ≤ 8 := by
  unfold validp
  simp only [Bool.and_eq_true, decide_eq_true_eq, ge_iff_le]
  constructor
  · rintro ⟨⟨⟨h1, h2⟩, h3⟩, h4⟩
    rw [Int.tmod_eq_emod (by omega) (by omega)] at h3 h4
    exact ⟨h1, h2, h3, h4⟩
  · rintro ⟨h1, h2, h3, h4⟩
    rw [Int.tmod_eq_emod (by omega) (by omega)]
    exact ⟨⟨⟨h1, h2⟩, h3⟩, h4⟩

theorem opponent_1_eq (p : Int) : opponent_1 p = opponent p := rfl

theorem opponent_cases {p : Int} (hp : p = BLACK ∨ p = WHITE) :
    (opponent p = BLACK ∨ opponent p = WHITE) ∧ opponent p ≠ p := by
  rcases hp with rfl | rfl <;> simp [opponent, BLACK, WHITE]

theorem mem_dirs {d : Int} (hd : d ∈ ALLDIRECTIONS) :
    d = -11 ∨ d = -10 ∨ d = -9 ∨ d = -1 ∨ d = 1 ∨ d = 9 ∨ d = 10 ∨ d = 11 := by
  simpa [ALLDIRECTIONS] using hd

theorem rd_eq_some {b : Board} {x v : Int} (h : rd b x = some v) :
    0 ≤ x ∧ x.toNat < b.length ∧ b[x.toNat]? = some v := by
  unfold rd at h
  split at h
  · rw [List.get?_eq_getElem?] at h
    refine ⟨by assumption, ?_, h⟩
    exact (List.getElem?_eq_some.mp h).1
  · cases h

theorem rd_of_nat (b : Board) (i : Nat) : rd b (i : Int) = b[i]? := by
  simp [rd]

theorem rd_wf {b : Board} (hb : WellFormed b) {x : Int} (h0 : 0 ≤ x) (h1 : x < 100) :
    ∃ v, rd b x = some v ∧
      (validp x = true → v = EMPTY ∨ v = BLACK ∨ v = WHITE) ∧ (validp x = false → v = OUTER) := by
  obtain ⟨i, rfl⟩ := Int.eq_ofNat_of_zero_le h0
  have hi : i < 100 := by omega
  have h := hb.2 i hi
  rw [rd_of_nat]
  by_cases hbd : isBorder i
  · rw [if_pos hbd] at h
    refine ⟨OUTER, h, ?_, fun _ => rfl⟩
    intro hv
    rw [validp_iff] at hv
    unfold isBorder at hbd
    omega
  · rw [if_neg hbd] at h
    have hv : validp (i : Int) = true := by
      rw [validp_iff]; unfold isBorder at hbd; omega
    rcases h with h | h | h
    · exact ⟨_, h, fun _ => Or.inl rfl, fun h' => by simp [hv] at h'⟩
    · exact ⟨_, h, fun _ => Or.inr (Or.inl rfl), fun h' => by simp [hv] at h'⟩
    · exact ⟨_, h, fun _ => Or.inr (Or.inr rfl), fun h' => by simp [hv] at h'⟩

/-- A cell holding a piece of a well-formed board is interior. -/
theorem piece_interior {b : Board} (hb : WellFormed b) {x v : Int} (h : rd b x = some v)
    (hv : v = BLACK ∨ v = WHITE) : validp x = true := by
  have hx := rd_eq_some h
  have hlen := hb.1
  obtain ⟨w, hw, _, h2⟩ := rd_wf hb hx.1 (by omega)
  rw [h] at hw
  cases hw
  by_contra hc
  have := h2 (by simpa using hc)
  rcases hv with rfl | rfl <;> simp [BLACK, WHITE, OUTER] at this

theorem pot_step {x d : Int} (hx : validp x = true) (hd : d ∈ ALLDIRECTIONS) :
    0 ≤ x + d ∧ x + d < 100 ∧ pot d (x + d) = pot d x - 1 ∧ 1 ≤ pot d x ∧ pot d x ≤ 8 := by
  rw [validp_iff] at hx
  rcases mem_dirs hd with rfl | rfl | rfl | rfl | rfl | rfl | rfl | rfl <;>
    simp only [pot] <;> norm_num <;> omega

theorem pot_nonneg {x : Int} (d : Int) (h0 : 0 ≤ x) (h1 : x < 100) : 0 ≤ pot d x := by
  unfold pot
  split_ifs <;> omega

theorem walk_spec {b : Board} (hb : WellFormed b) {p d : Int} (hp : p = BLACK ∨ p = WHITE)
    (hd : d ∈ ALLDIRECTIONS) :
    ∀ (fuel : Nat) (s : Int), 0 ≤ s → s < 100 → pot d s < fuel →
      ∃ r, find_bracket_walk b d p fuel s = some r ∧
        (r ≠ 0 → ∃ n : Nat, r = s + n * d ∧
          (∀ i : Nat, i < n → rd b (s + i * d) = some (opponent p)) ∧ rd b r = some p) ∧
        (∀ n : Nat, (∀ i : Nat, i < n → rd b (s + i * d) = some (opponent p)) →
          rd b (s + n * d) = some p → r = s + n * d) := by
  have hop := opponent_cases hp
  intro fuel
  induction fuel with
  | zero =>
    intro s h0 h1 hf
    have := pot_nonneg d h0 h1
    simp at hf; omega
  | succ fuel ih =>
    intro s h0 h1 hf
    obtain ⟨v, hv, -, -⟩ := rd_wf hb h0 h1
    simp only [find_bracket_walk, hv]
    by_cases h : v = opponent p
    · subst h
      rw [if_pos rfl]
      have hint := piece_interior hb hv hop.1
      obtain ⟨g0, g1, g2, -, -⟩ := pot_step hint hd
      obtain ⟨r, hr, hr1, hr2⟩ := ih (s + d) g0 g1 (by push_cast at hf; omega)
      refine ⟨r, hr, ?_, ?_⟩
      · intro hne
        obtain ⟨n, hn, hrun, hend⟩ := hr1 hne
        refine ⟨n + 1, by push_cast; rw [hn]; ring, ?_, hend⟩
        intro i hi
        rcases Nat.eq_zero_or_pos i with rfl | hpos
        · simpa using hv
        · obtain ⟨j, rfl⟩ : ∃ j, i = j + 1 := ⟨i - 1, by omega⟩
          have := hrun j (by omega)
          rw [← this]; congr 1; push_cast; ring
      · intro n hrun hend
        rcases Nat.eq_zero_or_pos n with rfl | hpos
        · simp at hend
          rw [hv] at hend
          exact absurd (Option.some.inj hend) hop.2
        · obtain ⟨m, rfl⟩ : ∃ m, n = m + 1 := ⟨n - 1, by omega⟩
          have := hr2 m (fun i hi => by
            have := hrun (i + 1) (by omega)
            rw [← this]; congr 1; push_cast; ring) (by
            rw [← hend]; congr 1; push_cast; ring)
          rw [this]; push_cast; ring
    · rw [if_neg h]
      have hnot : ∀ n : Nat, (∀ i : Nat, i < n → rd b (s + i * d) = some (opponent p)) →
          rd b (s + n * d) = some p → n = 0 := by
        intro n hrun _
        by_contra hn
        have := hrun 0 (by omega)
        simp [hv] at this
        exact h this
      by_cases h2 : v = p
      · subst h2
        rw [if_pos rfl]
        refine ⟨s, rfl, fun _ => ⟨0, by simp, fun i hi => by omega, hv⟩, ?_⟩
        intro n hrun hend
        rw [hnot n hrun hend]; simp
      · rw [if_neg h2]
        refine ⟨0, rfl, fun hne => absurd rfl hne, ?_⟩
        intro n hrun hend
        have := hnot n hrun hend
        subst this
        simp [hv] at hend
        exact absurd hend h2

theorem find_bracket_walk_1_eq (b : Board) (d p : Int) (fuel : Nat) (s : Int) :
    find_bracket_walk_1 d p b fuel s = find_bracket_walk b d p fuel s := by
  induction fuel generalizing s with
  | zero => rfl
  | succ n ih => simp only [find_bracket_walk_1, find_bracket_walk, ih, opponent_1_eq]

theorem would_flip_1_eq (b : Board) (m d p : Int) :
    would_flip_1 m d p b = would_flip b m d p := by
  simp only [would_flip_1, would_flip, find_bracket_piece_1, find_bracket_piece,
    find_bracket_walk_1_eq, opponent_1_eq]

/-- Behaviour of `would_flip` on a well-formed board. -/
theorem would_flip_spec {b : Board} (hb : WellFormed b) {p loc d : Int}
    (hp : p = BLACK ∨ p = WHITE) (hloc : validp loc = true) (hd : d ∈ ALLDIRECTIONS) :
    ∃ r, would_flip b loc d p = some r ∧
      (r ≠ 0 → ∃ k, Bracket b loc d p k ∧ r = loc + k * d) ∧
      (∀ k, Bracket b loc d p k → r = loc + k * d) := by
  have hop := opponent_cases hp
  obtain ⟨c0, c1, hpc, hp1, hp8⟩ := pot_step hloc hd
  obtain ⟨v, hv, -, -⟩ := rd_wf hb c0 c1
  simp only [would_flip, hv]
  by_cases h : v = opponent p
  · subst h
    rw [if_pos rfl]
    have hint := piece_interior hb hv hop.1
    obtain ⟨g0, g1, g2, -, -⟩ := pot_step hint hd
    obtain ⟨r, hr, hr1, hr2⟩ := walk_spec hb hp hd (BOARDSIZE + 1) (loc + d + d) g0 g1
      (by simp only [BOARDSIZE]; push_cast; omega)
    refine ⟨r, hr, ?_, ?_⟩
    · intro hne
      obtain ⟨n, hn, hrun, hend⟩ := hr1 hne
      refine ⟨n + 2, ⟨by omega, ?_, ?_⟩, by rw [hn]; push_cast; ring⟩
      · intro j hj1 hj2
        rcases Nat.lt_or_ge j 2 with hlt | hge
        · obtain rfl : j = 1 := by omega
          simpa using hv
        · obtain ⟨i, rfl⟩ : ∃ i, j = i + 2 := ⟨j - 2, by omega⟩
          have := hrun i (by omega)
          rw [← this]; congr 1; push_cast; ring
      · rw [← hend, hn]; congr 1; push_cast; ring
    · rintro k ⟨hk, hrun, hend⟩
      obtain ⟨n, rfl⟩ : ∃ n, k = n + 2 := ⟨k - 2, by omega⟩
      have := hr2 n (fun i hi => by
        have := hrun (i + 2) (by omega) (by omega)
        rw [← this]; congr 1; push_cast; ring) (by
        rw [← hend]; congr 1; push_cast; ring)
      rw [this]; push_cast; ring
  · rw [if_neg h]
    refine ⟨0, rfl, fun hne => absurd rfl hne, ?_⟩
    rintro k ⟨hk, hrun, -⟩
    have := hrun 1 (by omega) (by omega)
    simp [hv] at this
    exact absurd this h

/-! ### Legal moves -/

set_option maxRecDepth 100000 in
theorem initialise_board_wf : WellFormed initialise_board := by decide

theorem legalp_scan_1_eq (b : Board) (m p : Int) (ds : List Int) :
    legalp_scan_1 m p b ds = legalp_scan b m p ds := by
  induction ds with
  | nil => rfl
  | cons d ds ih => simp only [legalp_scan_1, legalp_scan, ih, would_flip_1_eq]

theorem legalp_1_eq (b : Board) (m p : Int) : legalp_1 m p b = legalp b m p := by
  simp only [legalp_1, legalp, legalp_scan_1_eq]

theorem legal_scan_1_eq (b : Board) (p : Int) (l : List Int) :
    legal_scan_1 p b l = legal_scan b p l := by
  induction l with
  | nil => rfl
  | cons m l ih => simp only [legal_scan_1, legal_scan, ih, legalp_1_eq]

theorem legal_moves_1_eq (b : Board) (p : Int) : legal_moves_1 p b = legal_moves b p := by
  simp only [legal_moves_1, legal_moves, legal_scan_1_eq]

theorem legalp_scan_spec {b : Board} (hb : WellFormed b) {p m : Int}
    (hp : p = BLACK ∨ p = WHITE) (hm : validp m = true) :
    ∀ ds : List Int, (∀ d ∈ ds, d ∈ ALLDIRECTIONS) →
      ∃ ok, legalp_scan b m p ds = some ok ∧
        (ok = true ↔ ∃ d ∈ ds, ∃ r, would_flip b m d p = some r ∧ r ≠ 0) := by
  intro ds
  induction ds with
  | nil => intro _; exact ⟨false, rfl, by simp⟩
  | cons d ds ih =>
    intro hds
    obtain ⟨r, hr, -, -⟩ := would_flip_spec hb hp hm (hds d (List.mem_cons_self _ _))
    obtain ⟨ok, hok, hiff⟩ := ih (fun e he => hds e (List.mem_cons_of_mem _ he))
    simp only [legalp_scan, hr]
    by_cases h0 : r = 0
    · subst h0
      refine ⟨ok, by simpa using hok, ?_⟩
      rw [hiff]
      constructor
      · rintro ⟨e, he, h⟩
        exact ⟨e, List.mem_cons_of_mem _ he, h⟩
      · rintro ⟨e, he, r', hr', hne⟩
        rcases List.mem_cons.mp he with rfl | he
        · rw [hr] at hr'; cases hr'; exact absurd rfl hne
        · exact ⟨e, he, r', hr', hne⟩
    · refine ⟨true, by simp [h0], ?_⟩
      simp only [true_iff]
      exact ⟨d, List.mem_cons_self _ _, r, hr, h0⟩

theorem legalp_spec {b : Board} (hb : WellFormed b) {p : Int} (hp : p = BLACK ∨ p = WHITE)
    (m : Int) : ∃ ok, legalp b m p = some ok ∧ (ok = true ↔ Legal b p m) := by
  unfold legalp Legal
  by_cases hm : validp m = true
  · have hm' := (validp_iff m).mp hm
    obtain ⟨v, hv, -, -⟩ := rd_wf hb (x := m) (by omega) (by omega)
    simp only [hm, Bool.not_true, Bool.false_eq_true, if_false, hv]
    by_cases he : v = EMPTY
    · subst he
      obtain ⟨ok, hok, hiff⟩ := legalp_scan_spec hb hp hm ALLDIRECTIONS (fun _ h => h)
      refine ⟨ok, by simpa using hok, ?_⟩
      rw [hiff]; simp
    · refine ⟨false, by simp [he], ?_⟩
      simp only [Bool.false_eq_true, true_and, false_iff, not_and]
      intro h; cases h; exact absurd rfl he
  · refine ⟨false, by simp [hm], ?_⟩
    simp [hm]

theorem legal_scan_spec {b : Board} (hb : WellFormed b) {p : Int} (hp : p = BLACK ∨ p = WHITE) :
    ∀ l : List Int, ∃ found, legal_scan b p l = some found ∧ found.Sublist l ∧
      ∀ x, x ∈ found ↔ x ∈ l ∧ Legal b p x := by
  intro l
  induction l with
  | nil => exact ⟨[], rfl, List.Sublist.refl _, by simp⟩
  | cons m l ih =>
    obtain ⟨found, hf, hsub, hmem⟩ := ih
    obtain ⟨ok, hok, hiff⟩ := legalp_spec hb hp m
    simp only [legal_scan, hok, hf]
    cases ok with
    | true =>
      have hl : Legal b p m := hiff.mp rfl
      refine ⟨m :: found, by simp, hsub.cons₂ m, ?_⟩
      intro x
      simp only [List.mem_cons, hmem]
      constructor
      · rintro (rfl | ⟨h1, h2⟩)
        · exact ⟨Or.inl rfl, hl⟩
        · exact ⟨Or.inr h1, h2⟩
      · rintro ⟨rfl | h1, h2⟩
        · exact Or.inl rfl
        · exact Or.inr ⟨h1, h2⟩
    | false =>
      have hl : ¬ Legal b p m := fun h => by simpa using hiff.mpr h
      refine ⟨found, by simp, hsub.cons m, ?_⟩
      intro x
      simp only [List.mem_cons, hmem]
      constructor
      · rintro ⟨h1, h2⟩
        exact ⟨Or.inr h1, h2⟩
      · rintro ⟨rfl | h1, h2⟩
        · exact absurd h2 hl
        · exact ⟨h1, h2⟩

theorem scan_locations_sorted : scan_locations.Pairwise (· < ·) := by
  unfold scan_locations
  rw [List.pairwise_map]
  exact (List.pairwise_lt_range' 11 78).imp (fun h => Int.ofNat_lt.mpr h)

theorem mem_scan_locations {x : Int} : x ∈ scan_locations ↔ 11 ≤ x ∧ x ≤ 88 := by
  unfold scan_locations
  simp only [List.mem_map, List.mem_range'_1]
  constructor
  · rintro ⟨n, hn, rfl⟩
    simp only [Int.ofNat_eq_coe]; omega
  · intro h
    exact ⟨x.toNat, by omega, by simp only [Int.ofNat_eq_coe]; omega⟩

theorem legal_moves_spec {b : Board} (hb : WellFormed b) {p : Int} (hp : p = BLACK ∨ p = WHITE) :
    ∃ locs : List Int, legal_moves b p = some ((locs.length : Int) :: locs) ∧
      locs.Pairwise (· < ·) ∧ ∀ x, x ∈ locs ↔ Legal b p x := by
  obtain ⟨found, hf, hsub, hmem⟩ := legal_scan_spec hb hp scan_locations
  refine ⟨found, by simp [legal_moves, hf], scan_locations_sorted.sublist hsub, ?_⟩
  intro x
  rw [hmem, mem_scan_locations]
  constructor
  · exact fun h => h.2
  · intro h
    have := (validp_iff x).mp h.1
    exact ⟨⟨this.1, this.2.1⟩, h⟩

/-- C3: on a well-formed board, for a player in {BLACK, WHITE}, an interior
location `loc` and a direction `d` of ALLDIRECTIONS, `would_flip` (and
`would_flip_1`) return a value `r`; `r` is a nonzero value `x` exactly when
`x = loc + k*d` for some `k ≥ 2` such that the cells `loc+d .. loc+(k-1)*d` all
hold the opponent and cell `x` holds the player (a bracket); when no such `k`
exists the result is 0. -/
theorem C3_would_flip_bracket (b : Board) (player loc d : Int) (hb : WellFormed b)
    (hp : player = BLACK ∨ player = WHITE) (hloc : validp loc = true)
    (hd : d ∈ ALLDIRECTIONS) :
    ∃ r, would_flip b loc d player = some r ∧ would_flip_1 loc d player b = some r ∧
      (∀ x, (r = x ∧ x ≠ 0) ↔ ∃ k : Nat, Bracket b loc d player k ∧ x = loc + k * d) ∧
      ((¬ ∃ k : Nat, Bracket b loc d player k) → r = 0) := by
  obtain ⟨r, hr, h1, h2⟩ := would_flip_spec hb hp hloc hd
  refine ⟨r, hr, by rw [would_flip_1_eq]; exact hr, ?_, ?_⟩
  · intro x
    constructor
    · rintro ⟨rfl, hx⟩
      exact h1 hx
    · rintro ⟨k, hk, rfl⟩
      refine ⟨h2 k hk, ?_⟩
      have := (validp_iff _).mp (piece_interior hb hk.2.2 hp)
      omega
  · intro hno
    by_contra hne
    obtain ⟨k, hk, -⟩ := h1 hne
    exact hno ⟨k, hk⟩

theorem C3_would_flip_bracket_witness :
    WellFormed initialise_board ∧ validp 34 = true ∧ (10 : Int) ∈ ALLDIRECTIONS ∧
    ∃ r, would_flip initialise_board 34 10 BLACK = some r ∧
      would_flip_1 34 10 BLACK initialise_board = some r ∧
      (∀ x, (r = x ∧ x ≠ 0) ↔
        ∃ k : Nat, Bracket initialise_board 34 10 BLACK k ∧ x = 34 + k * 10) ∧
      ((¬ ∃ k : Nat, Bracket initialise_board 34 10 BLACK k) → r = 0) :=
  ⟨initialise_board_wf, by decide, by decide,
    C3_would_flip_bracket initialise_board BLACK 34 10 initialise_board_wf (Or.inl rfl)
      (by decide) (by decide)⟩

/-- C1: on a well-formed board, for a player in {BLACK, WHITE}, `legal_moves`
(and `legal_moves_1`) return the count `k` in slot 0 followed by `k` locations in
strictly increasing order, without repetition, and a location is listed exactly
when it is interior, holds EMPTY and some direction of ALLDIRECTIONS has a
nonzero `would_flip`. -/
theorem C1_legal_moves_exact (b : Board) (player : Int) (hb : WellFormed b)
    (hp : player = BLACK ∨ player = WHITE) :
    ∃ locs : List Int,
      legal_moves b player = some ((locs.length : Int) :: locs) ∧
      legal_moves_1 player b = some ((locs.length : Int) :: locs) ∧
      locs.Pairwise (· < ·) ∧ locs.Nodup ∧
      ∀ x, x ∈ locs ↔
        (validp x = true ∧ rd b x = some EMPTY ∧
          ∃ d ∈ ALLDIRECTIONS, ∃ r, would_flip b x d player = some r ∧ r ≠ 0) := by
  obtain ⟨locs, h1, h2, h3⟩ := legal_moves_spec hb hp
  refine ⟨locs, h1, by rw [legal_moves_1_eq]; exact h1, h2, ?_, h3⟩
  exact h2.imp (fun h => ne_of_lt h)

theorem C1_legal_moves_exact_witness :
    WellFormed initialise_board ∧
    ∃ locs : List Int,
      legal_moves initialise_board BLACK = some ((locs.length : Int) :: locs) ∧
      legal_moves_1 BLACK initialise_board = some ((locs.length : Int) :: locs) ∧
      locs.Pairwise (· < ·) ∧ locs.Nodup ∧
      ∀ x, x ∈ locs ↔
        (validp x = true ∧ rd initialise_board x = some EMPTY ∧
          ∃ d ∈ ALLDIRECTIONS, ∃ r, would_flip initialise_board x d BLACK = some r ∧ r ≠ 0) :=
  ⟨initialise_board_wf,
    C1_legal_moves_exact initialise_board BLACK initialise_board_wf (Or.inl rfl)⟩

/-! ### Applying a move -/

theorem wr_eq {b : Board} {i : Int} (v : Int) (h0 : 0 ≤ i) (h1 : i < b.length) :
    wr b i v = some (b.set i.toNat v) := by
  unfold wr
  rw [if_pos]
  exact ⟨h0, by omega⟩

theorem rd_set {b : Board} {i : Int} (v : Int) (h0 : 0 ≤ i) (h1 : i < b.length) (x : Int) :
    rd (b.set i.toNat v) x = if x = i then some v else rd b x := by
  unfold rd
  by_cases hx : 0 ≤ x
  · simp only [hx, if_true, List.get?_eq_getElem?, List.getElem?_set]
    by_cases hxi : x = i
    · subst hxi
      rw [if_pos rfl, if_pos rfl, if_pos (by omega)]
    · rw [if_neg hxi, if_neg (by omega)]
  · rw [if_neg hx, if_neg (by omega), if_neg hx]

theorem dir_ne_zero {d : Int} (hd : d ∈ ALLDIRECTIONS) : d ≠ 0 := by
  rcases mem_dirs hd with rfl | rfl | rfl | rfl | rfl | rfl | rfl | rfl <;> decide

theorem ray_disjoint {d e : Int} (hd : d ∈ ALLDIRECTIONS) (he : e ∈ ALLDIRECTIONS)
    (hne : d ≠ e) {i j : Nat} (hi : 1 ≤ i) (hi8 : i ≤ 8) (hj : 1 ≤ j) (hj8 : j ≤ 8) (m : Int) :
    m + i * d ≠ m + j * e := by
  rcases mem_dirs hd with rfl | rfl | rfl | rfl | rfl | rfl | rfl | rfl <;>
    rcases mem_dirs he with rfl | rfl | rfl | rfl | rfl | rfl | rfl | rfl <;>
    omega

theorem flip_walk_spec (d p : Int) (hd : d ≠ 0) :
    ∀ (n fuel : Nat) (B : Board) (c : Int), n < fuel →
      (∀ i : Nat, i ≤ n → 0 ≤ c + i * d ∧ c + i * d < B.length) →
      ∃ B', flip_walk d p (c + (n + 1) * d) fuel B c = some B' ∧ B'.length = B.length ∧
        (∀ x, (∃ i : Nat, i ≤ n ∧ x = c + i * d) → rd B' x = some p) ∧
        (∀ x, (¬ ∃ i : Nat, i ≤ n ∧ x = c + i * d) → rd B' x = rd B x) := by
  intro n
  induction n with
  | zero =>
    intro fuel B c hf hin
    obtain ⟨f, rfl⟩ : ∃ f, fuel = f + 1 := ⟨fuel - 1, by omega⟩
    have h0 := hin 0 (le_refl _)
    simp only [Nat.cast_zero, zero_mul, add_zero] at h0
    simp only [flip_walk, wr_eq p h0.1 h0.2]
    refine ⟨B.set c.toNat p, by simp, by simp, ?_, ?_⟩
    · rintro x ⟨i, hi, rfl⟩
      obtain rfl : i = 0 := by omega
      rw [rd_set p h0.1 h0.2]; simp
    · intro x hx
      rw [rd_set p h0.1 h0.2, if_neg]
      intro hxc
      exact hx ⟨0, le_refl _, by simp [hxc]⟩
  | succ n ih =>
    intro fuel B c hf hin
    obtain ⟨f, rfl⟩ : ∃ f, fuel = f + 1 := ⟨fuel - 1, by omega⟩
    have h0 := hin 0 (Nat.zero_le _)
    simp only [Nat.cast_zero, zero_mul, add_zero] at h0
    have hcont : c + d ≠ c + ((n + 1 : Nat) + 1 : Int) * d := by
      intro h
      have h2 : ((n : Int) + 1) * d = 0 := by push_cast at h; linarith
      rcases mul_eq_zero.mp h2 with h3 | h3
      · omega
      · exact hd h3
    simp only [flip_walk, wr_eq p h0.1 h0.2, if_pos hcont]
    have hlen : (B.set c.toNat p).length = B.length := by simp
    obtain ⟨B', hB', hl', hin', hout'⟩ := ih f (B.set c.toNat p) (c + d) (by omega) (by
      intro i hi
      have := hin (i + 1) (by omega)
      rw [hlen]
      have e : c + d + (i : Int) * d = c + ((i + 1 : Nat) : Int) * d := by push_cast; ring
      rw [e]; exact this)
    have etgt : c + d + ((n : Int) + 1) * d = c + ((n + 1 : Nat) + 1 : Int) * d := by
      push_cast; ring
    rw [etgt] at hB'
    refine ⟨B', hB', by rw [hl', hlen], ?_, ?_⟩
    · rintro x ⟨i, hi, rfl⟩
      rcases Nat.eq_zero_or_pos i with rfl | hpos
      · by_cases hx : ∃ i : Nat, i ≤ n ∧ c + ((0 : Nat) : Int) * d = c + d + i * d
        · exact hin' _ hx
        · rw [hout' _ hx, rd_set p h0.1 h0.2]; simp
      · obtain ⟨j, rfl⟩ : ∃ j, i = j + 1 := ⟨i - 1, by omega⟩
        exact hin' _ ⟨j, by omega, by push_cast; ring⟩
    · intro x hx
      have hx' : ¬ ∃ i : Nat, i ≤ n ∧ x = c + d + i * d := by
        rintro ⟨i, hi, rfl⟩
        exact hx ⟨i + 1, by omega, by push_cast; ring⟩
      rw [hout' _ hx', rd_set p h0.1 h0.2, if_neg]
      intro hxc
      exact hx ⟨0, Nat.zero_le _, by simp [hxc]⟩

theorem ray_pot {b : Board} (hb : WellFormed b) {p m d : Int} (hp : p = BLACK ∨ p = WHITE)
    (hm : validp m = true) (hd : d ∈ ALLDIRECTIONS) {k : Nat}
    (hrun : ∀ j : Nat, 1 ≤ j → j < k → rd b (m + j * d) = some (opponent p)) :
    ∀ j : Nat, j ≤ k →
      pot d (m + j * d) = pot d m - j ∧ 0 ≤ m + j * d ∧ m + j * d < 100 := by
  intro j
  induction j with
  | zero =>
    intro _
    have := (validp_iff m).mp hm
    simp only [Nat.cast_zero, zero_mul, add_zero, sub_zero, true_and]
    omega
  | succ j ih =>
    intro hj
    obtain ⟨h1, h2, h3⟩ := ih (by omega)
    have hint : validp (m + j * d) = true := by
      rcases Nat.eq_zero_or_pos j with rfl | hpos
      · simpa using hm
      · exact piece_interior hb (hrun j hpos (by omega)) (opponent_cases hp).1
    obtain ⟨g0, g1, g2, -, -⟩ := pot_step hint hd
    have e : m + ((j + 1 : Nat) : Int) * d = m + j * d + d := by push_cast; ring
    rw [e, g2, h1]
    refine ⟨by push_cast; ring, g0, g1⟩

theorem bracket_bound {b : Board} (hb : WellFormed b) {p m d : Int}
    (hp : p = BLACK ∨ p = WHITE) (hm : validp m = true) (hd : d ∈ ALLDIRECTIONS) {k : Nat}
    (hk : Bracket b m d p k) : k ≤ 7 := by
  obtain ⟨h1, -, -⟩ := ray_pot hb hp hm hd hk.2.1 k (le_refl _)
  have hint := piece_interior hb hk.2.2 hp
  obtain ⟨-, -, -, g1, -⟩ := pot_step hint hd
  obtain ⟨-, -, -, -, g8⟩ := pot_step hm hd
  omega

theorem bracket_unique {b : Board} {p m d : Int} (hp : p = BLACK ∨ p = WHITE) {k k' : Nat}
    (hk : Bracket b m d p k) (hk' : Bracket b m d p k') : k = k' := by
  have hop := (opponent_cases hp).2
  rcases Nat.lt_trichotomy k k' with h | h | h
  · have := hk'.2.1 k (by have := hk.1; omega) h
    rw [hk.2.2] at this
    exact absurd (Option.some.inj this).symm hop
  · exact h
  · have := hk.2.1 k' (by have := hk'.1; omega) h
    rw [hk'.2.2] at this
    exact absurd (Option.some.inj this).symm hop

theorem wf_of_changes {b B : Board} (hb : WellFormed b) (hlen : B.length = 100)
    (h : ∀ x : Int, 0 ≤ x → x < 100 → rd B x = rd b x ∨
      (validp x = true ∧ (rd B x = some BLACK ∨ rd B x = some WHITE))) : WellFormed B := by
  refine ⟨hlen, ?_⟩
  intro i hi
  have hbi := hb.2 i hi
  have hx := h (i : Int) (by omega) (by omega)
  rw [rd_of_nat, rd_of_nat] at hx
  by_cases hbd : isBorder i
  · rw [if_pos hbd] at hbi ⊢
    rcases hx with hx | ⟨hv, -⟩
    · rw [hx]; exact hbi
    · rw [validp_iff] at hv
      unfold isBorder at hbd
      omega
  · rw [if_neg hbd] at hbi ⊢
    rcases hx with hx | ⟨-, hx | hx⟩
    · rw [hx]; exact hbi
    · exact Or.inr (Or.inl hx)
    · exact Or.inr (Or.inr hx)

theorem flipped_interior {b : Board} (hb : WellFormed b) {p m : Int}
    (hp : p = BLACK ∨ p = WHITE) {S : Int → Prop} {x : Int} (h : Flipped b p m S x) :
    validp x = true ∧ rd b x = some (opponent p) := by
  obtain ⟨d, -, k, hk, j, hj1, hjk, rfl⟩ := h
  have := hk.2.1 j hj1 hjk
  exact ⟨piece_interior hb this (opponent_cases hp).1, this⟩

theorem flipped_congr {b : Board} {p m : Int} {S T : Int → Prop} (h : ∀ e, S e ↔ T e) (x : Int) :
    Flipped b p m S x ↔ Flipped b p m T x := by
  constructor
  · rintro ⟨e, he, rest⟩; exact ⟨e, (h e).mp he, rest⟩
  · rintro ⟨e, he, rest⟩; exact ⟨e, (h e).mpr he, rest⟩

theorem make_flips_step {b B : Board} (hb : WellFormed b) {p m d : Int}
    (hp : p = BLACK ∨ p = WHITE) (hm : validp m = true) (S : Int → Prop)
    (hS : ∀ e, S e → e ∈ ALLDIRECTIONS) (hd : d ∈ ALLDIRECTIONS) (hdS : ¬ S d)
    (hlen : B.length = 100)
    (hin : ∀ x, (x = m ∨ Flipped b p m S x) → rd B x = some p)
    (hout : ∀ x, ¬ (x = m ∨ Flipped b p m S x) → rd B x = rd b x) :
    ∃ B', make_flips B m d p = some B' ∧ B'.length = 100 ∧
      (∀ x, (x = m ∨ Flipped b p m (fun e => S e ∨ e = d) x) → rd B' x = some p) ∧
      (∀ x, ¬ (x = m ∨ Flipped b p m (fun e => S e ∨ e = d) x) → rd B' x = rd b x) := by
  have hd0 := dir_ne_zero hd
  have hBwf : WellFormed B := by
    apply wf_of_changes hb hlen
    intro x _ _
    by_cases hx : x = m ∨ Flipped b p m S x
    · right
      refine ⟨?_, ?_⟩
      · rcases hx with rfl | hx
        · exact hm
        · exact (flipped_interior hb hp hx).1
      · rw [hin x hx]; rcases hp with rfl | rfl <;> simp
    · left; exact hout x hx
  have hray : ∀ j : Nat, 1 ≤ j → j ≤ 8 → rd B (m + j * d) = rd b (m + j * d) := by
    intro j hj1 hj8
    apply hout
    rintro (h | ⟨e, he, k, hk, i, hi1, hik, hx⟩)
    · have : (j : Int) * d = 0 := by linarith
      rcases mul_eq_zero.mp this with h | h
      · omega
      · exact hd0 h
    · have hk7 := bracket_bound hb hp hm (hS e he) hk
      have hne : d ≠ e := fun h => hdS (h ▸ he)
      exact ray_disjoint hd (hS e he) hne hj1 hj8 hi1 (by omega) m hx
  have hbr : ∀ k, Bracket B m d p k ↔ Bracket b m d p k := by
    intro k
    constructor
    · intro h
      have hk7 := bracket_bound hBwf hp hm hd h
      refine ⟨h.1, fun j hj1 hjk => ?_, ?_⟩
      · rw [← hray j hj1 (by omega)]; exact h.2.1 j hj1 hjk
      · rw [← hray k (by have := h.1; omega) (by omega)]; exact h.2.2
    · intro h
      have hk7 := bracket_bound hb hp hm hd h
      refine ⟨h.1, fun j hj1 hjk => ?_, ?_⟩
      · rw [hray j hj1 (by omega)]; exact h.2.1 j hj1 hjk
      · rw [hray k (by have := h.1; omega) (by omega)]; exact h.2.2
  obtain ⟨r, hr, hr1, hr2⟩ := would_flip_spec hBwf hp hm hd
  simp only [make_flips, hr]
  by_cases h0 : r = 0
  · subst h0
    have hno : ∀ k, ¬ Bracket b m d p k := by
      intro k hk
      have := hr2 k ((hbr k).mpr hk)
      have hint := (validp_iff _).mp (piece_interior hb hk.2.2 hp)
      omega
    have hF : ∀ x, Flipped b p m (fun e => S e ∨ e = d) x ↔ Flipped b p m S x := by
      intro x
      constructor
      · rintro ⟨e, he | rfl, k, hk, rest⟩
        · exact ⟨e, he, k, hk, rest⟩
        · exact absurd hk (hno k)
      · rintro ⟨e, he, rest⟩
        exact ⟨e, Or.inl he, rest⟩
    refine ⟨B, by simp, hlen, ?_, ?_⟩
    · intro x hx; rw [hF] at hx; exact hin x hx
    · intro x hx; rw [hF] at hx; exact hout x hx
  · obtain ⟨k, hkB, hrk⟩ := hr1 h0
    have hk := (hbr k).mp hkB
    have hk7 := bracket_bound hb hp hm hd hk
    obtain ⟨n, rfl⟩ : ∃ n, k = n + 2 := ⟨k - 2, by have := hk.1; omega⟩
    have hrng := ray_pot hb hp hm hd hk.2.1
    have htgt : r = (m + d) + ((n : Int) + 1) * d := by rw [hrk]; push_cast; ring
    obtain ⟨B', hB', hl', hin', hout'⟩ := flip_walk_spec d p hd0 n (BOARDSIZE + 1) B (m + d)
      (by simp only [BOARDSIZE]; omega) (by
        intro i hi
        have := hrng (i + 1) (by omega)
        have e : m + d + (i : Int) * d = m + ((i + 1 : Nat) : Int) * d := by push_cast; ring
        rw [e, hlen]; exact this.2)
    rw [← htgt] at hB'
    have hF : ∀ x, Flipped b p m (fun e => S e ∨ e = d) x ↔
        (Flipped b p m S x ∨ ∃ i : Nat, i ≤ n ∧ x = m + d + i * d) := by
      intro x
      constructor
      · rintro ⟨e, he | rfl, k', hk', j, hj1, hjk, hx⟩
        · exact Or.inl ⟨e, he, k', hk', j, hj1, hjk, hx⟩
        · have := bracket_unique hp hk' hk
          subst this
          obtain ⟨i, rfl⟩ : ∃ i, j = i + 1 := ⟨j - 1, by omega⟩
          exact Or.inr ⟨i, by omega, by rw [hx]; push_cast; ring⟩
      · rintro (⟨e, he, rest⟩ | ⟨i, hi, hx⟩)
        · exact ⟨e, Or.inl he, rest⟩
        · exact ⟨d, Or.inr rfl, n + 2, hk, i + 1, by omega, by omega, by rw [hx]; push_cast; ring⟩
    refine ⟨B', by simp [h0, hB'], by rw [hl', hlen], ?_, ?_⟩
    · intro x hx
      by_cases hw : ∃ i : Nat, i ≤ n ∧ x = m + d + i * d
      · exact hin' x hw
      · rw [hout' x hw]
        apply hin
        rcases hx with hx | hx
        · exact Or.inl hx
        · rcases (hF x).mp hx with h | h
          · exact Or.inr h
          · exact absurd h hw
    · intro x hx
      have hw : ¬ ∃ i : Nat, i ≤ n ∧ x = m + d + i * d :=
        fun h => hx (Or.inr ((hF x).mpr (Or.inr h)))
      rw [hout' x hw]
      apply hout
      rintro (h | h)
      · exact hx (Or.inl h)
      · exact hx (Or.inr ((hF x).mpr (Or.inl h)))

theorem make_move_dirs_spec {b : Board} (hb : WellFormed b) {p m : Int}
    (hp : p = BLACK ∨ p = WHITE) (hm : validp m = true) :
    ∀ (ds : List Int) (S : Int → Prop) (B : Board), ds.Nodup →
      (∀ d ∈ ds, d ∈ ALLDIRECTIONS ∧ ¬ S d) → (∀ e, S e → e ∈ ALLDIRECTIONS) →
      B.length = 100 →
      (∀ x, (x = m ∨ Flipped b p m S x) → rd B x = some p) →
      (∀ x, ¬ (x = m ∨ Flipped b p m S x) → rd B x = rd b x) →
      ∃ B', make_move_dirs m p ds B = some B' ∧ B'.length = 100 ∧
        (∀ x, (x = m ∨ Flipped b p m (fun e => S e ∨ e ∈ ds) x) → rd B' x = some p) ∧
        (∀ x, ¬ (x = m ∨ Flipped b p m (fun e => S e ∨ e ∈ ds) x) → rd B' x = rd b x) := by
  intro ds
  induction ds with
  | nil =>
    intro S B _ _ _ hlen hin hout
    have hc : ∀ x, Flipped b p m (fun e => S e ∨ e ∈ ([] : List Int)) x ↔ Flipped b p m S x :=
      flipped_congr (fun e => by simp)
    refine ⟨B, rfl, hlen, ?_, ?_⟩
    · intro x hx; rw [hc] at hx; exact hin x hx
    · intro x hx; rw [hc] at hx; exact hout x hx
  | cons d ds ih =>
    intro S B hnd hds hS hlen hin hout
    have hd := hds d (List.mem_cons_self _ _)
    obtain ⟨B1, hB1, hl1, hin1, hout1⟩ := make_flips_step hb hp hm S hS hd.1 hd.2 hlen hin hout
    have hnd' := List.nodup_cons.mp hnd
    obtain ⟨B', hB', hl', hin', hout'⟩ := ih (fun e => S e ∨ e = d) B1 hnd'.2
      (fun e he => ⟨(hds e (List.mem_cons_of_mem _ he)).1, by
        rintro (h | h)
        · exact (hds e (List.mem_cons_of_mem _ he)).2 h
        · exact hnd'.1 (h ▸ he)⟩)
      (fun e he => by
        rcases he with h | h
        · exact hS e h
        · exact h ▸ hd.1)
      hl1 hin1 hout1
    have hc : ∀ x, Flipped b p m (fun e => (S e ∨ e = d) ∨ e ∈ ds) x ↔
        Flipped b p m (fun e => S e ∨ e ∈ d :: ds) x :=
      flipped_congr (fun e => by simp only [List.mem_cons]; tauto)
    refine ⟨B', by simp only [make_move_dirs, hB1, hB'], hl', ?_, ?_⟩
    · intro x hx; rw [← hc] at hx; exact hin' x hx
    · intro x hx; rw [← hc] at hx; exact hout' x hx

theorem make_move_spec {b : Board} (hb : WellFormed b) {p m : Int}
    (hp : p = BLACK ∨ p = WHITE) (hm : validp m = true) :
    ∃ B, make_move b m p = some B ∧ WellFormed B ∧
      (∀ x, (x = m ∨ Flipped b p m (fun e => e ∈ ALLDIRECTIONS) x) → rd B x = some p) ∧
      (∀ x, ¬ (x = m ∨ Flipped b p m (fun e => e ∈ ALLDIRECTIONS) x) → rd B x = rd b x) := by
  have hm' := (validp_iff m).mp hm
  have hlen := hb.1
  have h0 : 0 ≤ m := by omega
  have h1 : m < b.length := by rw [hlen]; omega
  have hF : ∀ x, ¬ Flipped b p m (fun _ => False) x := by
    rintro x ⟨e, he, -⟩; exact he
  obtain ⟨B, hB, hl, hin, hout⟩ := make_move_dirs_spec hb hp hm ALLDIRECTIONS (fun _ => False)
    (b.set m.toNat p) (by decide) (fun d hd => ⟨hd, id⟩) (fun e he => he.elim)
    (by simp [hlen])
    (by
      intro x hx
      rcases hx with rfl | hx
      · rw [rd_set p h0 h1]; simp
      · exact absurd hx (hF x))
    (by
      intro x hx
      rw [rd_set p h0 h1, if_neg]
      exact fun h => hx (Or.inl h))
  have hc : ∀ x, Flipped b p m (fun e => False ∨ e ∈ ALLDIRECTIONS) x ↔
      Flipped b p m (fun e => e ∈ ALLDIRECTIONS) x := flipped_congr (fun e => by simp)
  have hin2 : ∀ x, (x = m ∨ Flipped b p m (fun e => e ∈ ALLDIRECTIONS) x) → rd B x = some p := by
    intro x hx; rw [← hc] at hx; exact hin x hx
  have hout2 : ∀ x, ¬ (x = m ∨ Flipped b p m (fun e => e ∈ ALLDIRECTIONS) x) →
      rd B x = rd b x := by
    intro x hx; rw [← hc] at hx; exact hout x hx
  refine ⟨B, by simp only [make_move, wr_eq p h0 h1, hB], ?_, hin2, hout2⟩
  apply wf_of_changes hb hl
  intro x _ _
  by_cases hx : x = m ∨ Flipped b p m (fun e => e ∈ ALLDIRECTIONS) x
  · right
    refine ⟨?_, ?_⟩
    · rcases hx with rfl | hx
      · exact hm
      · exact (flipped_interior hb hp hx).1
    · rw [hin2 x hx]; rcases hp with rfl | rfl <;> simp
  · left; exact hout2 x hx

theorem flip_walk_1_eq (d p r : Int) (fuel : Nat) (B : Board) (c : Int) :
    flip_walk_1 d p r fuel B c = flip_walk d p r fuel B c := by
  induction fuel generalizing B c with
  | zero => rfl
  | succ n ih => simp only [flip_walk_1, flip_walk, ih]

theorem make_flips_1_eq (b : Board) (m d p : Int) :
    make_flips_1 m d p b = make_flips b m d p := by
  simp only [make_flips_1, make_flips, would_flip_1_eq, flip_walk_1_eq]

theorem make_modified_dirs_eq (m p : Int) (ds : List Int) (B : Board) :
    make_modified_dirs m p ds B = make_move_dirs m p ds B := by
  induction ds generalizing B with
  | nil => rfl
  | cons d ds ih => simp only [make_modified_dirs, make_move_dirs, make_flips_1_eq, ih]

theorem make_modified_move_eq (b : Board) (m p : Int) :
    make_modified_move m b p = make_move b m p := by
  simp only [make_modified_move, make_move, make_modified_dirs_eq]

theorem flipCell_iff {b : Board} (hb : WellFormed b) {p m : Int}
    (hp : p = BLACK ∨ p = WHITE) (hm : validp m = true) (x : Int) :
    FlipCell b p m x ↔ Flipped b p m (fun e => e ∈ ALLDIRECTIONS) x := by
  constructor
  · rintro ⟨d, hd, r, hr, hr0, j, k, hj1, hjk, hx, hrk⟩
    obtain ⟨r', hr', h1, -⟩ := would_flip_spec hb hp hm hd
    rw [hr] at hr'
    cases hr'
    obtain ⟨k0, hk0, hrk0⟩ := h1 hr0
    have hkk : k = k0 := by
      have h2 : ((k : Int) - k0) * d = 0 := by linarith
      rcases mul_eq_zero.mp h2 with h | h
      · omega
      · exact absurd h (dir_ne_zero hd)
    subst hkk
    exact ⟨d, hd, k, hk0, j, hj1, hjk, hx⟩
  · rintro ⟨d, hd, k, hk, j, hj1, hjk, hx⟩
    obtain ⟨r, hr, -, h2⟩ := would_flip_spec hb hp hm hd
    have hrk := h2 k hk
    have hint := (validp_iff _).mp (piece_interior hb hk.2.2 hp)
    exact ⟨d, hd, r, hr, by omega, j, k, hj1, hjk, hx, hrk⟩

/-- C2: on a well-formed board, for a player in {BLACK, WHITE} and an interior
move that is legal for the player, `make_move` and `make_modified_move` yield the
same 100-cell board, in which the move cell and every cell strictly between the
move and the bracket of a direction whose `would_flip` on the original board is
nonzero hold the player, and every other cell holds what it held before. -/
theorem C2_make_move_flips (b : Board) (player move : Int) (hb : WellFormed b)
    (hp : player = BLACK ∨ player = WHITE) (hm : validp move = true)
    (_hl : legalp b move player = some true) :
    ∃ B, make_move b move player = some B ∧ make_modified_move move b player = some B ∧
      B.length = 100 ∧
      (∀ x, (x = move ∨ FlipCell b player move x) → rd B x = some player) ∧
      (∀ x, ¬ (x = move ∨ FlipCell b player move x) → rd B x = rd b x) := by
  obtain ⟨B, hB, hwf, hin, hout⟩ := make_move_spec hb hp hm
  refine ⟨B, hB, by rw [make_modified_move_eq]; exact hB, hwf.1, ?_, ?_⟩
  · intro x hx
    rw [flipCell_iff hb hp hm] at hx
    exact hin x hx
  · intro x hx
    rw [flipCell_iff hb hp hm] at hx
    exact hout x hx

set_option maxRecDepth 100000 in
theorem C2_make_move_flips_witness :
    WellFormed initialise_board ∧ validp 34 = true ∧
    legalp initialise_board 34 BLACK = some true ∧
    ∃ B, make_move initialise_board 34 BLACK = some B ∧
      make_modified_move 34 initialise_board BLACK = some B ∧
      B.length = 100 ∧
      (∀ x, (x = 34 ∨ FlipCell initialise_board BLACK 34 x) → rd B x = some BLACK) ∧
      (∀ x, ¬ (x = 34 ∨ FlipCell initialise_board BLACK 34 x) →
        rd B x = rd initialise_board x) :=
  ⟨initialise_board_wf, by decide, by decide,
    C2_make_move_flips initialise_board BLACK 34 initialise_board_wf (Or.inl rfl) (by decide)
      (by decide)⟩

/-! ### Work partition -/

theorem send_counts_loop_eq (e : Int) : ∀ (n : Nat) (r s : Int), 0 ≤ r →
    send_counts_loop e n r s = (List.range n).map (fun i : Nat =>
      ((if (i : Int) < r then e + 1 else e), s + i * e + min (i : Int) r)) := by
  intro n
  induction n with
  | zero => intros; rfl
  | succ n ih =>
    intro r s hr
    rw [List.range_succ_eq_map, List.map_cons, List.map_map]
    simp only [send_counts_loop]
    by_cases h : r > 0
    · rw [if_pos h, if_pos h, ih (r - 1) (s + (e + 1)) (by omega)]
      congr 1
      · have h0 : ((0 : Nat) : Int) < r := by simpa using h
        rw [if_pos h0]
        simp only [Nat.cast_zero, zero_mul, add_zero]
        congr 1
        omega
      · apply List.map_congr_left
        intro i _
        simp only [Function.comp, Nat.succ_eq_add_one, Nat.cast_add, Nat.cast_one]
        have hc : ((i : Int) < r - 1) ↔ ((i : Int) + 1 < r) := by omega
        have hm : min (i : Int) (r - 1) + 1 = min ((i : Int) + 1) r := by omega
        simp only [hc]
        congr 1
        rw [← hm]; ring
    · have hr0 : r = 0 := by omega
      subst hr0
      rw [if_neg h, if_neg h, ih 0 (s + e) (le_refl _)]
      congr 1
      · simp
      · apply List.map_congr_left
        intro i _
        simp only [Function.comp, Nat.succ_eq_add_one, Nat.cast_add, Nat.cast_one]
        have h1 : ¬ ((i : Int) < 0) := by omega
        have h2 : ¬ ((i : Int) + 1 < 0) := by omega
        have m1 : min (i : Int) 0 = 0 := by omega
        have m2 : min ((i : Int) + 1) 0 = 0 := by omega
        rw [if_neg h1, if_neg h2, m1, m2]
        congr 1
        ring

theorem partition_moves_eq (M N : Nat) :
    partition_moves (M : Int) N = (List.range N).map (fun i : Nat =>
      ((if i < M % N then ((M / N : Nat) : Int) + 1 else ((M / N : Nat) : Int)),
        (i : Int) * ((M / N : Nat) : Int) + min (i : Int) ((M % N : Nat) : Int))) := by
  unfold partition_moves
  simp only
  rw [Int.tdiv_eq_ediv (Int.ofNat_nonneg M) (Int.ofNat_nonneg N),
    Int.tmod_eq_emod (Int.ofNat_nonneg M) (Int.ofNat_nonneg N),
    ← Int.natCast_div, ← Int.natCast_mod, send_counts_loop_eq _ _ _ _ (by omega)]
  apply List.map_congr_left
  intro i _
  have hc : ((i : Int) < ((M % N : Nat) : Int)) ↔ i < M % N := by omega
  simp only [hc, zero_add]

theorem send_counts_eq (M N : Nat) :
    send_counts (M : Int) N = (List.range N).map (fun i : Nat =>
      if i < M % N then ((M / N : Nat) : Int) + 1 else ((M / N : Nat) : Int)) := by
  unfold send_counts
  rw [partition_moves_eq, List.map_map]
  rfl

theorem sum_counts (e : Int) (r : Nat) : ∀ n : Nat,
    ((List.range n).map (fun i : Nat => if i < r then e + 1 else e)).sum =
      n * e + min (n : Int) r := by
  intro n
  induction n with
  | zero => simp
  | succ n ih =>
    rw [List.sum_range_succ, ih]
    by_cases h : n < r
    · rw [if_pos h]
      have : min ((n + 1 : Nat) : Int) r = min (n : Int) r + 1 := by omega
      rw [this]; push_cast; ring
    · rw [if_neg h]
      have : min ((n + 1 : Nat) : Int) r = min (n : Int) r := by omega
      rw [this]; push_cast; ring

theorem send_counts_sum (M N : Nat) (hN : 1 ≤ N) : (send_counts (M : Int) N).sum = M := by
  rw [send_counts_eq, sum_counts]
  have h1 := Nat.mod_lt M (show N > 0 by omega)
  have h2 := Nat.div_add_mod M N
  have h3 : min (N : Int) ((M % N : Nat) : Int) = ((M % N : Nat) : Int) := by omega
  rw [h3]
  have : ((N * (M / N) + M % N : Nat) : Int) = (M : Int) := by rw [h2]
  rw [← this]; push_cast; ring

/-- C4: for M legal moves and N ≥ 1 units the `send_counts` of `gen_move_master3`
has one entry per unit, sums to M, any two entries differ by at most 1, and
exactly the units of index below `M mod N` receive `M / N + 1` moves while the
others receive `M / N`. -/
theorem C4_send_counts_balanced (M N : Nat) (hN : 1 ≤ N) :
    (send_counts (M : Int) N).length = N ∧
    (send_counts (M : Int) N).sum = M ∧
    (∀ x ∈ send_counts (M : Int) N, ∀ y ∈ send_counts (M : Int) N, x - y ≤ 1) ∧
    ∀ i : Nat, i < N → (send_counts (M : Int) N)[i]? =
      some (if i < M % N then ((M / N : Nat) : Int) + 1 else ((M / N : Nat) : Int)) := by
  refine ⟨?_, send_counts_sum M N hN, ?_, ?_⟩
  · rw [send_counts_eq]; simp
  · rw [send_counts_eq]
    intro x hx y hy
    simp only [List.mem_map, List.mem_range] at hx hy
    obtain ⟨i, -, rfl⟩ := hx
    obtain ⟨j, -, rfl⟩ := hy
    split_ifs <;> omega
  · intro i hi
    rw [send_counts_eq, List.getElem?_map, List.getElem?_range hi]
    rfl

theorem C4_send_counts_balanced_witness :
    (1 ≤ 4) ∧
    (send_counts ((14 : Nat) : Int) 4).length = 4 ∧
    (send_counts ((14 : Nat) : Int) 4).sum = (14 : Nat) ∧
    (∀ x ∈ send_counts ((14 : Nat) : Int) 4, ∀ y ∈ send_counts ((14 : Nat) : Int) 4, x - y ≤ 1) ∧
    ∀ i : Nat, i < 4 → (send_counts ((14 : Nat) : Int) 4)[i]? =
      some (if i < 14 % 4 then ((14 / 4 : Nat) : Int) + 1 else ((14 / 4 : Nat) : Int)) :=
  ⟨by decide, C4_send_counts_balanced 14 4 (by decide)⟩

theorem shift_moves_spec : ∀ (n j : Nat) (a : List Int), j + n < a.length →
    ∃ a', shift_moves n j a = some a' ∧ a'.length = a.length ∧
      ∀ i : Nat, a'[i]? = if j ≤ i ∧ i < j + n then a[i + 1]? else a[i]? := by
  intro n
  induction n with
  | zero =>
    intro j a _
    refine ⟨a, rfl, rfl, fun i => ?_⟩
    rw [if_neg (by omega)]
  | succ n ih =>
    intro j a h
    obtain ⟨v, hv⟩ : ∃ v, a[j + 1]? = some v :=
      ⟨a[j + 1], List.getElem?_eq_getElem (by omega)⟩
    have hj : j < a.length := by omega
    obtain ⟨a', ha', hl', hi'⟩ := ih (j + 1) (a.set j v) (by simp; omega)
    refine ⟨a', by simp only [shift_moves, hv, if_pos hj, ha'], by simpa using hl', fun i => ?_⟩
    rw [hi' i]
    by_cases c1 : j + 1 ≤ i ∧ i < j + 1 + n
    · rw [if_pos c1, if_pos (by omega), List.getElem?_set_ne (by omega)]
    · rw [if_neg c1]
      by_cases c2 : i = j
      · subst c2
        rw [if_pos (by omega), List.getElem?_set_self hj, hv]
      · rw [if_neg (by omega), List.getElem?_set_ne (by omega)]

theorem contiguous_loop (e : Int) (he : 0 ≤ e) : ∀ (n : Nat) (r s : Int),
    Contiguous s (send_counts_loop e n r s) := by
  intro n
  induction n with
  | zero => intros; trivial
  | succ n ih =>
    intro r s
    simp only [send_counts_loop, Contiguous]
    refine ⟨trivial, ?_, ih _ _⟩
    split_ifs <;> omega

theorem contiguous_sum_nonneg : ∀ (parts : List (Int × Int)) (s : Int),
    Contiguous s parts → 0 ≤ (parts.map Prod.fst).sum := by
  intro parts
  induction parts with
  | nil => intros; simp
  | cons hd tl ih =>
    rintro s ⟨-, h2, h3⟩
    have := ih _ h3
    simp only [List.map_cons, List.sum_cons]
    omega

theorem scatterv_spec (L : List Int) : ∀ (parts : List (Int × Int)) (s : Nat),
    Contiguous (s : Int) parts → s + ((parts.map Prod.fst).sum).toNat ≤ L.length →
    ∃ chunks, scatterv L parts = some chunks ∧
      chunks = parts.map (fun cd => (L.drop cd.2.toNat).take cd.1.toNat) ∧
      chunks.flatten = (L.drop s).take ((parts.map Prod.fst).sum).toNat ∧
      chunks.map (fun c => (c.length : Int)) = parts.map Prod.fst := by
  intro parts
  induction parts with
  | nil =>
    intro s _ _
    exact ⟨[], rfl, rfl, by simp, rfl⟩
  | cons hd tl ih =>
    obtain ⟨c, d⟩ := hd
    rintro s ⟨h1, h2, h3⟩ hlen
    have hnn := contiguous_sum_nonneg tl _ h3
    simp only [List.map_cons, List.sum_cons] at hlen
    subst h1
    have hs : ((s + c.toNat : Nat) : Int) = (s : Int) + c := by omega
    obtain ⟨chunks, hch, hmap, hflat, hlens⟩ := ih (s + c.toNat) (by rw [hs]; exact h3) (by omega)
    have hsc : scatter_chunk L c (s : Int) = some ((L.drop s).take c.toNat) := by
      unfold scatter_chunk
      rw [if_pos ⟨h2, by omega, by simp only [Int.toNat_ofNat]; omega⟩]
      simp only [Int.toNat_ofNat]
    refine ⟨(L.drop s).take c.toNat :: chunks, by simp only [scatterv, hsc, hch], ?_, ?_, ?_⟩
    · simp only [List.map_cons, Int.toNat_ofNat, hmap]
    · simp only [List.flatten_cons, hflat, List.map_cons, List.sum_cons]
      have e : (c + (tl.map Prod.fst).sum).toNat = c.toNat + ((tl.map Prod.fst).sum).toNat := by
        omega
      rw [e, List.take_add, List.drop_drop]
    · simp only [List.map_cons, hlens, List.length_take, List.length_drop]
      congr 1
      omega

theorem partition_moves_nat (M N : Nat) :
    partition_moves (M : Int) N = (List.range N).map (fun i : Nat =>
      (((if i < M % N then M / N + 1 else M / N : Nat) : Int),
        ((i * (M / N) + min i (M % N) : Nat) : Int))) := by
  rw [partition_moves_eq]
  apply List.map_congr_left
  intro i _
  congr 1
  · split_ifs <;> simp
  · push_cast; rfl

theorem take_drop_prefix (L : List Int) (M d c : Nat) (h : d + c ≤ M) :
    ((L.take M).drop d).take c = (L.drop d).take c := by
  rw [List.drop_take, List.take_take]
  congr 1
  omega

theorem partition_sum (M N : Nat) :
    ((partition_moves (M : Int) N).map Prod.fst).sum = (send_counts (M : Int) N).sum := rfl

theorem scatter_moves_spec (locs : List Int) (N : Nat) (hN : 1 ≤ N) :
    ∃ chunks, scatter_moves ((locs.length : Int) :: locs) N = some chunks ∧
      chunks.length = N ∧
      chunks.flatten = locs ∧
      Contiguous 0 (partition_moves (locs.length : Int) N) ∧
      chunks.map (fun c => (c.length : Int)) = send_counts (locs.length : Int) N ∧
      chunks = (partition_moves (locs.length : Int) N).map
        (fun cd => (locs.drop cd.2.toNat).take cd.1.toNat) := by
  obtain ⟨sh, hsh, hshl, hshi⟩ := shift_moves_spec locs.length 0 ((locs.length : Int) :: locs)
    (by simp)
  have htake : ∀ i : Nat, i < locs.length → sh[i]? = locs[i]? := by
    intro i hi
    rw [hshi i, if_pos (by omega)]
    simp
  have hcont : Contiguous ((0 : Nat) : Int) (partition_moves (locs.length : Int) N) := by
    unfold partition_moves
    exact contiguous_loop _ (Int.tdiv_nonneg (Int.ofNat_nonneg _) (Int.ofNat_nonneg _)) _ _ _
  have hsum := send_counts_sum locs.length N hN
  obtain ⟨chunks, hch, hmap, hflat, hlens⟩ := scatterv_spec sh _ 0 hcont (by
    rw [partition_sum, hsum]
    simp only [List.length_cons] at hshl
    simp only [Int.toNat_ofNat]; omega)
  rw [partition_sum, hsum] at hflat
  simp only [Int.toNat_ofNat, List.drop_zero] at hflat
  have hshlocs : sh.take locs.length = locs := by
    apply List.ext_getElem?
    intro i
    rw [List.getElem?_take]
    by_cases hi : i < locs.length
    · rw [if_pos hi]; exact htake i hi
    · rw [if_neg hi]
      exact (List.getElem?_eq_none (by omega)).symm
  refine ⟨chunks, ?_, ?_, by rw [hflat, hshlocs], hcont, hlens, ?_⟩
  · simp only [scatter_moves, List.headD_cons, Int.toNat_ofNat, hsh, hch]
  · rw [hmap, partition_moves_eq]; simp
  · rw [hmap]
    apply List.map_congr_left
    rintro ⟨c, d⟩ hcd
    rw [partition_moves_nat] at hcd
    simp only [List.mem_map, List.mem_range, Prod.mk.injEq] at hcd
    obtain ⟨i, hi, rfl, rfl⟩ := hcd
    have h1 := Nat.mod_lt locs.length (show N > 0 by omega)
    have h2 := Nat.div_add_mod locs.length N
    have hmul : i * (locs.length / N) + locs.length / N ≤ N * (locs.length / N) := by
      have := Nat.mul_le_mul_right (locs.length / N) (show i + 1 ≤ N by omega)
      rwa [Nat.succ_mul] at this
    simp only [Int.toNat_ofNat]
    rw [← take_drop_prefix sh locs.length _ _ (by split_ifs <;> omega), hshlocs]

/-- C5: for every legal-move list `locs` (buffer `length :: locs`) and N ≥ 1 units,
the chunks `gen_move_master3` scatters are N contiguous slices of the list (each
displacement is the sum of the preceding `send_counts`, chunk `i` holds
`send_counts[i]` moves starting at `displs[i]`), and concatenated in unit order
they equal the legal-move list. -/
theorem C5_chunks_concat (locs : List Int) (N : Nat) (hN : 1 ≤ N) :
    ∃ chunks, scatter_moves ((locs.length : Int) :: locs) N = some chunks ∧
      chunks.length = N ∧
      chunks.flatten = locs ∧
      Contiguous 0 (partition_moves (locs.length : Int) N) ∧
      chunks.map (fun c => (c.length : Int)) = send_counts (locs.length : Int) N ∧
      chunks = (partition_moves (locs.length : Int) N).map
        (fun cd => (locs.drop cd.2.toNat).take cd.1.toNat) := by
  obtain ⟨chunks, hscatter, hrest⟩ := scatter_moves_spec locs N hN
  exact ⟨chunks, hscatter, hrest⟩

theorem C5_chunks_concat_witness :
    (1 ≤ 3) ∧
    ∃ chunks, scatter_moves ((([34, 43, 56, 65] : List Int).length : Int) :: [34, 43, 56, 65]) 3 =
        some chunks ∧
      chunks.length = 3 ∧
      chunks.flatten = [34, 43, 56, 65] ∧
      Contiguous 0 (partition_moves (([34, 43, 56, 65] : List Int).length : Int) 3) ∧
      chunks.map (fun c => (c.length : Int)) =
        send_counts (([34, 43, 56, 65] : List Int).length : Int) 3 ∧
      chunks = (partition_moves (([34, 43, 56, 65] : List Int).length : Int) 3).map
        (fun cd => (([34, 43, 56, 65] : List Int).drop cd.2.toNat).take cd.1.toNat) :=
  ⟨by decide, C5_chunks_concat [34, 43, 56, 65] 3 (by decide)⟩

/-! ### Aggregation -/

theorem select_best_spec : ∀ (l : List (Int × Int)) (loc ev : Int),
    (select_best l loc ev = (loc, ev) ∧ ∀ q ∈ l, q.2 ≤ ev) ∨
    (∃ (i : Nat) (q : Int × Int), l[i]? = some q ∧ select_best l loc ev = q ∧ ev < q.2 ∧
      (∀ q' ∈ l, q'.2 ≤ q.2) ∧ ∀ (j : Nat) (q' : Int × Int), j < i → l[j]? = some q' → q'.2 < q.2) := by
  intro l
  induction l with
  | nil => intro loc ev; left; exact ⟨rfl, by simp⟩
  | cons hd tl ih =>
    obtain ⟨mv, sc⟩ := hd
    intro loc ev
    simp only [select_best]
    by_cases h : sc > ev
    · rw [if_pos h]
      right
      rcases ih mv sc with ⟨h1, h2⟩ | ⟨i, q, hq, h1, h2, h3, h4⟩
      · refine ⟨0, (mv, sc), by simp, h1, h, ?_, fun j _ hj => by omega⟩
        intro q' hq'
        rcases List.mem_cons.mp hq' with rfl | hq'
        · exact le_refl _
        · exact h2 q' hq'
      · refine ⟨i + 1, q, by simpa using hq, h1, by omega, ?_, ?_⟩
        · intro q' hq'
          rcases List.mem_cons.mp hq' with rfl | hq'
          · exact le_of_lt h2
          · exact h3 q' hq'
        · intro j q' hj hq'
          rcases Nat.eq_zero_or_pos j with rfl | hpos
          · simp at hq'; subst hq'; exact h2
          · obtain ⟨j', rfl⟩ : ∃ j', j = j' + 1 := ⟨j - 1, by omega⟩
            exact h4 j' q' (by omega) (by simpa using hq')
    · rw [if_neg h]
      rcases ih loc ev with ⟨h1, h2⟩ | ⟨i, q, hq, h1, h2, h3, h4⟩
      · left
        refine ⟨h1, ?_⟩
        intro q' hq'
        rcases List.mem_cons.mp hq' with rfl | hq'
        · exact not_lt.mp h
        · exact h2 q' hq'
      · right
        refine ⟨i + 1, q, by simpa using hq, h1, h2, ?_, ?_⟩
        · intro q' hq'
          rcases List.mem_cons.mp hq' with rfl | hq'
          · have := not_lt.mp h; simp only at this ⊢; omega
          · exact h3 q' hq'
        · intro j q' hj hq'
          rcases Nat.eq_zero_or_pos j with rfl | hpos
          · simp at hq'; subst hq'
            have := not_lt.mp h; simp only at this ⊢; omega
          · obtain ⟨j', rfl⟩ : ∃ j', j = j' + 1 := ⟨j - 1, by omega⟩
            exact h4 j' q' (by omega) (by simpa using hq')

/-- C9: the coordinator's selection loop is a function of the gathered list of
`(move, score)` pairs: if some score exceeds -100 it returns the first pair (lowest
unit index) whose score is the maximum score; if no score exceeds -100 it returns
`(-1, -100)`. -/
theorem C9_select_first_max (gathered : List (Int × Int)) :
    ((∃ p ∈ gathered, -100 < p.2) →
      ∃ (i : Nat) (q : Int × Int), gathered[i]? = some q ∧
        select_best gathered (-1) (-100) = q ∧ (∀ q' ∈ gathered, q'.2 ≤ q.2) ∧
        ∀ (j : Nat) (q' : Int × Int), j < i → gathered[j]? = some q' → q'.2 < q.2) ∧
    ((∀ p ∈ gathered, p.2 ≤ -100) → select_best gathered (-1) (-100) = (-1, -100)) := by
  rcases select_best_spec gathered (-1) (-100) with ⟨h1, h2⟩ | ⟨i, q, hq, h1, h2, h3, h4⟩
  · refine ⟨?_, fun _ => h1⟩
    rintro ⟨p, hp, hlt⟩
    have := h2 p hp
    omega
  · refine ⟨fun _ => ⟨i, q, hq, h1, h3, h4⟩, ?_⟩
    intro hall
    have := hall q (List.getElem?_mem hq)
    omega

theorem C9_select_first_max_witness :
    ∃ (i : Nat) (q : Int × Int), [((-1 : Int), (-100 : Int)), (43, 0), (56, 0)][i]? = some q ∧
      select_best [((-1 : Int), (-100 : Int)), (43, 0), (56, 0)] (-1) (-100) = q ∧
      (∀ q' ∈ [((-1 : Int), (-100 : Int)), (43, 0), (56, 0)], q'.2 ≤ q.2) ∧
      ∀ (j : Nat) (q' : Int × Int), j < i →
        [((-1 : Int), (-100 : Int)), (43, 0), (56, 0)][j]? = some q' → q'.2 < q.2 :=
  (C9_select_first_max [(-1, -100), (43, 0), (56, 0)]).1 ⟨(43, 0), by decide, by decide⟩

/-! ### Static evaluation -/

theorem static_count_spec (b : Board) : ∀ (l : List Int) (w k e : Int),
    (∀ i ∈ l, 0 ≤ i ∧ i < b.length) →
    static_count b l (w, k, e) = some
      (w + ((l.filter (fun i => decide (i.tmod 10 ≠ 0 ∧ i.tmod 10 ≠ 9))).countP
          (fun i => rd b i == some WHITE) : Nat),
       k + ((l.filter (fun i => decide (i.tmod 10 ≠ 0 ∧ i.tmod 10 ≠ 9))).countP
          (fun i => rd b i == some BLACK) : Nat),
       e + ((l.filter (fun i => decide (i.tmod 10 ≠ 0 ∧ i.tmod 10 ≠ 9))).countP
          (fun i => rd b i == some EMPTY) : Nat)) := by
  intro l
  induction l with
  | nil => intro w k e _; simp [static_count]
  | cons i l ih =>
    intro w k e hin
    have hi := hin i (List.mem_cons_self _ _)
    have hl : ∀ j ∈ l, 0 ≤ j ∧ j < b.length := fun j hj => hin j (List.mem_cons_of_mem _ hj)
    obtain ⟨v, hv⟩ : ∃ v, rd b i = some v := by
      unfold rd
      rw [if_pos hi.1, List.get?_eq_getElem?]
      exact ⟨b[i.toNat], List.getElem?_eq_getElem (by omega)⟩
    by_cases hc : i.tmod 10 ≠ 0 ∧ i.tmod 10 ≠ 9
    · simp only [static_count, if_pos hc, hv, List.filter_cons, decide_eq_true hc, if_true,
        List.countP_cons]
      by_cases h1 : v = WHITE
      · subst h1
        rw [if_pos rfl, ih _ _ _ hl]
        simp [WHITE, BLACK, EMPTY]
        omega
      · rw [if_neg h1]
        by_cases h2 : v = BLACK
        · subst h2
          rw [if_pos rfl, ih _ _ _ hl]
          simp [WHITE, BLACK, EMPTY]
          omega
        · rw [if_neg h2]
          by_cases h3 : v = EMPTY
          · subst h3
            rw [if_pos rfl, ih _ _ _ hl]
            simp [WHITE, BLACK, EMPTY]
            omega
          · rw [if_neg h3, ih _ _ _ hl]
            simp [h1, h2, h3]
    · simp only [static_count, if_neg hc, List.filter_cons, decide_eq_false hc]
      rw [ih _ _ _ hl]
      simp

theorem scan_filter_interior :
    scan_locations.filter (fun i => decide (i.tmod 10 ≠ 0 ∧ i.tmod 10 ≠ 9)) = interior_cells := by
  decide

theorem static_evaluation_spec (b : Board) (hlen : b.length = 100) (P : Int) :
    static_evaluation b P = some
      (if P = WHITE then cell_count b WHITE - cell_count b BLACK
       else if P = BLACK then cell_count b BLACK - cell_count b WHITE
       else cell_count b EMPTY) := by
  have h := static_count_spec b scan_locations 0 0 0 (by
    intro i hi
    have := mem_scan_locations.mp hi
    omega)
  rw [scan_filter_interior] at h
  simp only [static_evaluation, h, zero_add, cell_count]
  split_ifs <;> rfl

/-- C10: for every 100-cell board, `static_evaluation(board, P)` is the number of
interior cells (rows and columns 1..8) holding P minus the number holding
`opponent(P)` when P is BLACK or WHITE, and the number of interior cells holding
EMPTY for every other P. -/
theorem C10_static_evaluation_counts (b : Board) (P : Int) (hlen : b.length = 100) :
    ((P = BLACK ∨ P = WHITE) →
      static_evaluation b P = some (cell_count b P - cell_count b (opponent P))) ∧
    ((P ≠ BLACK ∧ P ≠ WHITE) → static_evaluation b P = some (cell_count b EMPTY)) := by
  rw [static_evaluation_spec b hlen P]
  constructor
  · rintro (rfl | rfl)
    · simp [opponent, BLACK, WHITE]
    · simp [opponent, BLACK, WHITE]
  · rintro ⟨h1, h2⟩
    rw [if_neg h2, if_neg h1]

set_option maxRecDepth 100000 in
theorem C10_static_evaluation_counts_witness :
    initialise_board.length = 100 ∧
    static_evaluation initialise_board BLACK =
      some (cell_count initialise_board BLACK - cell_count initialise_board (opponent BLACK)) ∧
    static_evaluation initialise_board OUTER = some (cell_count initialise_board EMPTY) :=
  ⟨by decide,
    (C10_static_evaluation_counts initialise_board BLACK (by decide)).1 (Or.inl rfl),
    (C10_static_evaluation_counts initialise_board OUTER (by decide)).2 (by decide)⟩

theorem interior_cells_length : interior_cells.length = 64 := by decide

theorem cell_count_bound (b : Board) (v : Int) : 0 ≤ cell_count b v ∧ cell_count b v ≤ 64 := by
  unfold cell_count
  have := List.countP_le_length (fun i => rd b i == some v) (l := interior_cells)
  rw [interior_cells_length] at this
  omega

theorem static_evaluation_bound (b : Board) (hlen : b.length = 100) {P : Int}
    (_hP : P = BLACK ∨ P = WHITE) :
    ∃ s, static_evaluation b P = some s ∧ -64 ≤ s ∧ s ≤ 64 := by
  rw [static_evaluation_spec b hlen P]
  have h1 := cell_count_bound b WHITE
  have h2 := cell_count_bound b BLACK
  have h3 := cell_count_bound b EMPTY
  refine ⟨_, rfl, ?_⟩
  split_ifs <;> omega

/-! ### Search: totality and score bounds -/

theorem copy_board_eq {b : Board} (h : b.length = 100) : copy_board b = some b := by
  unfold copy_board BOARDSIZE
  rw [if_pos (by omega), List.take_of_length_le (by omega)]

theorem minimax_max_loop_ok (child : Board → Int → Int → Int → Option (Int × Board))
    (lb : Board) (hwf : WellFormed lb) (score beta : Int)
    (hchild : ∀ tb m a b, WellFormed tb → validp m = true →
      ∃ s tb', child tb m a b = some (s, tb') ∧ -64 ≤ s ∧ s ≤ 64) :
    ∀ (ms : List Int) (tb : Board) (maxEval alpha : Int),
      (∀ m ∈ ms, validp m = true) → WellFormed tb →
      ∃ r, minimax_max_loop child lb score beta ms tb maxEval alpha = some r ∧
        maxEval ≤ r ∧ (r ≤ maxEval ∨ r ≤ 64) ∧ (ms ≠ [] → -64 ≤ r) := by
  intro ms
  induction ms with
  | nil =>
    intro tb maxEval alpha _ _
    exact ⟨maxEval, rfl, le_refl _, Or.inl (le_refl _), fun h => absurd rfl h⟩
  | cons m ms ih =>
    intro tb maxEval alpha hms htb
    obtain ⟨s, tb', hc, hs1, hs2⟩ := hchild tb m alpha beta htb (hms m (List.mem_cons_self _ _))
    simp only [minimax_max_loop, hc, copy_board_eq hwf.1]
    by_cases hcut : beta ≤ (if alpha < score then score else alpha)
    · rw [if_pos hcut]
      refine ⟨_, rfl, ?_, ?_, fun _ => ?_⟩ <;> split_ifs <;> omega
    · rw [if_neg hcut]
      obtain ⟨r, hr, h1, h2, -⟩ := ih lb (if s > maxEval then s else maxEval)
        (if alpha < score then score else alpha)
        (fun x hx => hms x (List.mem_cons_of_mem _ hx)) hwf
      refine ⟨r, hr, ?_, ?_, fun _ => ?_⟩
      · split_ifs at h1 <;> omega
      · split_ifs at h1 h2 <;> omega
      · split_ifs at h1 <;> omega

theorem minimax_min_loop_ok (child : Board → Int → Int → Int → Option (Int × Board))
    (lb : Board) (hwf : WellFormed lb) (score alpha : Int)
    (hchild : ∀ tb m a b, WellFormed tb → validp m = true →
      ∃ s tb', child tb m a b = some (s, tb') ∧ -64 ≤ s ∧ s ≤ 64) :
    ∀ (ms : List Int) (tb : Board) (minEval beta : Int),
      (∀ m ∈ ms, validp m = true) → WellFormed tb →
      ∃ r, minimax_min_loop child lb score alpha ms tb minEval beta = some r ∧
        r ≤ minEval ∧ (minEval ≤ r ∨ -64 ≤ r) ∧ (ms ≠ [] → r ≤ 64) := by
  intro ms
  induction ms with
  | nil =>
    intro tb minEval beta _ _
    exact ⟨minEval, rfl, le_refl _, Or.inl (le_refl _), fun h => absurd rfl h⟩
  | cons m ms ih =>
    intro tb minEval beta hms htb
    obtain ⟨s, tb', hc, hs1, hs2⟩ := hchild tb m alpha beta htb (hms m (List.mem_cons_self _ _))
    simp only [minimax_min_loop, hc, copy_board_eq hwf.1]
    by_cases hcut : (if score < beta then score else beta) ≤ alpha
    · rw [if_pos hcut]
      refine ⟨_, rfl, ?_, ?_, fun _ => ?_⟩ <;> split_ifs <;> omega
    · rw [if_neg hcut]
      obtain ⟨r, hr, h1, h2, -⟩ := ih lb (if s < minEval then s else minEval)
        (if score < beta then score else beta)
        (fun x hx => hms x (List.mem_cons_of_mem _ hx)) hwf
      refine ⟨r, hr, ?_, ?_, fun _ => ?_⟩
      · split_ifs at h1 <;> omega
      · split_ifs at h1 h2 <;> omega
      · split_ifs at h1 <;> omega

theorem opponent_1_player {p : Int} (hp : p = BLACK ∨ p = WHITE) :
    opponent_1 p = BLACK ∨ opponent_1 p = WHITE := (opponent_cases hp).1

/-- On a well-formed board and for an interior move `minimax` returns a score in
`[-64, 64]`; the `local_board` it leaves is the board after the move. -/
theorem minimax_ok : ∀ (d : Nat) (lb : Board) (m maxp cur a b : Int),
    WellFormed lb → validp m = true → (maxp = BLACK ∨ maxp = WHITE) →
    (cur = BLACK ∨ cur = WHITE) →
    ∃ s lb', minimax d lb m maxp cur a b = some (s, lb') ∧ -64 ≤ s ∧ s ≤ 64 ∧
      WellFormed lb' ∧ make_modified_move m lb cur = some lb' := by
  intro d
  induction d with
  | zero =>
    intro lb m maxp cur a b hlb hm hmaxp hcur
    have hm0 : m ≠ 0 := by have := (validp_iff m).mp hm; omega
    obtain ⟨B, hB, hBwf, -, -⟩ := make_move_spec hlb hcur hm
    rw [← make_modified_move_eq] at hB
    obtain ⟨locs, hl, -, -⟩ := legal_moves_spec hBwf (opponent_1_player hcur)
    rw [← legal_moves_1_eq] at hl
    obtain ⟨s, hs, hs1, hs2⟩ := static_evaluation_bound B hBwf.1 hmaxp
    refine ⟨s, B, ?_, hs1, hs2, hBwf, hB⟩
    rw [minimax]
    simp only [if_neg hm0, hB, hl, hs, Option.map_some']
  | succ d ih =>
    intro lb m maxp cur a b hlb hm hmaxp hcur
    have hm0 : m ≠ 0 := by have := (validp_iff m).mp hm; omega
    obtain ⟨B, hB, hBwf, -, -⟩ := make_move_spec hlb hcur hm
    rw [← make_modified_move_eq] at hB
    have hopp := opponent_1_player hcur
    obtain ⟨locs, hl, -, hmem⟩ := legal_moves_spec hBwf hopp
    rw [← legal_moves_1_eq] at hl
    obtain ⟨s, hs, hs1, hs2⟩ := static_evaluation_bound B hBwf.1 hmaxp
    have hchild : ∀ tb m' a' b', WellFormed tb → validp m' = true →
        ∃ s tb', minimax d tb m' maxp (opponent_1 cur) a' b' = some (s, tb') ∧
          -64 ≤ s ∧ s ≤ 64 := by
      intro tb m' a' b' htb hm'
      obtain ⟨s', tb', h1, h2, h3, -, -⟩ := ih tb m' maxp (opponent_1 cur) a' b' htb hm' hmaxp hopp
      exact ⟨s', tb', h1, h2, h3⟩
    have hvalid : ∀ x ∈ locs, validp x = true := fun x hx => ((hmem x).mp hx).1
    rw [minimax]
    simp only [if_neg hm0, hB, hl, List.headD_cons, List.drop_succ_cons, List.drop_zero,
      Int.toNat_ofNat, List.take_length, copy_board_eq hBwf.1]
    by_cases h0 : (locs.length : Int) = 0
    · rw [if_pos h0]
      exact ⟨s, B, by simp only [hs, Option.map_some'], hs1, hs2, hBwf, rfl⟩
    · rw [if_neg h0]
      have hne : locs ≠ [] := by
        intro h; apply h0; rw [h]; rfl
      by_cases hmx : opponent_1 cur = maxp
      · rw [if_pos hmx]
        obtain ⟨r, hr, h1, h2, h3⟩ := minimax_max_loop_ok _ B hBwf 0 b hchild locs B (-100) a
          hvalid hBwf
        have := h3 hne
        exact ⟨r, B, by simp only [hr, Option.map_some'], this, by omega, hBwf, rfl⟩
      · rw [if_neg hmx]
        obtain ⟨r, hr, h1, h2, h3⟩ := minimax_min_loop_ok _ B hBwf 0 a hchild locs B 100 b
          hvalid hBwf
        have := h3 hne
        exact ⟨r, B, by simp only [hr, Option.map_some'], by omega, this, hBwf, rfl⟩

/-! ### Evaluating a search node from the facts about its position -/

theorem minimax_static {lb B : Board} {m maxp cur opp s : Int} {moves : List Int}
    (depth : Nat) (a b : Int) (hm : m ≠ 0)
    (hB : make_modified_move m lb cur = some B) (hopp : opponent_1 cur = opp)
    (hl : legal_moves_1 opp B = some moves) (hs : static_evaluation B maxp = some s)
    (hleaf : depth = 0 ∨ moves.headD 0 = 0) :
    minimax depth lb m maxp cur a b = some (s, B) := by
  subst hopp
  rw [minimax]
  simp only [if_neg hm, hB, hl, hs]
  cases depth with
  | zero => rfl
  | succ d =>
    rcases hleaf with h | h
    · cases h
    · simp only [h, if_true, Option.map_some']

theorem minimax_node {lb B : Board} {m maxp cur opp k : Int} {kids : List Int}
    (d : Nat) (a b : Int) (hm : m ≠ 0)
    (hB : make_modified_move m lb cur = some B) (hlen : B.length = 100)
    (hopp : opponent_1 cur = opp) (hl : legal_moves_1 opp B = some (k :: kids))
    (hk : k ≠ 0) :
    minimax (d + 1) lb m maxp cur a b =
      if opp = maxp then
        (minimax_max_loop (fun tb m a b => minimax d tb m maxp opp a b) B 0 b
          (kids.take k.toNat) B (-100) a).map (fun s => (s, B))
      else
        (minimax_min_loop (fun tb m a b => minimax d tb m maxp opp a b) B 0 a
          (kids.take k.toNat) B 100 b).map (fun s => (s, B)) := by
  subst hopp
  rw [minimax]
  simp only [if_neg hm, hB, hl, List.headD_cons, if_neg hk, copy_board_eq hlen,
    List.drop_succ_cons, List.drop_zero]

theorem max_loop_break {d : Nat} {maxp opp : Int}
    {lb tb tb1 : Board} {score beta m e maxEval alpha v : Int} {rest : List Int}
    (hc : minimax d tb m maxp opp alpha beta = some (e, tb1))
    (hv : (if e > maxEval then e else maxEval) = v)
    (hcut : beta ≤ (if alpha < score then score else alpha)) :
    minimax_max_loop (fun tb m a b => minimax d tb m maxp opp a b) lb score beta (m :: rest) tb
      maxEval alpha = some v := by
  rw [minimax_max_loop]
  simp only [hc, hv, if_pos hcut]

theorem max_loop_next {d : Nat} {maxp opp : Int}
    {lb tb tb1 : Board} {score beta m e maxEval alpha v alpha1 : Int} {rest : List Int}
    (hc : minimax d tb m maxp opp alpha beta = some (e, tb1)) (hlen : lb.length = 100)
    (hv : (if e > maxEval then e else maxEval) = v)
    (ha : (if alpha < score then score else alpha) = alpha1) (hcut : ¬ beta ≤ alpha1) :
    minimax_max_loop (fun tb m a b => minimax d tb m maxp opp a b) lb score beta (m :: rest) tb
      maxEval alpha =
      minimax_max_loop (fun tb m a b => minimax d tb m maxp opp a b) lb score beta rest lb v
        alpha1 := by
  rw [minimax_max_loop]
  simp only [hc, hv, ha, if_neg hcut, copy_board_eq hlen]

theorem min_loop_break {d : Nat} {maxp opp : Int}
    {lb tb tb1 : Board} {score alpha m e minEval beta v : Int} {rest : List Int}
    (hc : minimax d tb m maxp opp alpha beta = some (e, tb1))
    (hv : (if e < minEval then e else minEval) = v)
    (hcut : (if score < beta then score else beta) ≤ alpha) :
    minimax_min_loop (fun tb m a b => minimax d tb m maxp opp a b) lb score alpha (m :: rest) tb
      minEval beta = some v := by
  rw [minimax_min_loop]
  simp only [hc, hv, if_pos hcut]

theorem min_loop_next {d : Nat} {maxp opp : Int}
    {lb tb tb1 : Board} {score alpha m e minEval beta v beta1 : Int} {rest : List Int}
    (hc : minimax d tb m maxp opp alpha beta = some (e, tb1)) (hlen : lb.length = 100)
    (hv : (if e < minEval then e else minEval) = v)
    (hb : (if score < beta then score else beta) = beta1) (hcut : ¬ beta1 ≤ alpha) :
    minimax_min_loop (fun tb m a b => minimax d tb m maxp opp a b) lb score alpha (m :: rest) tb
      minEval beta =
      minimax_min_loop (fun tb m a b => minimax d tb m maxp opp a b) lb score alpha rest lb v
        beta1 := by
  rw [minimax_min_loop]
  simp only [hc, hv, hb, if_neg hcut, copy_board_eq hlen]

theorem plain_static {lb B : Board} {m maxp cur opp s : Int} {moves : List Int}
    (depth : Nat) (hB : make_modified_move m lb cur = some B) (hopp : opponent_1 cur = opp)
    (hl : legal_moves_1 opp B = some moves) (hs : static_evaluation B maxp = some s)
    (hleaf : depth = 0 ∨ moves.drop 1 = []) :
    plain_minimax depth lb m maxp cur = some s := by
  subst hopp
  rw [plain_minimax]
  simp only [hB, hl, hs]
  cases depth with
  | zero => rfl
  | succ d =>
    rcases hleaf with h | h
    · cases h
    · simp only [h]

theorem plain_node {lb B : Board} {m maxp cur opp k c s : Int} {rest scores : List Int}
    (d : Nat) (hB : make_modified_move m lb cur = some B) (hopp : opponent_1 cur = opp)
    (hl : legal_moves_1 opp B = some (k :: c :: rest))
    (hsc : child_scores (fun x => plain_minimax d B x maxp opp) (c :: rest) =
      some (s :: scores)) :
    plain_minimax (d + 1) lb m maxp cur =
      if opp = maxp then some (scores.foldl max s) else some (scores.foldl min s) := by
  subst hopp
  rw [plain_minimax]
  simp only [hB, hl, List.drop_succ_cons, List.drop_zero, hsc]

theorem child_scores_step {child : Int → Option Int} {m s : Int} {rest others : List Int}
    (h1 : child m = some s) (h2 : child_scores child rest = some others) :
    child_scores child (m :: rest) = some (s :: others) := by
  simp only [child_scores, h1, h2]

theorem search_loop_step {player : Int} {moves : List Int} {n i : Nat} {lb lb1 : Board}
    {max m e : Int} {num : Nat} (hm : moves[i]? = some m)
    (he : minimax 6 lb m player player (-1000) 1000 = some (e, lb1)) :
    search_loop player moves (n + 1) i lb max num =
      if e > max then search_loop player moves n (i + 1) lb1 e i
      else search_loop player moves n (i + 1) lb1 max num := by
  rw [search_loop]
  simp only [hm, he]

theorem search_for_best_move_eval {board : Board} {moves : List Int} {buffer_size player : Int}
    {max best : Int} {num : Nat} (hb : buffer_size ≠ 0) (hlen : board.length = 100)
    (hloop : search_loop player moves buffer_size.toNat 0 board (-100) 0 = some (max, num))
    (hbest : moves[num]? = some best) :
    search_for_best_move board moves buffer_size player = some (best, max) := by
  rw [search_for_best_move]
  simp only [if_neg hb, copy_board_eq hlen, hloop, hbest]

theorem chunk_scores_step {player m e : Int} {rest es : List Int} {lb lb1 : Board}
    (he : minimax 6 lb m player player (-1000) 1000 = some (e, lb1))
    (hes : chunk_scores player rest lb1 = some es) :
    chunk_scores player (m :: rest) lb = some (e :: es) := by
  simp only [chunk_scores, he, hes]

/-! ### Search over a chunk -/

theorem chunk_scores_cons {player m : Int} {rest : List Int} {lb : Board} {es : List Int}
    (h : chunk_scores player (m :: rest) lb = some es) :
    ∃ e lb' es', minimax 6 lb m player player (-1000) 1000 = some (e, lb') ∧
      chunk_scores player rest lb' = some es' ∧ es = e :: es' := by
  simp only [chunk_scores] at h
  cases hm : minimax 6 lb m player player (-1000) 1000 with
  | none => rw [hm] at h; cases h
  | some r =>
    obtain ⟨e, lb'⟩ := r
    rw [hm] at h
    simp only at h
    cases hc : chunk_scores player rest lb' with
    | none => rw [hc] at h; cases h
    | some es' =>
      rw [hc] at h
      simp only [Option.some.injEq] at h
      exact ⟨e, lb', es', rfl, hc, h.symm⟩

theorem chunk_scores_length {player : Int} : ∀ (moves : List Int) (lb : Board) (es : List Int),
    chunk_scores player moves lb = some es → es.length = moves.length := by
  intro moves
  induction moves with
  | nil => intro lb es h; simp only [chunk_scores, Option.some.injEq] at h; subst h; rfl
  | cons m rest ih =>
    intro lb es h
    obtain ⟨e, lb', es', -, h2, rfl⟩ := chunk_scores_cons h
    simp [ih lb' es' h2]

theorem search_loop_spec (player : Int) : ∀ (post pre : List Int) (lb : Board) (max : Int)
    (num : Nat) (es : List Int), chunk_scores player post lb = some es →
    ∃ R : Int × Nat, search_loop player (pre ++ post) post.length pre.length lb max num = some R ∧
      ((R = (max, num) ∧ ∀ e ∈ es, e ≤ max) ∨
       (∃ (j : Nat) (e : Int), es[j]? = some e ∧ R = (e, pre.length + j) ∧ max < e ∧
          (∀ e' ∈ es, e' ≤ e) ∧ ∀ (i : Nat) (e' : Int), i < j → es[i]? = some e' → e' < e)) := by
  intro post
  induction post with
  | nil =>
    intro pre lb max num es h
    simp only [chunk_scores, Option.some.injEq] at h
    subst h
    exact ⟨(max, num), rfl, Or.inl ⟨rfl, by simp⟩⟩
  | cons m rest ih =>
    intro pre lb max num es h
    obtain ⟨e0, lb', es', hm, hrest, rfl⟩ := chunk_scores_cons h
    have hget : (pre ++ m :: rest)[pre.length]? = some m := by
      rw [List.getElem?_append_right (le_refl _)]; simp
    have happ : pre ++ m :: rest = (pre ++ [m]) ++ rest := by simp
    have hlen : (pre ++ [m]).length = pre.length + 1 := by simp
    simp only [List.length_cons, search_loop, hget, hm]
    by_cases hgt : e0 > max
    · rw [if_pos hgt]
      obtain ⟨R, hR, hcase⟩ := ih (pre ++ [m]) lb' e0 pre.length es' hrest
      rw [← happ, hlen] at hR
      refine ⟨R, hR, Or.inr ?_⟩
      rcases hcase with ⟨h1, h2⟩ | ⟨j, e, hj, h1, h2, h3, h4⟩
      · refine ⟨0, e0, by simp, by simpa using h1, hgt, ?_, fun i _ hi => by omega⟩
        intro e' he'
        rcases List.mem_cons.mp he' with rfl | he'
        · exact le_refl _
        · exact h2 e' he'
      · refine ⟨j + 1, e, by simpa using hj, by rw [h1, hlen]; congr 1; omega, by omega, ?_, ?_⟩
        · intro e' he'
          rcases List.mem_cons.mp he' with rfl | he'
          · omega
          · exact h3 e' he'
        · intro i e' hi hi'
          rcases Nat.eq_zero_or_pos i with rfl | hpos
          · simp at hi'; omega
          · obtain ⟨i', rfl⟩ : ∃ i', i = i' + 1 := ⟨i - 1, by omega⟩
            exact h4 i' e' (by omega) (by simpa using hi')
    · rw [if_neg hgt]
      obtain ⟨R, hR, hcase⟩ := ih (pre ++ [m]) lb' max num es' hrest
      rw [← happ, hlen] at hR
      refine ⟨R, hR, ?_⟩
      rcases hcase with ⟨h1, h2⟩ | ⟨j, e, hj, h1, h2, h3, h4⟩
      · left
        refine ⟨h1, ?_⟩
        intro e' he'
        rcases List.mem_cons.mp he' with rfl | he'
        · omega
        · exact h2 e' he'
      · right
        refine ⟨j + 1, e, by simpa using hj, by rw [h1, hlen]; congr 1; omega, h2, ?_, ?_⟩
        · intro e' he'
          rcases List.mem_cons.mp he' with rfl | he'
          · omega
          · exact h3 e' he'
        · intro i e' hi hi'
          rcases Nat.eq_zero_or_pos i with rfl | hpos
          · simp at hi'; omega
          · obtain ⟨i', rfl⟩ : ∃ i', i = i' + 1 := ⟨i - 1, by omega⟩
            exact h4 i' e' (by omega) (by simpa using hi')

theorem search_for_best_move_spec {board : Board} (hlen : board.length = 100) {player : Int}
    {moves es : List Int} (hne : moves ≠ []) (hes : chunk_scores player moves board = some es)
    (hex : ∃ e ∈ es, -100 < e) :
    ∃ (j : Nat) (m e : Int), moves[j]? = some m ∧ es[j]? = some e ∧
      search_for_best_move board moves moves.length player = some (m, e) ∧
      (∀ e' ∈ es, e' ≤ e) ∧ ∀ (i : Nat) (e' : Int), i < j → es[i]? = some e' → e' < e := by
  obtain ⟨R, hR, hcase⟩ := search_loop_spec player moves [] board (-100) 0 es hes
  simp only [List.nil_append, List.length_nil, Nat.zero_add] at hR hcase
  have hl := chunk_scores_length moves board es hes
  have hb0 : (moves.length : Int) ≠ 0 := by
    intro h
    exact hne (List.length_eq_zero.mp (by omega))
  rcases hcase with ⟨-, h2⟩ | ⟨j, e, hj, h1, h2, h3, h4⟩
  · obtain ⟨e, he, hlt⟩ := hex
    have := h2 e he
    omega
  · have hjl : j < moves.length := by
      rw [← hl]; exact (List.getElem?_eq_some.mp hj).1
    refine ⟨j, moves[j], e, List.getElem?_eq_getElem hjl, hj, ?_, h3, h4⟩
    subst h1
    simp only [search_for_best_move, if_neg hb0, copy_board_eq hlen, Int.toNat_ofNat, hR,
      List.getElem?_eq_getElem hjl]

/-- C8: with an empty chunk (`buffer_size` 0) `search_for_best_move` returns
`(-1, -100)`; with a non-empty chunk whose per-move scores as computed by its
loop are `es`, at least one of them greater than -100, it returns
`(moves[j], es[j])` where `es[j]` is the maximum score and `j` the smallest index
attaining it. -/
theorem C8_search_first_max (board : Board) (moves : List Int) (player : Int)
    (hlen : board.length = 100) :
    search_for_best_move board moves 0 player = some (-1, -100) ∧
    ∀ es : List Int, moves ≠ [] → chunk_scores player moves board = some es →
      (∃ e ∈ es, -100 < e) →
      ∃ (j : Nat) (m e : Int), moves[j]? = some m ∧ es[j]? = some e ∧
        search_for_best_move board moves moves.length player = some (m, e) ∧
        (∀ e' ∈ es, e' ≤ e) ∧ ∀ (i : Nat) (e' : Int), i < j → es[i]? = some e' → e' < e := by
  refine ⟨by simp [search_for_best_move], ?_⟩
  intro es hne hes hex
  exact search_for_best_move_spec hlen hne hes hex

set_option maxRecDepth 100000 in
theorem short_board_wf : WellFormed short_board := by decide

set_option maxRecDepth 100000 in
theorem short_board_after_wf : WellFormed short_board_after := by decide

set_option maxRecDepth 100000 in
theorem short_board_move : make_modified_move 13 short_board BLACK = some short_board_after :=
  rfl

/-- A player without a piece on the board has no legal move. -/
theorem no_piece_no_legal {b : Board} (hb : WellFormed b) {p : Int}
    (hp : p = BLACK ∨ p = WHITE) (hnone : ∀ x, rd b x ≠ some p) : ∀ x, ¬ Legal b p x := by
  rintro x ⟨hx, -, d, hd, r, hr, hr0⟩
  obtain ⟨r', hr', h1, -⟩ := would_flip_spec hb hp hx hd
  rw [hr] at hr'
  cases hr'
  obtain ⟨k, hk, -⟩ := h1 hr0
  exact hnone _ hk.2.2

theorem legal_moves_none {b : Board} (hb : WellFormed b) {p : Int}
    (hp : p = BLACK ∨ p = WHITE) (hnone : ∀ x, ¬ Legal b p x) : legal_moves b p = some [0] := by
  obtain ⟨locs, hl, -, hmem⟩ := legal_moves_spec hb hp
  have hlocs : locs = [] :=
    List.eq_nil_iff_forall_not_mem.mpr (fun x hx => hnone x ((hmem x).mp hx))
  subst hlocs
  exact hl

set_option maxRecDepth 100000 in
theorem short_board_after_no_white : ∀ i : Nat, i < 100 → short_board_after[i]? ≠ some WHITE := by
  decide

theorem short_board_after_none : ∀ x, ¬ Legal short_board_after WHITE x := by
  apply no_piece_no_legal short_board_after_wf (Or.inr rfl)
  intro x hx
  obtain ⟨h0, h1, h2⟩ := rd_eq_some hx
  have hl : short_board_after.length = 100 := short_board_after_wf.1
  exact short_board_after_no_white x.toNat (by omega) h2

theorem short_board_moves : legal_moves_1 (opponent_1 BLACK) short_board_after = some [0] := by
  rw [legal_moves_1_eq]
  exact legal_moves_none short_board_after_wf (Or.inr rfl) short_board_after_none

set_option maxRecDepth 100000 in
theorem short_board_eval : static_evaluation short_board_after BLACK = some 3 := rfl

theorem short_board_minimax :
    minimax 6 short_board 13 BLACK BLACK (-1000) 1000 = some (3, short_board_after) :=
  minimax_static 6 (-1000) 1000 (by decide) short_board_move rfl short_board_moves
    short_board_eval (Or.inr rfl)

theorem short_board_scores : chunk_scores BLACK [13] short_board = some [3] :=
  chunk_scores_step short_board_minimax rfl

theorem C8_search_first_max_witness :
    short_board.length = 100 ∧
    search_for_best_move short_board [13] 0 BLACK = some (-1, -100) ∧
    ∃ (j : Nat) (m e : Int), [(13 : Int)][j]? = some m ∧ [(3 : Int)][j]? = some e ∧
      search_for_best_move short_board [13] ([(13 : Int)].length) BLACK = some (m, e) ∧
      (∀ e' ∈ [(3 : Int)], e' ≤ e) ∧
      ∀ (i : Nat) (e' : Int), i < j → [(3 : Int)][i]? = some e' → e' < e :=
  ⟨by decide, (C8_search_first_max short_board [13] BLACK (by decide)).1,
    (C8_search_first_max short_board [13] BLACK (by decide)).2 [3] (by decide)
      short_board_scores ⟨3, by decide, by decide⟩⟩

/-! ### A whole turn -/

theorem chunk_scores_ok {player : Int} (hp : player = BLACK ∨ player = WHITE) :
    ∀ (moves : List Int) (lb : Board), WellFormed lb → (∀ m ∈ moves, validp m = true) →
      ∃ es, chunk_scores player moves lb = some es ∧ ∀ e ∈ es, -64 ≤ e ∧ e ≤ 64 := by
  intro moves
  induction moves with
  | nil => intro lb _ _; exact ⟨[], rfl, by simp⟩
  | cons m rest ih =>
    intro lb hlb hv
    obtain ⟨s, lb', hm, h1, h2, hwf, -⟩ := minimax_ok 6 lb m player player (-1000) 1000 hlb
      (hv m (List.mem_cons_self _ _)) hp hp
    obtain ⟨es, hes, hb⟩ := ih lb' hwf (fun x hx => hv x (List.mem_cons_of_mem _ hx))
    refine ⟨s :: es, by simp only [chunk_scores, hm, hes], ?_⟩
    intro e he
    rcases List.mem_cons.mp he with rfl | he
    · exact ⟨h1, h2⟩
    · exact hb e he

/-- The result of one unit: the sentinel pair for an empty chunk, otherwise a move
of the chunk with a score in `[-64, 64]`. -/
theorem unit_result {board : Board} (hb : WellFormed board) {player : Int}
    (hp : player = BLACK ∨ player = WHITE) (chunk : List Int)
    (hv : ∀ m ∈ chunk, validp m = true) :
    ∃ r, search_for_best_move board chunk chunk.length player = some r ∧
      ((chunk = [] ∧ r = (-1, -100)) ∨
       (chunk ≠ [] ∧ r.1 ∈ chunk ∧ -64 ≤ r.2 ∧ r.2 ≤ 64)) := by
  by_cases hne : chunk = []
  · subst hne
    exact ⟨(-1, -100), by simp [search_for_best_move], Or.inl ⟨rfl, rfl⟩⟩
  · obtain ⟨es, hes, hbd⟩ := chunk_scores_ok hp chunk board hb hv
    have hl := chunk_scores_length chunk board es hes
    have hpos : 0 < es.length := by
      rw [hl]; exact List.length_pos.mpr hne
    have hex : ∃ e ∈ es, -100 < e := by
      refine ⟨es[0], List.getElem_mem _, ?_⟩
      have := hbd es[0] (List.getElem_mem _)
      omega
    obtain ⟨j, m, e, hj, hje, hres, -, -⟩ := search_for_best_move_spec hb.1 hne hes hex
    refine ⟨(m, e), hres, Or.inr ⟨hne, List.getElem?_mem hj, ?_⟩⟩
    exact hbd e (List.getElem?_mem hje)

theorem receive_chunk_fit {capacity : Int} {chunk : List Int}
    (h : (chunk.length : Int) ≤ capacity) : receive_chunk capacity chunk = some chunk := by
  unfold receive_chunk
  rw [if_pos h]

theorem gather_workers_ok {board : Board} (hb : WellFormed board) {player : Int}
    (hp : player = BLACK ∨ player = WHITE) : ∀ (chunks : List (List Int)),
    (∀ c ∈ chunks, ∀ m ∈ c, validp m = true) → (∀ c ∈ chunks, c.length ≤ 15) →
    ∃ g, gather_workers board player (chunks.map (fun c => ((c.length : Int), c))) = some g ∧
      (∀ r ∈ g, r = (-1, -100) ∨ (∃ c ∈ chunks, r.1 ∈ c ∧ -64 ≤ r.2 ∧ r.2 ≤ 64)) ∧
      ((∃ c ∈ chunks, c ≠ []) → ∃ r ∈ g, -64 ≤ r.2) := by
  intro chunks
  induction chunks with
  | nil => intro _ _; exact ⟨[], rfl, by simp, by simp⟩
  | cons c rest ih =>
    intro hv hfit
    obtain ⟨g, hg, h1, h2⟩ := ih (fun c' hc' => hv c' (List.mem_cons_of_mem _ hc'))
      (fun c' hc' => hfit c' (List.mem_cons_of_mem _ hc'))
    obtain ⟨r, hr, hcase⟩ := unit_result hb hp c (hv c (List.mem_cons_self _ _))
    have hc15 : (c.length : Int) ≤ 15 := by
      have := hfit c (List.mem_cons_self _ _)
      omega
    refine ⟨r :: g, by
      simp only [List.map_cons, gather_workers, receive_chunk_fit hc15, hr, hg], ?_, ?_⟩
    · intro r' hr'
      rcases List.mem_cons.mp hr' with rfl | hr'
      · rcases hcase with ⟨-, h⟩ | ⟨-, h⟩
        · exact Or.inl h
        · exact Or.inr ⟨c, List.mem_cons_self _ _, h⟩
      · rcases h1 r' hr' with h | ⟨c', hc', h⟩
        · exact Or.inl h
        · exact Or.inr ⟨c', List.mem_cons_of_mem _ hc', h⟩
    · rintro ⟨c', hc', hne⟩
      rcases List.mem_cons.mp hc' with rfl | hc'
      · rcases hcase with ⟨h, -⟩ | ⟨-, -, h, -⟩
        · exact absurd h hne
        · exact ⟨r, List.mem_cons_self _ _, h⟩
      · obtain ⟨r', hr', h⟩ := h2 ⟨c', hc', hne⟩
        exact ⟨r', List.mem_cons_of_mem _ hr', h⟩

/-- The gathered pairs when every chunk fits the buffer it is received into. -/
theorem gather_best_ok {board : Board} (hb : WellFormed board) {player : Int}
    (hp : player = BLACK ∨ player = WHITE) (elements_per_process : Int)
    (chunks : List (List Int)) (hv : ∀ c ∈ chunks, ∀ m ∈ c, validp m = true)
    (hhead : ∀ c ∈ chunks.head?, (c.length : Int) ≤ elements_per_process + 1)
    (htail : ∀ c ∈ chunks.tail, c.length ≤ 15) :
    ∃ g, gather_best board player elements_per_process
        (chunks.map (fun c => ((c.length : Int), c))) = some g ∧
      (∀ r ∈ g, r = (-1, -100) ∨ (∃ c ∈ chunks, r.1 ∈ c ∧ -64 ≤ r.2 ∧ r.2 ≤ 64)) ∧
      ((∃ c ∈ chunks, c ≠ []) → ∃ r ∈ g, -64 ≤ r.2) := by
  cases chunks with
  | nil => exact ⟨[], rfl, by simp, by simp⟩
  | cons c rest =>
    obtain ⟨g, hg, h1, h2⟩ := gather_workers_ok hb hp rest
      (fun c' hc' => hv c' (List.mem_cons_of_mem _ hc')) htail
    obtain ⟨r, hr, hcase⟩ := unit_result hb hp c (hv c (List.mem_cons_self _ _))
    have hc0 : (c.length : Int) ≤ elements_per_process + 1 := hhead c rfl
    refine ⟨r :: g, by
      simp only [List.map_cons, gather_best, receive_chunk_fit hc0, hr, hg], ?_, ?_⟩
    · intro r' hr'
      rcases List.mem_cons.mp hr' with rfl | hr'
      · rcases hcase with ⟨-, h⟩ | ⟨-, h⟩
        · exact Or.inl h
        · exact Or.inr ⟨c, List.mem_cons_self _ _, h⟩
      · rcases h1 r' hr' with h | ⟨c', hc', h⟩
        · exact Or.inl h
        · exact Or.inr ⟨c', List.mem_cons_of_mem _ hc', h⟩
    · rintro ⟨c', hc', hne⟩
      rcases List.mem_cons.mp hc' with rfl | hc'
      · rcases hcase with ⟨h, -⟩ | ⟨-, -, h, -⟩
        · exact absurd h hne
        · exact ⟨r, List.mem_cons_self _ _, h⟩
      · obtain ⟨r', hr', h⟩ := h2 ⟨c', hc', hne⟩
        exact ⟨r', List.mem_cons_of_mem _ hr', h⟩

theorem zip_map_length (chunks : List (List Int)) :
    (chunks.map (fun c => (c.length : Int))).zip chunks =
      chunks.map (fun c => ((c.length : Int), c)) := by
  induction chunks with
  | nil => rfl
  | cons c rest ih => simp only [List.map_cons, List.zip_cons_cons, ih]

/-- The chunk of rank 0 fits the `elements_per_process + 1` ints of the
`receive_buffer` of `gen_move_master3`. -/
theorem head_chunk_fits {M N : Nat} {chunks : List (List Int)}
    (hmap : chunks.map (fun c => (c.length : Int)) = send_counts (M : Int) N) :
    ∀ c ∈ chunks.head?, (c.length : Int) ≤ (M : Int).tdiv N + 1 := by
  intro c hc
  rw [Int.tdiv_eq_ediv (Int.ofNat_nonneg M) (Int.ofNat_nonneg N), ← Int.natCast_div]
  cases chunks with
  | nil => cases hc
  | cons c0 rest =>
    obtain rfl : c0 = c := by simpa using hc
    rw [send_counts_eq] at hmap
    cases N with
    | zero => simp at hmap
    | succ n =>
      rw [List.range_succ_eq_map] at hmap
      simp only [List.map_cons, List.cons.injEq] at hmap
      rw [hmap.1]
      split_ifs <;> omega

/-- The gathered pairs of a turn in terms of the chunks the coordinator scatters. -/
theorem gathered_results_eq {board : Board} {my_colour : Int} {N : Nat} (hN : 1 ≤ N)
    {locs : List Int} (hl : legal_moves board my_colour = some ((locs.length : Int) :: locs)) :
    ∃ chunks : List (List Int),
      scatter_moves ((locs.length : Int) :: locs) N = some chunks ∧
      chunks.length = N ∧ chunks.flatten = locs ∧
      (∀ c ∈ chunks.head?, (c.length : Int) ≤ (locs.length : Int).tdiv N + 1) ∧
      gathered_results board my_colour N =
        gather_best board my_colour ((locs.length : Int).tdiv N)
          (chunks.map (fun c => ((c.length : Int), c))) := by
  obtain ⟨chunks, hsc, hlen, hflat, -, hmap, -⟩ := scatter_moves_spec locs N hN
  refine ⟨chunks, hsc, hlen, hflat, head_chunk_fits hmap, ?_⟩
  have hN0 : N ≠ 0 := by omega
  simp only [gathered_results, if_neg hN0, hl, hsc, List.headD_cons, ← hmap, zip_map_length]

theorem legal_of_exists {board : Board} (hb : WellFormed board) {my_colour : Int}
    (hc : my_colour = BLACK ∨ my_colour = WHITE) :
    ∃ locs : List Int, legal_moves board my_colour = some ((locs.length : Int) :: locs) ∧
      (∀ x, x ∈ locs ↔ Legal board my_colour x) :=
  let ⟨locs, h1, _, h3⟩ := legal_moves_spec hb hc
  ⟨locs, h1, h3⟩

/-- When every chunk sent to a unit of rank 1 or more fits the 15 ints of the
`receive_buffer` of `run_worker`: on a well-formed board, for a colour in {BLACK,
WHITE} with at least one legal move and N ≥ 1 units, every gathered pair is the
sentinel `(-1, -100)` or a legal move with a score in `[-64, 64]`, and the pair the
coordinator selects is not the sentinel: its move is not -1, is a member of
`legal_moves(board, colour)` and is the move `gen_move_master3` applies and
emits. -/
theorem selected_move_legal (board : Board) (my_colour : Int) (N : Nat)
    (hb : WellFormed board) (hc : my_colour = BLACK ∨ my_colour = WHITE) (hN : 1 ≤ N)
    (hmove : ∃ x, Legal board my_colour x)
    (hfit : ∀ all_legal_moves chunks, legal_moves board my_colour = some all_legal_moves →
      scatter_moves all_legal_moves N = some chunks → ∀ c ∈ chunks.tail, c.length ≤ 15) :
    ∃ (locs : List Int) (gathered : List (Int × Int)) (mv sc : Int) (board1 : Board),
      legal_moves board my_colour = some ((locs.length : Int) :: locs) ∧
      gathered_results board my_colour N = some gathered ∧
      (∀ p ∈ gathered, p = (-1, -100) ∨ (p.1 ∈ locs ∧ -64 ≤ p.2 ∧ p.2 ≤ 64)) ∧
      (∃ p ∈ gathered, p ≠ (-1, -100)) ∧
      select_best gathered (-1) (-100) = (mv, sc) ∧
      (mv, sc) ∈ gathered ∧ (mv, sc) ≠ (-1, -100) ∧ mv ≠ -1 ∧ mv ∈ locs ∧
      make_move board mv my_colour = some board1 ∧
      gen_move_master3 board my_colour N = some (get_move_string mv, board1, mv, sc) := by
  obtain ⟨locs, hl, hmem⟩ := legal_of_exists hb hc
  obtain ⟨x, hx⟩ := hmove
  have hxl : x ∈ locs := (hmem x).mpr hx
  obtain ⟨chunks, hsc, -, hflat, hhead, hgr⟩ := gathered_results_eq hN hl
  have hsub : ∀ c ∈ chunks, ∀ m ∈ c, m ∈ locs := by
    intro c hcm m hm
    rw [← hflat]
    exact List.mem_flatten.mpr ⟨c, hcm, hm⟩
  have hvalid : ∀ m ∈ locs, validp m = true := fun m hm => ((hmem m).mp hm).1
  obtain ⟨g, hg, hall, hsome⟩ := gather_best_ok hb hc ((locs.length : Int).tdiv N) chunks
    (fun c hcm m hm => hvalid m (hsub c hcm m hm)) hhead (hfit _ chunks hl hsc)
  rw [← hgr] at hg
  have hnonempty : ∃ c ∈ chunks, c ≠ [] := by
    rw [← hflat] at hxl
    obtain ⟨c, hcm, hxc⟩ := List.mem_flatten.mp hxl
    exact ⟨c, hcm, List.ne_nil_of_mem hxc⟩
  obtain ⟨r0, hr0, hr0s⟩ := hsome hnonempty
  have hall' : ∀ p ∈ g, p = (-1, -100) ∨ (p.1 ∈ locs ∧ -64 ≤ p.2 ∧ p.2 ≤ 64) := by
    intro p hp
    rcases hall p hp with h | ⟨c, hcm, h1, h2, h3⟩
    · exact Or.inl h
    · exact Or.inr ⟨hsub c hcm _ h1, h2, h3⟩
  have hr0ne : r0 ≠ (-1, -100) := by
    intro h; rw [h] at hr0s; simp at hr0s
  rcases select_best_spec g (-1) (-100) with ⟨-, h2⟩ | ⟨i, q, hq, hsel, hlt, -, -⟩
  · have := h2 r0 hr0
    omega
  · obtain ⟨mv, sc⟩ := q
    have hqg : (mv, sc) ∈ g := List.getElem?_mem hq
    have hqne : (mv, sc) ≠ (-1, -100) := by
      intro h
      simp only [Prod.mk.injEq] at h
      simp only at hlt
      omega
    have hmvl : mv ∈ locs := by
      rcases hall' (mv, sc) hqg with h | h
      · exact absurd h hqne
      · exact h.1
    have hmv1 : mv ≠ -1 := by
      have := (validp_iff mv).mp (hvalid mv hmvl)
      omega
    obtain ⟨B, hB, -, -, -⟩ := make_move_spec hb hc (hvalid mv hmvl)
    refine ⟨locs, g, mv, sc, B, hl, hg, hall', ⟨r0, hr0, hr0ne⟩, hsel, hqg, hqne, hmv1, hmvl,
      hB, ?_⟩
    simp only [gen_move_master3, hg, hsel, if_neg hmv1, hB]

theorem short_board_legal : Legal short_board BLACK 13 :=
  ⟨by decide, by decide, -1, by decide, 11, by decide, by decide⟩

theorem gather_workers_empty (board : Board) (player : Int) : ∀ n : Nat,
    gather_workers board player ((List.replicate n ([] : List Int)).map
      (fun c => ((c.length : Int), c))) = some (List.replicate n (-1, -100)) := by
  intro n
  induction n with
  | zero => rfl
  | succ n ih =>
    simp only [List.replicate_succ, List.map_cons, gather_workers, List.length_nil]
    rw [ih, receive_chunk_fit (by simp)]
    simp [search_for_best_move]

theorem gather_best_empty (board : Board) (player : Int) (elements_per_process : Int)
    (h : 0 ≤ elements_per_process + 1) (n : Nat) :
    gather_best board player elements_per_process ((List.replicate n ([] : List Int)).map
      (fun c => ((c.length : Int), c))) = some (List.replicate n (-1, -100)) := by
  cases n with
  | zero => rfl
  | succ n =>
    simp only [List.replicate_succ, List.map_cons, gather_best, List.length_nil]
    rw [gather_workers_empty, receive_chunk_fit (by simpa using h)]
    simp [search_for_best_move]

theorem select_best_sentinels : ∀ n : Nat,
    select_best (List.replicate n ((-1 : Int), (-100 : Int))) (-1) (-100) = (-1, -100) := by
  intro n
  induction n with
  | zero => rfl
  | succ n ih => simp only [List.replicate_succ, select_best, lt_irrefl, gt_iff_lt, if_false, ih]

/-- C7: on a well-formed board, for a colour in {BLACK, WHITE} without a legal
move and N ≥ 1 units, every unit's result is the sentinel pair `(-1, -100)`, the
coordinator selects location -1 with score -100, the emitted move is the pass
token, and the canonical board after the turn is the board before it. -/
theorem C7_no_move_pass (board : Board) (my_colour : Int) (N : Nat)
    (hb : WellFormed board) (hc : my_colour = BLACK ∨ my_colour = WHITE) (hN : 1 ≤ N)
    (hnone : ∀ x, ¬ Legal board my_colour x) :
    gathered_results board my_colour N = some (List.replicate N (-1, -100)) ∧
    select_best (List.replicate N (-1, -100)) (-1) (-100) = (-1, -100) ∧
    gen_move_master3 board my_colour N = some (pass_token, board, -1, -100) := by
  obtain ⟨locs, hl, hmem⟩ := legal_of_exists hb hc
  have hlocs : locs = [] := by
    apply List.eq_nil_iff_forall_not_mem.mpr
    intro x hx
    exact hnone x ((hmem x).mp hx)
  subst hlocs
  obtain ⟨chunks, -, hlen, hflat, -, hgr⟩ := gathered_results_eq hN hl
  have hchunks : chunks = List.replicate N [] := by
    rw [List.eq_replicate_iff]
    refine ⟨hlen, ?_⟩
    intro c hcm
    exact (List.flatten_eq_nil_iff.mp hflat) c hcm
  rw [hchunks, gather_best_empty _ _ _ (by simp)] at hgr
  refine ⟨hgr, select_best_sentinels N, ?_⟩
  simp only [gen_move_master3, hgr, select_best_sentinels N, if_true]

theorem C7_no_move_pass_witness :
    WellFormed short_board_after ∧ (1 ≤ 3) ∧ (∀ x, ¬ Legal short_board_after WHITE x) ∧
    gathered_results short_board_after WHITE 3 = some (List.replicate 3 (-1, -100)) ∧
    select_best (List.replicate 3 (-1, -100)) (-1) (-100) = (-1, -100) ∧
    gen_move_master3 short_board_after WHITE 3 =
      some (pass_token, short_board_after, -1, -100) :=
  ⟨short_board_after_wf, by decide, short_board_after_none,
    C7_no_move_pass short_board_after WHITE 3 short_board_after_wf (Or.inr rfl) (by decide)
      short_board_after_none⟩

set_option maxRecDepth 100000 in
theorem short_board_all_moves : legal_moves short_board BLACK = some [1, 13] := rfl

/-- The hypotheses of `selected_move_legal` hold on `short_board` with three units. -/
theorem selected_move_legal_short_board :
    ∃ (locs : List Int) (gathered : List (Int × Int)) (mv sc : Int) (board1 : Board),
      legal_moves short_board BLACK = some ((locs.length : Int) :: locs) ∧
      gathered_results short_board BLACK 3 = some gathered ∧
      (∀ p ∈ gathered, p = (-1, -100) ∨ (p.1 ∈ locs ∧ -64 ≤ p.2 ∧ p.2 ≤ 64)) ∧
      (∃ p ∈ gathered, p ≠ (-1, -100)) ∧
      select_best gathered (-1) (-100) = (mv, sc) ∧
      (mv, sc) ∈ gathered ∧ (mv, sc) ≠ (-1, -100) ∧ mv ≠ -1 ∧ mv ∈ locs ∧
      make_move short_board mv BLACK = some board1 ∧
      gen_move_master3 short_board BLACK 3 = some (get_move_string mv, board1, mv, sc) := by
  apply selected_move_legal short_board BLACK 3 short_board_wf (Or.inl rfl) (by decide)
    ⟨13, short_board_legal⟩
  intro all_legal_moves chunks hl hsc
  rw [short_board_all_moves] at hl
  cases hl
  have : scatter_moves [1, 13] 3 = some [[13], [], []] := rfl
  rw [this] at hsc
  cases hsc
  decide

/-! ### The receive buffer of the workers (C6) -/

/-- C11: on every 100-cell board (in particular on one without EMPTY interior
cells) `static_evaluation(B, BLACK)` is the negation of
`static_evaluation(B, WHITE)`. -/
theorem C11_evaluator_symmetry (b : Board) (hlen : b.length = 100) :
    ∃ s, static_evaluation b BLACK = some s ∧ static_evaluation b WHITE = some (-s) := by
  refine ⟨cell_count b BLACK - cell_count b WHITE, ?_, ?_⟩
  · rw [static_evaluation_spec b hlen BLACK]
    simp [BLACK, WHITE]
  · rw [static_evaluation_spec b hlen WHITE]
    simp [BLACK, WHITE]

theorem C11_evaluator_symmetry_witness :
    initialise_board.length = 100 ∧
    ∃ s, static_evaluation initialise_board BLACK = some s ∧
      static_evaluation initialise_board WHITE = some (-s) :=
  ⟨initialise_board_wf.1, C11_evaluator_symmetry initialise_board initialise_board_wf.1⟩

/-- At depth 0, or when the player to move after the candidate move has no legal
move, `minimax` returns the static evaluation of the board after the move. -/
theorem minimax_leaf {lb B : Board} {move maxp cur : Int} (depth : Nat) (alpha beta : Int)
    (hB : make_modified_move move lb cur = some B) (hBwf : WellFormed B)
    (hm : validp move = true) (hcur : cur = BLACK ∨ cur = WHITE)
    (hleaf : depth = 0 ∨ ∀ x, ¬ Legal B (opponent_1 cur) x) :
    minimax depth lb move maxp cur alpha beta =
      (static_evaluation B maxp).map (fun s => (s, B)) := by
  have hm0 : move ≠ 0 := by have := (validp_iff move).mp hm; omega
  have hopp := opponent_1_player hcur
  obtain ⟨locs, hl, -, hmem⟩ := legal_moves_spec hBwf hopp
  rw [← legal_moves_1_eq] at hl
  rw [minimax]
  simp only [if_neg hm0, hB, hl, List.headD_cons]
  cases depth with
  | zero => rfl
  | succ d =>
    rcases hleaf with h | h
    · cases h
    · have hlocs : locs = [] :=
        List.eq_nil_iff_forall_not_mem.mpr (fun x hx => h x ((hmem x).mp hx))
      subst hlocs
      simp

/-- C12: on a well-formed board, for an interior candidate move and players in
{BLACK, WHITE}: if `depth` is 0, or the opponent of `current_player` has no legal
move on the board `B` obtained by applying the candidate move, then for all
`alpha`, `beta` `minimax` returns `static_evaluation(B, maximizing_player)`. -/
theorem C12_minimax_leaf_static (depth : Nat) (lb B : Board)
    (move maximizing_player current_player : Int) (hlb : WellFormed lb)
    (hm : validp move = true)
    (hmaxp : maximizing_player = BLACK ∨ maximizing_player = WHITE)
    (hcur : current_player = BLACK ∨ current_player = WHITE)
    (hB : make_modified_move move lb current_player = some B)
    (hleaf : depth = 0 ∨ ∀ x, ¬ Legal B (opponent_1 current_player) x) :
    ∃ s, static_evaluation B maximizing_player = some s ∧
      ∀ alpha beta : Int,
        minimax depth lb move maximizing_player current_player alpha beta = some (s, B) := by
  obtain ⟨B', hB', hBwf, -, -⟩ := make_move_spec hlb hcur hm
  rw [← make_modified_move_eq, hB] at hB'
  cases hB'
  obtain ⟨s, hs, -, -⟩ := static_evaluation_bound B hBwf.1 hmaxp
  refine ⟨s, hs, fun alpha beta => ?_⟩
  rw [minimax_leaf depth alpha beta hB hBwf hm hcur hleaf, hs]
  rfl

theorem C12_minimax_leaf_static_witness :
    WellFormed short_board ∧ validp 13 = true ∧
    make_modified_move 13 short_board BLACK = some short_board_after ∧
    ((6 : Nat) = 0 ∨ ∀ x, ¬ Legal short_board_after (opponent_1 BLACK) x) ∧
    ∃ s, static_evaluation short_board_after BLACK = some s ∧
      ∀ alpha beta : Int,
        minimax 6 short_board 13 BLACK BLACK alpha beta = some (s, short_board_after) :=
  ⟨short_board_wf, by decide, short_board_move, Or.inr short_board_after_none,
    C12_minimax_leaf_static 6 short_board short_board_after 13 BLACK BLACK short_board_wf
      (by decide) (Or.inl rfl) (Or.inl rfl) short_board_move (Or.inr short_board_after_none)⟩

/-- C15: `opponent` and `opponent_1` map BLACK to WHITE and WHITE to BLACK, so
applying them twice to a player in {BLACK, WHITE} gives the player back; every
other input yields EMPTY. -/
theorem C15_opponent_swap :
    opponent BLACK = WHITE ∧ opponent WHITE = BLACK ∧
    opponent_1 BLACK = WHITE ∧ opponent_1 WHITE = BLACK ∧
    (∀ p : Int, p = BLACK ∨ p = WHITE →
      opponent (opponent p) = p ∧ opponent_1 (opponent_1 p) = p) ∧
    (∀ p : Int, p ≠ BLACK → p ≠ WHITE → opponent p = EMPTY ∧ opponent_1 p = EMPTY) := by
  refine ⟨rfl, rfl, rfl, rfl, ?_, ?_⟩
  · rintro p (rfl | rfl) <;> exact ⟨rfl, rfl⟩
  · intro p h1 h2
    simp [opponent, opponent_1, h1, h2]

theorem C15_opponent_swap_witness :
    (opponent (opponent BLACK) = BLACK ∧ opponent_1 (opponent_1 BLACK) = BLACK) ∧
    (opponent OUTER = EMPTY ∧ opponent_1 OUTER = EMPTY) :=
  ⟨C15_opponent_swap.2.2.2.2.1 BLACK (Or.inl rfl),
    C15_opponent_swap.2.2.2.2.2 OUTER (by decide) (by decide)⟩

/-- C19: `initialise_board` yields a well-formed board, and on a well-formed board
`make_move` and `make_modified_move`, for every interior move (legal or not) and
every player in {BLACK, WHITE}, yield a well-formed board in which every cell that
is not interior holds what it held before (no border cell is written: a write
stores the player, which is not OUTER, and nothing stores OUTER back). -/
theorem C19_wellformed_invariant (b : Board) (player move : Int) (hb : WellFormed b)
    (hp : player = BLACK ∨ player = WHITE) (hm : validp move = true) :
    WellFormed initialise_board ∧
    ∃ B, make_move b move player = some B ∧ make_modified_move move b player = some B ∧
      WellFormed B ∧ ∀ x, validp x = false → rd B x = rd b x := by
  refine ⟨initialise_board_wf, ?_⟩
  obtain ⟨B, hB, hwf, -, hout⟩ := make_move_spec hb hp hm
  refine ⟨B, hB, by rw [make_modified_move_eq]; exact hB, hwf, ?_⟩
  intro x hx
  apply hout
  rintro (rfl | h)
  · rw [hm] at hx; cases hx
  · rw [(flipped_interior hb hp h).1] at hx; cases hx

theorem C19_wellformed_invariant_witness :
    WellFormed short_board ∧ validp 88 = true ∧
    WellFormed initialise_board ∧
    ∃ B, make_move short_board 88 WHITE = some B ∧
      make_modified_move 88 short_board WHITE = some B ∧
      WellFormed B ∧ ∀ x, validp x = false → rd B x = rd short_board x :=
  ⟨short_board_wf, by decide,
    C19_wellformed_invariant short_board WHITE 88 short_board_wf (Or.inr rfl) (by decide)⟩

theorem find_bracket_piece_1_eq (b : Board) (s d p : Int) :
    find_bracket_piece_1 s d p b = find_bracket_piece b s d p := by
  simp only [find_bracket_piece_1, find_bracket_piece, find_bracket_walk_1_eq]

/-- C20: on every board, for every player value, location and direction, the
local-board variants `opponent_1`, `find_bracket_piece_1`, `would_flip_1`,
`legalp_1`, `legal_moves_1` return what `opponent`, `find_bracket_piece`,
`would_flip`, `legalp`, `legal_moves` return when the global board equals the
local one, and `make_modified_move` yields the board `make_move` yields. -/
theorem C20_local_variants_faithful (b : Board) (player loc dir : Int) :
    opponent_1 player = opponent player ∧
    find_bracket_piece_1 loc dir player b = find_bracket_piece b loc dir player ∧
    would_flip_1 loc dir player b = would_flip b loc dir player ∧
    legalp_1 loc player b = legalp b loc player ∧
    legal_moves_1 player b = legal_moves b player ∧
    make_modified_move loc b player = make_move b loc player := by
  refine ⟨opponent_1_eq player, find_bracket_piece_1_eq b loc dir player, ?_, ?_, ?_, ?_⟩
  · exact would_flip_1_eq b loc dir player
  · exact legalp_1_eq b loc player
  · exact legal_moves_1_eq b player
  · exact make_modified_move_eq b loc player

/-! ### Move encoding -/

theorem move_string_table : ∀ r : Fin 8, ∀ c : Fin 8,
    get_move_string (10 * (((r : Nat) : Int) + 1) + ((c : Nat) : Int) + 1) =
      String.mk [Char.ofNat (48 + r), Char.ofNat (48 + c), Char.ofNat 10] ∧
    (Char.ofNat (48 + r)).toNat = 48 + r ∧ (Char.ofNat (48 + c)).toNat = 48 + c := by
  decide

theorem get_loc_digits (r c : Fin 8) (tail : List Char) :
    get_loc (String.mk (Char.ofNat (48 + r) :: Char.ofNat (48 + c) :: tail)) =
      some (10 * (((r : Nat) : Int) + 1) + ((c : Nat) : Int) + 1) := by
  obtain ⟨-, h1, h2⟩ := move_string_table r c
  simp only [get_loc, h1, h2]
  congr 1
  push_cast
  ring

/-- C16: for every interior location `loc`, `get_move_string(loc)` is the ASCII
digit of the zero-based row `loc/10 - 1`, the ASCII digit of the zero-based column
`loc%10 - 1` and a newline, and `get_loc` of that string is `loc`; conversely for
digits `r`, `c` in 0..7 `get_move_string(get_loc("rc"))` is `"rc\n"`; the top-left
interior cell 11 is encoded as `"00\n"`. -/
theorem C16_move_string_roundtrip :
    (∀ loc : Int, validp loc = true →
      0 ≤ loc / 10 - 1 ∧ loc / 10 - 1 ≤ 7 ∧ 0 ≤ loc % 10 - 1 ∧ loc % 10 - 1 ≤ 7 ∧
      get_move_string loc =
        String.mk [Char.ofNat (48 + (loc / 10 - 1).toNat),
          Char.ofNat (48 + (loc % 10 - 1).toNat), Char.ofNat 10] ∧
      get_loc (get_move_string loc) = some loc) ∧
    (∀ r c : Nat, r ≤ 7 → c ≤ 7 →
      ∃ loc, get_loc (String.mk [Char.ofNat (48 + r), Char.ofNat (48 + c)]) = some loc ∧
        validp loc = true ∧
        get_move_string loc =
          String.mk [Char.ofNat (48 + r), Char.ofNat (48 + c), Char.ofNat 10]) ∧
    get_move_string 11 = "00\n" := by
  refine ⟨?_, ?_, by decide⟩
  · intro loc hloc
    have hv := (validp_iff loc).mp hloc
    have hr : (loc / 10 - 1).toNat < 8 := by omega
    have hc : (loc % 10 - 1).toNat < 8 := by omega
    obtain ⟨hs, -, -⟩ := move_string_table ⟨_, hr⟩ ⟨_, hc⟩
    have hl : get_loc (String.mk [Char.ofNat (48 + (loc / 10 - 1).toNat),
        Char.ofNat (48 + (loc % 10 - 1).toNat), Char.ofNat 10]) = some _ :=
      get_loc_digits ⟨_, hr⟩ ⟨_, hc⟩ [Char.ofNat 10]
    have hloc_eq : (10 * (((loc / 10 - 1).toNat : Int) + 1) + ((loc % 10 - 1).toNat : Int) + 1)
        = loc := by omega
    simp only [hloc_eq] at hs hl
    refine ⟨by omega, by omega, by omega, by omega, hs, ?_⟩
    rw [hs, hl]
  · intro r c hr hc
    have hr8 : r < 8 := by omega
    have hc8 : c < 8 := by omega
    obtain ⟨hs, -, -⟩ := move_string_table ⟨r, hr8⟩ ⟨c, hc8⟩
    refine ⟨_, get_loc_digits ⟨r, hr8⟩ ⟨c, hc8⟩ [], ?_, hs⟩
    rw [validp_iff]
    simp only
    omega

theorem C16_move_string_roundtrip_witness :
    (get_move_string 88 = String.mk [Char.ofNat (48 + ((88 : Int) / 10 - 1).toNat),
        Char.ofNat (48 + ((88 : Int) % 10 - 1).toNat), Char.ofNat 10] ∧
      get_loc (get_move_string 88) = some 88) ∧
    ∃ loc, get_loc (String.mk [Char.ofNat (48 + 3), Char.ofNat (48 + 5)]) = some loc ∧
      validp loc = true ∧
      get_move_string loc = String.mk [Char.ofNat (48 + 3), Char.ofNat (48 + 5), Char.ofNat 10] :=
  ⟨((C16_move_string_roundtrip.1 88 (by decide)).2.2.2.2),
    C16_move_string_roundtrip.2.1 3 5 (by decide) (by decide)⟩

/-! ### The opening position -/

set_option maxRecDepth 100000 in
theorem initialise_board_empty : ∀ i : Nat, i < 100 →
    (isBorder i ∨ i = 44 ∨ i = 45 ∨ i = 54 ∨ i = 55 ∨ initialise_board[i]? = some EMPTY) := by
  decide

set_option maxRecDepth 100000 in
theorem initialise_board_moves : legal_moves initialise_board BLACK = some [4, 34, 43, 56, 65] :=
  rfl

/-- C17: the board produced by `initialise_board` is well-formed, holds WHITE on
44 and 55, BLACK on 45 and 54 and EMPTY on every other interior cell, and on it
`legal_moves` for BLACK yields count 4 followed by 34, 43, 56, 65. -/
theorem C17_opening_moves :
    WellFormed initialise_board ∧
    rd initialise_board 44 = some WHITE ∧ rd initialise_board 55 = some WHITE ∧
    rd initialise_board 45 = some BLACK ∧ rd initialise_board 54 = some BLACK ∧
    (∀ x : Int, validp x = true → x ≠ 44 → x ≠ 45 → x ≠ 54 → x ≠ 55 →
      rd initialise_board x = some EMPTY) ∧
    legal_moves initialise_board BLACK = some [4, 34, 43, 56, 65] := by
  refine ⟨initialise_board_wf, rfl, rfl, rfl, rfl, ?_, initialise_board_moves⟩
  intro x hx h1 h2 h3 h4
  have hv := (validp_iff x).mp hx
  obtain ⟨i, rfl⟩ := Int.eq_ofNat_of_zero_le (show 0 ≤ x by omega)
  rw [rd_of_nat]
  rcases initialise_board_empty i (by omega) with h | h | h | h | h | h
  · unfold isBorder at h; omega
  · omega
  · omega
  · omega
  · omega
  · exact h

set_option maxRecDepth 100000 in
/-- C18: each of the four legal opening moves of BLACK, applied with `make_move`
to the initial board, changes the move cell from EMPTY to BLACK and exactly one
other cell from WHITE to BLACK, changes nothing else, and leaves 4 BLACK and
1 WHITE pieces on the board. -/
theorem C18_opening_flips_one :
    ∀ m ∈ [(34 : Int), 43, 56, 65], ∃ f : Nat,
      rd initialise_board m = some EMPTY ∧ initialise_board[f]? = some WHITE ∧
      f ≠ m.toNat ∧
      make_move initialise_board m BLACK =
        some ((initialise_board.set m.toNat BLACK).set f BLACK) ∧
      ((initialise_board.set m.toNat BLACK).set f BLACK).count BLACK = 4 ∧
      ((initialise_board.set m.toNat BLACK).set f BLACK).count WHITE = 1 := by
  intro m hm
  simp only [List.mem_cons, List.mem_singleton, List.not_mem_nil, or_false] at hm
  rcases hm with rfl | rfl | rfl | rfl
  · exact ⟨44, rfl, rfl, by decide, rfl, rfl, rfl⟩
  · exact ⟨44, rfl, rfl, by decide, rfl, rfl, rfl⟩
  · exact ⟨55, rfl, rfl, by decide, rfl, rfl, rfl⟩
  · exact ⟨55, rfl, rfl, by decide, rfl, rfl, rfl⟩

/-! ### Pruning with the stale `score` (C13) -/

set_option maxRecDepth 100000 in
theorem prune_board_wf : WellFormed prune_board := by decide

set_option maxRecDepth 100000 in
theorem prune_board_legal : legalp prune_board 35 BLACK = some true := rfl

set_option maxRecDepth 100000 in
theorem prune_root_eq : make_modified_move 35 prune_board BLACK = some prune_root := rfl

set_option maxRecDepth 100000 in
theorem prune_root_moves : legal_moves_1 WHITE prune_root = some [2, 55, 62] := rfl

set_option maxRecDepth 100000 in
theorem prune_first_eq : make_modified_move 55 prune_root WHITE = some prune_first := rfl

set_option maxRecDepth 100000 in
theorem prune_first_moves : legal_moves_1 BLACK prune_first = some [0] := rfl

set_option maxRecDepth 100000 in
theorem prune_first_eval : static_evaluation prune_first BLACK = some 36 := rfl

set_option maxRecDepth 100000 in
theorem prune_second_eq : make_modified_move 62 prune_root WHITE = some prune_second := rfl

set_option maxRecDepth 100000 in
theorem prune_second_moves : legal_moves_1 BLACK prune_second = some [2, 52, 55] := rfl

set_option maxRecDepth 100000 in
theorem prune_second_a_eq : make_modified_move 52 prune_second BLACK = some prune_second_a := rfl

set_option maxRecDepth 100000 in
theorem prune_second_a_moves : legal_moves_1 WHITE prune_second_a = some [1, 55] := rfl

set_option maxRecDepth 100000 in
theorem prune_second_a_eval : static_evaluation prune_second_a BLACK = some 33 := rfl

set_option maxRecDepth 100000 in
theorem prune_second_b_eq : make_modified_move 55 prune_second BLACK = some prune_second_b := rfl

set_option maxRecDepth 100000 in
theorem prune_second_b_moves : legal_moves_1 WHITE prune_second_b = some [0] := rfl

set_option maxRecDepth 100000 in
theorem prune_second_b_eval : static_evaluation prune_second_b BLACK = some 37 := rfl

theorem opponent_1_black : opponent_1 BLACK = WHITE := rfl

theorem opponent_1_white : opponent_1 WHITE = BLACK := rfl

theorem prune_first_minimax (a b : Int) :
    minimax 1 prune_root 55 BLACK WHITE a b = some (36, prune_first) :=
  minimax_static 1 a b (by decide) prune_first_eq opponent_1_white prune_first_moves
    prune_first_eval (Or.inr rfl)

theorem prune_second_a_minimax (a b : Int) :
    minimax 0 prune_second 52 BLACK BLACK a b = some (33, prune_second_a) :=
  minimax_static 0 a b (by decide) prune_second_a_eq opponent_1_black prune_second_a_moves
    prune_second_a_eval (Or.inl rfl)

theorem prune_second_b_minimax (a b : Int) :
    minimax 0 prune_second 55 BLACK BLACK a b = some (37, prune_second_b) :=
  minimax_static 0 a b (by decide) prune_second_b_eq opponent_1_black prune_second_b_moves
    prune_second_b_eval (Or.inl rfl)

theorem prune_second_length : prune_second.length = 100 := rfl

theorem prune_root_length : prune_root.length = 100 := rfl

theorem take_two (a b c : Int) :
    List.take (([a, b, c] : List Int).headD 0).toNat (List.drop 1 [a, b, c]) =
      List.take a.toNat [b, c] := rfl

theorem prune_second_minimax :
    minimax 1 prune_root 62 BLACK WHITE (-1000) 0 = some (33, prune_second) := by
  rw [minimax_node 0 (-1000) 0 (by decide) prune_second_eq prune_second_length
    opponent_1_white prune_second_moves (by decide), if_pos rfl,
    show List.take (Int.toNat 2) [(52 : Int), 55] = [52, 55] from rfl,
    max_loop_break (prune_second_a_minimax (-1000) 0)
      (show (if (33 : Int) > -100 then (33 : Int) else -100) = 33 by decide) (by decide)]
  rfl

theorem prune_root_minimax :
    minimax 2 prune_board 35 BLACK BLACK (-1000) 1000 = some (33, prune_root) := by
  rw [minimax_node 1 (-1000) 1000 (by decide) prune_root_eq prune_root_length
    opponent_1_black prune_root_moves (by decide), if_neg (by decide),
    show List.take (Int.toNat 2) [(55 : Int), 62] = [55, 62] from rfl,
    min_loop_next (prune_first_minimax (-1000) 1000) prune_root_length
      (show (if (36 : Int) < 100 then (36 : Int) else 100) = 36 by decide)
      (show (if (0 : Int) < 1000 then (0 : Int) else 1000) = 0 by decide) (by decide),
    min_loop_next prune_second_minimax prune_root_length
      (show (if (33 : Int) < 36 then (33 : Int) else 36) = 33 by decide)
      (show (if (0 : Int) < 0 then (0 : Int) else 0) = 0 by decide) (by decide)]
  rfl

theorem prune_second_a_plain : plain_minimax 0 prune_second 52 BLACK BLACK = some 33 :=
  plain_static 0 prune_second_a_eq opponent_1_black prune_second_a_moves prune_second_a_eval
    (Or.inl rfl)

theorem prune_second_b_plain : plain_minimax 0 prune_second 55 BLACK BLACK = some 37 :=
  plain_static 0 prune_second_b_eq opponent_1_black prune_second_b_moves prune_second_b_eval
    (Or.inl rfl)

theorem prune_first_plain : plain_minimax 1 prune_root 55 BLACK WHITE = some 36 :=
  plain_static 1 prune_first_eq opponent_1_white prune_first_moves prune_first_eval
    (Or.inr rfl)

theorem prune_second_plain : plain_minimax 1 prune_root 62 BLACK WHITE = some 37 := by
  rw [plain_node 0 prune_second_eq opponent_1_white prune_second_moves
    (child_scores_step prune_second_a_plain
      (child_scores_step prune_second_b_plain rfl)), if_pos rfl]
  rfl

theorem prune_root_plain : plain_minimax 2 prune_board 35 BLACK BLACK = some 36 := by
  rw [plain_node 1 prune_root_eq opponent_1_black prune_root_moves
    (child_scores_step prune_first_plain
      (child_scores_step prune_second_plain rfl)), if_neg (by decide)]
  rfl

/-- C13 (failing input): on the well-formed position `prune_board`, for BLACK's
legal move 35 at depth 2 with the root bounds -1000 and 1000, `minimax` returns 33
while plain depth-limited minimax over all legal child moves returns 36. The
bounds are updated from the stale local `score` (0): after the first child the
root's `beta` is 0, and the second child's loop sets `alpha` to 0 and breaks
after its first grandchild (52, score 33), never searching 55 (score 37). -/
theorem C13_pruning_changes_result :
    WellFormed prune_board ∧ legalp prune_board 35 BLACK = some true ∧
    minimax 1 prune_root 62 BLACK WHITE (-1000) 0 = some (33, prune_second) ∧
    plain_minimax 1 prune_root 62 BLACK WHITE = some 37 ∧
    minimax 2 prune_board 35 BLACK BLACK (-1000) 1000 = some (33, prune_root) ∧
    plain_minimax 2 prune_board 35 BLACK BLACK = some 36 ∧
    (minimax 2 prune_board 35 BLACK BLACK (-1000) 1000).map Prod.fst ≠
      plain_minimax 2 prune_board 35 BLACK BLACK := by
  refine ⟨prune_board_wf, prune_board_legal, prune_second_minimax, prune_second_plain,
    prune_root_minimax, prune_root_plain, ?_⟩
  rw [prune_root_minimax, prune_root_plain]
  decide

/-! ### The shared search board (C14) -/

set_option maxRecDepth 100000 in
theorem shared_board_wf : WellFormed shared_board := by decide

set_option maxRecDepth 100000 in
theorem shared_board_moves : legal_moves shared_board BLACK = some [2, 32, 33] := rfl

set_option maxRecDepth 100000 in
theorem shared_32_eq : make_modified_move 32 shared_board BLACK = some shared_after_32 := rfl

set_option maxRecDepth 100000 in
theorem shared_32_moves : legal_moves_1 WHITE shared_after_32 = some [0] := rfl

set_option maxRecDepth 100000 in
theorem shared_32_eval : static_evaluation shared_after_32 BLACK = some 4 := rfl

set_option maxRecDepth 100000 in
theorem shared_32_33_eq :
    make_modified_move 33 shared_after_32 BLACK = some shared_after_32_33 := rfl

set_option maxRecDepth 100000 in
theorem shared_32_33_moves : legal_moves_1 WHITE shared_after_32_33 = some [0] := rfl

set_option maxRecDepth 100000 in
theorem shared_32_33_eval : static_evaluation shared_after_32_33 BLACK = some 5 := rfl

set_option maxRecDepth 100000 in
theorem shared_33_eq : make_modified_move 33 shared_board BLACK = some shared_after_33 := rfl

set_option maxRecDepth 100000 in
theorem shared_33_moves : legal_moves_1 WHITE shared_after_33 = some [0] := rfl

set_option maxRecDepth 100000 in
theorem shared_33_eval : static_evaluation shared_after_33 BLACK = some 4 := rfl

theorem shared_32_minimax :
    minimax 6 shared_board 32 BLACK BLACK (-1000) 1000 = some (4, shared_after_32) :=
  minimax_static 6 (-1000) 1000 (by decide) shared_32_eq opponent_1_black shared_32_moves
    shared_32_eval (Or.inr rfl)

theorem shared_32_33_minimax :
    minimax 6 shared_after_32 33 BLACK BLACK (-1000) 1000 = some (5, shared_after_32_33) :=
  minimax_static 6 (-1000) 1000 (by decide) shared_32_33_eq opponent_1_black
    shared_32_33_moves shared_32_33_eval (Or.inr rfl)

theorem shared_33_minimax :
    minimax 6 shared_board 33 BLACK BLACK (-1000) 1000 = some (4, shared_after_33) :=
  minimax_static 6 (-1000) 1000 (by decide) shared_33_eq opponent_1_black shared_33_moves
    shared_33_eval (Or.inr rfl)

theorem shared_scores : chunk_scores BLACK [32, 33] shared_board = some [4, 5] :=
  chunk_scores_step shared_32_minimax (chunk_scores_step shared_32_33_minimax rfl)

theorem shared_board_length : shared_board.length = 100 := rfl

theorem shared_loop :
    search_loop BLACK [32, 33] (2 : Int).toNat 0 shared_board (-100) 0 = some (5, 1) := by
  rw [show (2 : Int).toNat = 1 + 1 from rfl,
    search_loop_step (show [(32 : Int), 33][0]? = some 32 from rfl) shared_32_minimax,
    if_pos (by decide),
    search_loop_step (show [(32 : Int), 33][0 + 1]? = some 33 from rfl) shared_32_33_minimax,
    if_pos (by decide)]
  rfl

theorem shared_search : search_for_best_move shared_board [32, 33] 2 BLACK = some (33, 5) :=
  search_for_best_move_eval (by decide) shared_board_length shared_loop rfl

/-- C14 (failing input): on the well-formed position `shared_board` with the chunk
`[32, 33]` (all legal moves of BLACK), the score `search_for_best_move` records for
the second move is 5, computed on the board on which 32 was already played, while
`minimax` on an unmodified copy of the canonical board gives 4 for 33 (and 4 for
32); the unit returns `(33, 5)`. The one `local_board` copy is handed to every
`minimax` call of the loop, and `minimax` applies its candidate move to it. -/
theorem C14_shared_board_scores :
    WellFormed shared_board ∧ legal_moves shared_board BLACK = some [2, 32, 33] ∧
    chunk_scores BLACK [32, 33] shared_board = some [4, 5] ∧
    search_for_best_move shared_board [32, 33] 2 BLACK = some (33, 5) ∧
    minimax 6 shared_board 32 BLACK BLACK (-1000) 1000 = some (4, shared_after_32) ∧
    minimax 6 shared_after_32 33 BLACK BLACK (-1000) 1000 = some (5, shared_after_32_33) ∧
    minimax 6 shared_board 33 BLACK BLACK (-1000) 1000 = some (4, shared_after_33) :=
  ⟨shared_board_wf, shared_board_moves, shared_scores, shared_search, shared_32_minimax,
    shared_32_33_minimax, shared_33_minimax⟩

theorem C17_opening_moves_witness :
    validp 11 = true ∧ rd initialise_board 11 = some EMPTY :=
  ⟨by decide,
    C17_opening_moves.2.2.2.2.2.1 11 (by decide) (by decide) (by decide) (by decide)
      (by decide)⟩

theorem C18_opening_flips_one_witness :
    (34 : Int) ∈ [(34 : Int), 43, 56, 65] ∧
    ∃ f : Nat,
      rd initialise_board 34 = some EMPTY ∧ initialise_board[f]? = some WHITE ∧
      f ≠ (34 : Int).toNat ∧
      make_move initialise_board 34 BLACK =
        some ((initialise_board.set (34 : Int).toNat BLACK).set f BLACK) ∧
      ((initialise_board.set (34 : Int).toNat BLACK).set f BLACK).count BLACK = 4 ∧
      ((initialise_board.set (34 : Int).toNat BLACK).set f BLACK).count WHITE = 1 :=
  ⟨by decide, C18_opening_flips_one 34 (by decide)⟩

/-! ### The zero guard and the score range of the search -/

theorem minimax_zero (depth : Nat) (lb : Board) (maxp cur a b : Int) :
    minimax depth lb 0 maxp cur a b = some (0, lb) := by
  rw [minimax, if_pos rfl]

theorem make_modified_move_minus_one (lb : Board) (cur : Int) :
    make_modified_move (-1) lb cur = none := by
  rw [make_modified_move_eq]
  simp only [make_move, wr]
  rw [if_neg (by omega)]

theorem minimax_minus_one (depth : Nat) (lb : Board) (maxp cur a b : Int) :
    minimax depth lb (-1) maxp cur a b = none := by
  rw [minimax, if_neg (by decide)]
  simp only [make_modified_move_minus_one]

/-- C21 (counterexample): called with the location value -1 of the sentinel pair
as candidate move, `minimax` does not short-circuit. The guard `move == 0` does
not fire, so the move is applied: the first step writes `local_board[-1]`, outside
the 100-cell array, and the model has no result. -/
theorem C21_sentinel_counterexample :
    minimax 6 initialise_board (-1) BLACK BLACK (-1000) 1000 = none ∧
    minimax 6 initialise_board (-1) BLACK BLACK (-1000) 1000 ≠ some (0, initialise_board) := by
  rw [minimax_minus_one]
  exact ⟨rfl, by simp⟩

/-- C21 (amended): for every board, depth, players and bounds, `minimax` called
with candidate move 0 (the value of an unused slot of a move buffer, which is what
the guard `move == 0` tests) returns 0 and leaves the board it was given
unchanged. -/
theorem C21_zero_move_short_circuit (depth : Nat) (lb : Board)
    (maximizing_player current_player alpha beta : Int) :
    minimax depth lb 0 maximizing_player current_player alpha beta = some (0, lb) :=
  minimax_zero depth lb maximizing_player current_player alpha beta

/-- C22: on a well-formed board, for an interior candidate move, any depth,
`maximizing_player` and `current_player` in {BLACK, WHITE} and any bounds, `minimax`
returns, and its score lies in `[-64, 64]`: it is greater than the sentinel score
-100 and differs from the initial `maxEval` -100 and `minEval` 100. -/
theorem C22_minimax_score_range (depth : Nat) (lb : Board)
    (move maximizing_player current_player alpha beta : Int) (hb : WellFormed lb)
    (hm : validp move = true) (hmax : maximizing_player = BLACK ∨ maximizing_player = WHITE)
    (hcur : current_player = BLACK ∨ current_player = WHITE) :
    ∃ s lb', minimax depth lb move maximizing_player current_player alpha beta = some (s, lb') ∧
      -64 ≤ s ∧ s ≤ 64 ∧ -100 < s ∧ s ≠ -100 ∧ s ≠ 100 := by
  obtain ⟨s, lb', h, h1, h2, -, -⟩ :=
    minimax_ok depth lb move maximizing_player current_player alpha beta hb hm hmax hcur
  exact ⟨s, lb', h, h1, h2, by omega, by omega, by omega⟩

theorem C22_minimax_score_range_witness :
    WellFormed short_board ∧ validp 13 = true ∧
    ∃ s lb', minimax 6 short_board 13 BLACK BLACK (-1000) 1000 = some (s, lb') ∧
      -64 ≤ s ∧ s ≤ 64 ∧ -100 < s ∧ s ≠ -100 ∧ s ≠ 100 :=
  ⟨short_board_wf, by decide,
    C22_minimax_score_range 6 short_board 13 BLACK BLACK (-1000) 1000 short_board_wf
      (by decide) (Or.inl rfl) (Or.inl rfl)⟩
/-! ### The bracket search for an arbitrary player value -/

theorem opponent_ne_outer (p : Int) : opponent p ≠ OUTER := by
  unfold opponent
  split_ifs <;> decide

/-- A cell of a well-formed board that does not hold OUTER is interior. -/
theorem not_outer_interior {b : Board} (hb : WellFormed b) {x v : Int} (h : rd b x = some v)
    (hv : v ≠ OUTER) : validp x = true := by
  have hx := rd_eq_some h
  have hlen := hb.1
  obtain ⟨w, hw, -, h2⟩ := rd_wf hb hx.1 (by omega)
  rw [h] at hw
  cases hw
  by_contra hc
  exact hv (h2 (by simpa using hc))

/-- The walk of `find_bracket_piece` from any cell of a well-formed board, for any
player value: it runs over `n` interior cells holding the opponent value and stops
at the cell `s + n * d`, which lies on the board. -/
theorem walk_total {b : Board} (hb : WellFormed b) (p : Int) {d : Int}
    (hd : d ∈ ALLDIRECTIONS) :
    ∀ (fuel : Nat) (s : Int), 0 ≤ s → s < 100 → pot d s < fuel →
      ∃ (r : Int) (n : Nat) (v : Int), find_bracket_walk b d p fuel s = some r ∧
        (∀ i : Nat, i < n →
          rd b (s + i * d) = some (opponent p) ∧ validp (s + i * d) = true) ∧
        0 ≤ s + n * d ∧ s + n * d < 100 ∧ rd b (s + n * d) = some v ∧ v ≠ opponent p ∧
        r = if v = p then s + n * d else 0 := by
  intro fuel
  induction fuel with
  | zero =>
    intro s h0 h1 hf
    have := pot_nonneg d h0 h1
    simp at hf; omega
  | succ fuel ih =>
    intro s h0 h1 hf
    obtain ⟨v, hv, -, -⟩ := rd_wf hb h0 h1
    simp only [find_bracket_walk, hv]
    by_cases h : v = opponent p
    · subst h
      rw [if_pos rfl]
      have hint := not_outer_interior hb hv (opponent_ne_outer p)
      obtain ⟨g0, g1, g2, -, -⟩ := pot_step hint hd
      obtain ⟨r, n, w, hr, hrun, e0, e1, hw, hwne, hres⟩ :=
        ih (s + d) g0 g1 (by push_cast at hf; omega)
      have hcell : s + ((n + 1 : Nat) : Int) * d = s + d + n * d := by push_cast; ring
      refine ⟨r, n + 1, w, hr, ?_, by rw [hcell]; exact e0, by rw [hcell]; exact e1,
        by rw [hcell]; exact hw, hwne, by rw [hcell]; exact hres⟩
      intro i hi
      rcases Nat.eq_zero_or_pos i with rfl | hpos
      · simpa using ⟨hv, hint⟩
      · obtain ⟨j, rfl⟩ : ∃ j, i = j + 1 := ⟨i - 1, by omega⟩
        have hj : s + ((j + 1 : Nat) : Int) * d = s + d + j * d := by push_cast; ring
        rw [hj]
        exact hrun j (by omega)
    · rw [if_neg h]
      refine ⟨if v = p then s else 0, 0, v, ?_, fun i hi => absurd hi (Nat.not_lt_zero i),
        by simpa using h0, by simpa using h1, by simpa using hv, h, by simp⟩
      by_cases h2 : v = p
      · rw [if_pos h2, if_pos h2]
      · rw [if_neg h2, if_neg h2]

/-- The bracket search of `would_flip` from an interior cell of a well-formed
board, for any player value: it returns, the cells it walks over are interior, and
the cell it stops at lies on the board. -/
theorem would_flip_total {b : Board} (hb : WellFormed b) (p : Int) {loc d : Int}
    (hloc : validp loc = true) (hd : d ∈ ALLDIRECTIONS) :
    ∃ (r : Int) (k : Nat) (v : Int), would_flip b loc d p = some r ∧ 1 ≤ k ∧
      (∀ j : Nat, 1 ≤ j → j < k →
        rd b (loc + j * d) = some (opponent p) ∧ validp (loc + j * d) = true) ∧
      0 ≤ loc + k * d ∧ loc + k * d < 100 ∧ rd b (loc + k * d) = some v ∧
      v ≠ opponent p ∧ r = if 2 ≤ k ∧ v = p then loc + k * d else 0 := by
  obtain ⟨c0, c1, hpc, hp1, hp8⟩ := pot_step hloc hd
  obtain ⟨v, hv, -, -⟩ := rd_wf hb c0 c1
  simp only [would_flip, hv]
  by_cases h : v = opponent p
  · subst h
    rw [if_pos rfl]
    have hint := not_outer_interior hb hv (opponent_ne_outer p)
    obtain ⟨g0, g1, g2, -, -⟩ := pot_step hint hd
    obtain ⟨r, n, w, hr, hrun, e0, e1, hw, hwne, hres⟩ :=
      walk_total hb p hd (BOARDSIZE + 1) (loc + d + d) g0 g1
        (by simp only [BOARDSIZE]; push_cast; omega)
    have hcell : loc + ((n + 2 : Nat) : Int) * d = loc + d + d + n * d := by push_cast; ring
    refine ⟨r, n + 2, w, hr, by omega, ?_, by rw [hcell]; exact e0, by rw [hcell]; exact e1,
      by rw [hcell]; exact hw, hwne, ?_⟩
    · intro j hj1 hj2
      rcases Nat.lt_or_ge j 2 with hlt | hge
      · obtain rfl : j = 1 := by omega
        simpa using ⟨hv, hint⟩
      · obtain ⟨i, rfl⟩ : ∃ i, j = i + 2 := ⟨j - 2, by omega⟩
        have hi : loc + ((i + 2 : Nat) : Int) * d = loc + d + d + i * d := by push_cast; ring
        rw [hi]
        exact hrun i (by omega)
    · rw [hcell, hres]
      by_cases h2 : w = p
      · rw [if_pos h2, if_pos ⟨by omega, h2⟩]
      · rw [if_neg h2, if_neg (fun hc => h2 hc.2)]
  · rw [if_neg h]
    refine ⟨0, 1, v, rfl, le_refl 1, fun j h1 h2 => by omega, by simpa using c0,
      by simpa using c1, by simpa using hv, h, ?_⟩
    rw [if_neg (fun hc => by omega)]
/-- C23: on a well-formed board, from every interior location, in every direction
of ALLDIRECTIONS and for every player value (BLACK, WHITE or any other), the
bracket search of `would_flip` and `would_flip_1` returns: the walk ends within its
fuel and no read falls outside the array. The cells read are `move + j * dir` for
`1 ≤ j ≤ k`: the first `k - 1` are interior cells holding the opponent value, and
the walk stops at the `k`-th, an index in `0..99`, at or before the border.
`find_bracket_piece` and `find_bracket_piece_1` started on any cell `0..99` return
likewise. A read that yields a value is a read of an index in `0..99`. -/
theorem C23_bracket_search_in_bounds (b : Board) (move dir player : Int)
    (hb : WellFormed b) (hm : validp move = true) (hd : dir ∈ ALLDIRECTIONS) :
    (∃ (r : Int) (k : Nat) (v : Int),
      would_flip b move dir player = some r ∧ would_flip_1 move dir player b = some r ∧
      1 ≤ k ∧
      (∀ j : Nat, 1 ≤ j → j < k →
        rd b (move + j * dir) = some (opponent player) ∧ validp (move + j * dir) = true) ∧
      0 ≤ move + k * dir ∧ move + k * dir ≤ 99 ∧ rd b (move + k * dir) = some v ∧
      v ≠ opponent player ∧ r = if 2 ≤ k ∧ v = player then move + k * dir else 0) ∧
    (∀ square : Int, 0 ≤ square → square ≤ 99 →
      ∃ (r : Int) (n : Nat) (v : Int),
        find_bracket_piece b square dir player = some r ∧
        find_bracket_piece_1 square dir player b = some r ∧
        (∀ i : Nat, i < n →
          rd b (square + i * dir) = some (opponent player) ∧
            validp (square + i * dir) = true) ∧
        0 ≤ square + n * dir ∧ square + n * dir ≤ 99 ∧
        rd b (square + n * dir) = some v ∧ v ≠ opponent player ∧
        r = if v = player then square + n * dir else 0) ∧
    (∀ i v : Int, rd b i = some v → 0 ≤ i ∧ i ≤ 99) := by
  refine ⟨?_, ?_, ?_⟩
  · obtain ⟨r, k, v, hr, hk, hrun, h0, h1, hv, hne, hres⟩ := would_flip_total hb player hm hd
    exact ⟨r, k, v, hr, by rw [would_flip_1_eq]; exact hr, hk, hrun, h0, by omega, hv, hne,
      hres⟩
  · intro square h0 h1
    have hpot : pot dir square < ((BOARDSIZE + 1 : Nat) : Int) := by
      have hcases := mem_dirs hd
      simp only [BOARDSIZE, pot]
      push_cast
      split_ifs <;> omega
    obtain ⟨r, n, v, hr, hrun, e0, e1, hv, hne, hres⟩ :=
      walk_total hb player hd (BOARDSIZE + 1) square h0 (by omega) hpot
    exact ⟨r, n, v, hr, by rw [find_bracket_piece_1_eq]; exact hr, hrun, e0, by omega, hv, hne,
      hres⟩
  · intro i v h
    have := rd_eq_some h
    have hlen := hb.1
    omega

set_option maxRecDepth 100000 in
theorem C23_bracket_search_in_bounds_witness :
    WellFormed initialise_board ∧ validp 11 = true ∧ (1 : Int) ∈ ALLDIRECTIONS ∧
    ((∃ (r : Int) (k : Nat) (v : Int),
      would_flip initialise_board 11 1 3 = some r ∧
      would_flip_1 11 1 3 initialise_board = some r ∧ 1 ≤ k ∧
      (∀ j : Nat, 1 ≤ j → j < k →
        rd initialise_board (11 + j * 1) = some (opponent 3) ∧
          validp (11 + j * 1) = true) ∧
      0 ≤ 11 + (k : Int) * 1 ∧ 11 + (k : Int) * 1 ≤ 99 ∧
      rd initialise_board (11 + k * 1) = some v ∧
      v ≠ opponent 3 ∧ r = if 2 ≤ k ∧ v = 3 then 11 + (k : Int) * 1 else 0) ∧
    (∀ square : Int, 0 ≤ square → square ≤ 99 →
      ∃ (r : Int) (n : Nat) (v : Int),
        find_bracket_piece initialise_board square 1 3 = some r ∧
        find_bracket_piece_1 square 1 3 initialise_board = some r ∧
        (∀ i : Nat, i < n →
          rd initialise_board (square + i * 1) = some (opponent 3) ∧
            validp (square + i * 1) = true) ∧
        0 ≤ square + n * 1 ∧ square + n * 1 ≤ 99 ∧
        rd initialise_board (square + n * 1) = some v ∧ v ≠ opponent 3 ∧
        r = if v = 3 then square + n * 1 else 0) ∧
    (∀ i v : Int, rd initialise_board i = some v → 0 ≤ i ∧ i ≤ 99)) :=
  ⟨initialise_board_wf, by decide, by decide,
    C23_bracket_search_in_bounds initialise_board 11 1 3 initialise_board_wf (by decide)
      (by decide)⟩
/-! ### Piece counts across a move -/

theorem mem_count_locations (x : Int) : x ∈ count_locations ↔ 1 ≤ x ∧ x ≤ 88 := by
  unfold count_locations
  simp only [List.mem_map, List.mem_range'_1]
  constructor
  · rintro ⟨n, hn, rfl⟩
    simp only [Int.ofNat_eq_coe]
    omega
  · intro h
    exact ⟨x.toNat, by omega, by simp only [Int.ofNat_eq_coe]; omega⟩

theorem count_locations_nodup : count_locations.Nodup :=
  List.Nodup.map (fun _ _ h => Int.ofNat.inj h) (List.nodup_range' 1 88)

theorem rd_in_range {b : Board} (hlen : b.length = 100) {x : Int} (h0 : 0 ≤ x)
    (h1 : x < 100) : ∃ v, rd b x = some v := by
  unfold rd
  rw [if_pos h0, List.get?_eq_getElem?]
  have : x.toNat < b.length := by omega
  exact ⟨b[x.toNat], List.getElem?_eq_getElem this⟩

theorem count_loop_spec (p : Int) {b : Board} (hlen : b.length = 100) :
    ∀ (l : List Int) (cnt : Int), (∀ i ∈ l, 0 ≤ i ∧ i < 100) →
      count_loop p b l cnt =
        some (cnt + ((l.countP (fun i => rd b i == some p) : Nat) : Int)) := by
  intro l
  induction l with
  | nil => intro cnt _; simp [count_loop]
  | cons i rest ih =>
    intro cnt hl
    obtain ⟨h0, h1⟩ := hl i (List.mem_cons_self _ _)
    obtain ⟨v, hv⟩ := rd_in_range hlen h0 h1
    simp only [count_loop, hv]
    rw [ih _ (fun x hx => hl x (List.mem_cons_of_mem _ hx)), List.countP_cons, hv]
    by_cases h : v = p
    · subst h
      simp only [if_true, beq_self_eq_true]
      congr 1
      push_cast
      ring
    · have hne : (some v == some p) = false := by simpa using h
      simp only [if_neg h, hne]
      simp

/-- The source `count` returns the number of cells `1..88` holding the value. -/
theorem count_spec (p : Int) {b : Board} (hlen : b.length = 100) :
    count p b = some ((count_locations.countP (fun i => rd b i == some p) : Nat) : Int) := by
  unfold count
  rw [count_loop_spec p hlen count_locations 0
    (fun i hi => by have := (mem_count_locations i).mp hi; omega)]
  simp

theorem count_locations_interior :
    count_locations.filter (fun i => validp i) = interior_cells := by decide

/-- On a well-formed board the cells `1..88` holding a value other than OUTER are
the interior cells holding it. -/
theorem count_eq_cell_count {b : Board} (hb : WellFormed b) {v : Int} (hv : v ≠ OUTER) :
    count v b = some (cell_count b v) := by
  rw [count_spec v hb.1]
  unfold cell_count
  rw [← count_locations_interior, List.countP_filter]
  congr 2
  apply List.countP_congr
  intro x _
  simp only [beq_iff_eq, Bool.and_eq_true, decide_eq_true_eq]
  constructor
  · intro h
    exact ⟨h, not_outer_interior hb h hv⟩
  · intro h
    exact h.1

theorem countP_disjoint {α : Type} (l : List α) (P Q R : α → Bool)
    (h : ∀ i ∈ l,
      (P i = true ↔ (Q i = true ∨ R i = true)) ∧ ¬ (Q i = true ∧ R i = true)) :
    l.countP P = l.countP Q + l.countP R := by
  induction l with
  | nil => rfl
  | cons a rest ih =>
    have hrest := ih (fun i hi => h i (List.mem_cons_of_mem _ hi))
    obtain ⟨h1, h2⟩ := h a (List.mem_cons_self _ _)
    simp only [List.countP_cons, hrest]
    cases hP : P a <;> cases hQ : Q a <;> cases hR : R a <;> simp_all <;> omega
/-- What a legal move does to each cell: the move cell goes from EMPTY to the
player, a flipped cell from the opponent to the player, any other cell keeps its
value. -/
theorem move_cell_cases {b B : Board} (hb : WellFormed b) {p m : Int}
    (hp : p = BLACK ∨ p = WHITE) (hempty : rd b m = some EMPTY)
    (hin : ∀ x, (x = m ∨ Flipped b p m (fun e => e ∈ ALLDIRECTIONS) x) → rd B x = some p)
    (hout :
      ∀ x, ¬ (x = m ∨ Flipped b p m (fun e => e ∈ ALLDIRECTIONS) x) → rd B x = rd b x)
    (x : Int) :
    (x = m ∧ rd b x = some EMPTY ∧ rd B x = some p) ∨
    (x ≠ m ∧ rd b x = some (opponent p) ∧ rd B x = some p) ∨
    (x ≠ m ∧ rd B x = rd b x ∧ ¬ (rd b x = some (opponent p) ∧ rd B x = some p)) := by
  have hop := opponent_cases hp
  have hoe : opponent p ≠ EMPTY := by rcases hop.1 with h | h <;> rw [h] <;> decide
  by_cases hx : x = m
  · subst hx
    exact Or.inl ⟨rfl, hempty, hin x (Or.inl rfl)⟩
  · by_cases hf : Flipped b p m (fun e => e ∈ ALLDIRECTIONS) x
    · exact Or.inr (Or.inl ⟨hx, (flipped_interior hb hp hf).2, hin x (Or.inr hf)⟩)
    · have hsame := hout x (fun h => h.elim hx hf)
      refine Or.inr (Or.inr ⟨hx, hsame, ?_⟩)
      rintro ⟨h1, h2⟩
      rw [hsame, h1] at h2
      exact hop.2 (Option.some.inj h2)

/-- The counts of the three cell values before and after a legal move. -/
theorem move_counts {b : Board} (hb : WellFormed b) {p m : Int}
    (hp : p = BLACK ∨ p = WHITE) (hl : Legal b p m) :
    ∃ (B : Board) (f : Nat), make_move b m p = some B ∧ WellFormed B ∧ 1 ≤ f ∧
      count_locations.countP (fun i => rd b i == some EMPTY) =
        count_locations.countP (fun i => rd B i == some EMPTY) + 1 ∧
      count_locations.countP (fun i => rd b i == some (opponent p)) =
        count_locations.countP (fun i => rd B i == some (opponent p)) + f ∧
      count_locations.countP (fun i => rd B i == some p) =
        count_locations.countP (fun i => rd b i == some p) + f + 1 := by
  obtain ⟨hm, hempty, d, hd, r, hr, hr0⟩ := hl
  obtain ⟨B, hB, hBwf, hin, hout⟩ := make_move_spec hb hp hm
  have hop := opponent_cases hp
  have hoe : opponent p ≠ EMPTY := by rcases hop.1 with h | h <;> rw [h] <;> decide
  have hpe : p ≠ EMPTY := by rcases hp with h | h <;> rw [h] <;> decide
  have hcases := move_cell_cases hb hp hempty hin hout
  have hmv := (validp_iff m).mp hm
  have hmem : m ∈ count_locations := (mem_count_locations m).mpr (by omega)
  have hone : count_locations.countP (fun i => i == m) = 1 := by
    rw [← List.count_eq_countP]
    exact List.count_eq_one_of_mem count_locations_nodup hmem
  refine ⟨B, count_locations.countP (fun i => rd b i == some (opponent p) && rd B i == some p),
    hB, hBwf, ?_, ?_, ?_, ?_⟩
  · obtain ⟨r', hr', h1, -⟩ := would_flip_spec hb hp hm hd
    rw [hr] at hr'
    cases hr'
    obtain ⟨k, hk, -⟩ := h1 hr0
    have hfl : Flipped b p m (fun e => e ∈ ALLDIRECTIONS) (m + ((1 : Nat) : Int) * d) :=
      ⟨d, hd, k, hk, 1, le_refl 1, hk.1, rfl⟩
    generalize m + ((1 : Nat) : Int) * d = x at hfl
    have hint := flipped_interior hb hp hfl
    have hv := (validp_iff x).mp hint.1
    apply List.countP_pos_iff.mpr
    refine ⟨x, (mem_count_locations x).mpr (by omega), ?_⟩
    simp only [Bool.and_eq_true, beq_iff_eq]
    exact ⟨hint.2, hin x (Or.inr hfl)⟩
  · rw [← hone]
    apply countP_disjoint
    intro i _
    simp only [beq_iff_eq]
    rcases hcases i with ⟨h1, h2, h3⟩ | ⟨h1, h2, h3⟩ | ⟨h1, h2, h3⟩
    · subst h1
      simp [h2, h3, hpe]
    · simp [h1, h2, h3, hoe, hpe]
    · simp [h1, h2]
  · apply countP_disjoint
    intro i _
    simp only [beq_iff_eq, Bool.and_eq_true]
    rcases hcases i with ⟨h1, h2, h3⟩ | ⟨h1, h2, h3⟩ | ⟨h1, h2, h3⟩
    · simp [h2, h3, hoe, Ne.symm hoe, Ne.symm hop.2]
    · simp [h2, h3, Ne.symm hop.2]
    · rw [h2] at h3 ⊢
      constructor
      · constructor
        · intro h; exact Or.inl h
        · rintro (h | h)
          · exact h
          · exact h.1
      · rintro ⟨h, h'⟩
        exact h3 h'
  · have hstep : count_locations.countP (fun i => rd B i == some p) =
        count_locations.countP (fun i => rd b i == some p) +
          count_locations.countP (fun i => !(rd b i == some p) && rd B i == some p) := by
      apply countP_disjoint
      intro i _
      simp only [beq_iff_eq, Bool.and_eq_true, Bool.not_eq_true', beq_eq_false_iff_ne]
      rcases hcases i with ⟨h1, h2, h3⟩ | ⟨h1, h2, h3⟩ | ⟨h1, h2, h3⟩
      · simp [h2, h3, Ne.symm hpe]
      · simp [h2, h3, hop.2]
      · rw [h2]
        constructor
        · constructor
          · intro h; exact Or.inl h
          · rintro (h | h)
            · exact h
            · exact h.2
        · rintro ⟨h, h'⟩
          exact h'.1 h
    have hnew : count_locations.countP (fun i => !(rd b i == some p) && rd B i == some p) =
        count_locations.countP (fun i => rd b i == some (opponent p) && rd B i == some p) +
          count_locations.countP (fun i => i == m) := by
      apply countP_disjoint
      intro i _
      simp only [beq_iff_eq, Bool.and_eq_true, Bool.not_eq_true', beq_eq_false_iff_ne]
      rcases hcases i with ⟨h1, h2, h3⟩ | ⟨h1, h2, h3⟩ | ⟨h1, h2, h3⟩
      · subst h1
        simp [h2, h3, Ne.symm hpe, Ne.symm hoe]
      · simp [h1, h2, h3, hop.2]
      · rw [h2] at h3 ⊢
        constructor
        · constructor
          · intro h; exact absurd h.2 h.1
          · rintro (h | h)
            · exact absurd h h3
            · exact absurd h h1
        · rintro ⟨-, h⟩
          exact h1 h
    rw [hstep, hnew, hone]
    omega
/-- C24: on a well-formed board, for a player P in {BLACK, WHITE} and a move that
`legalp` accepts for P, `make_move` returns a board on which `count` of EMPTY is
one less, `count` of the opponent is less by some `f ≥ 1` and `count` of P is more
by `f + 1`; the EMPTY count is the number of EMPTY interior cells. -/
theorem C24_move_changes_counts (b : Board) (P move : Int) (hb : WellFormed b)
    (hp : P = BLACK ∨ P = WHITE) (hl : legalp b move P = some true) :
    ∃ (B : Board) (f e o n : Int), make_move b move P = some B ∧ 1 ≤ f ∧
      count EMPTY b = some e ∧ count (opponent P) b = some o ∧ count P b = some n ∧
      count EMPTY B = some (e - 1) ∧ count (opponent P) B = some (o - f) ∧
      count P B = some (n + f + 1) ∧
      e = cell_count b EMPTY ∧ cell_count B EMPTY = cell_count b EMPTY - 1 := by
  obtain ⟨ok, hok, hiff⟩ := legalp_spec hb hp move
  rw [hl] at hok
  cases hok
  obtain ⟨B, f, hB, hBwf, hf, he, ho, hn⟩ := move_counts hb hp (hiff.mp rfl)
  have hE : EMPTY ≠ OUTER := by decide
  have hcb := count_eq_cell_count hb hE
  have hcB := count_eq_cell_count hBwf hE
  rw [count_spec EMPTY hb.1] at hcb
  rw [count_spec EMPTY hBwf.1] at hcB
  have hcb' := Option.some.inj hcb
  have hcB' := Option.some.inj hcB
  refine ⟨B, f, _, _, _, hB, by exact_mod_cast hf, count_spec EMPTY hb.1,
    count_spec (opponent P) hb.1, count_spec P hb.1, ?_, ?_, ?_, hcb', ?_⟩
  · rw [count_spec EMPTY hBwf.1, he]
    congr 1
    push_cast
    ring
  · rw [count_spec (opponent P) hBwf.1, ho]
    congr 1
    push_cast
    ring
  · rw [count_spec P hBwf.1, hn]
    congr 1
  · rw [← hcB', ← hcb', he]
    push_cast
    ring

set_option maxRecDepth 100000 in
theorem C24_move_changes_counts_witness :
    WellFormed initialise_board ∧ legalp initialise_board 34 BLACK = some true ∧
    ∃ (B : Board) (f e o n : Int), make_move initialise_board 34 BLACK = some B ∧ 1 ≤ f ∧
      count EMPTY initialise_board = some e ∧
      count (opponent BLACK) initialise_board = some o ∧
      count BLACK initialise_board = some n ∧
      count EMPTY B = some (e - 1) ∧ count (opponent BLACK) B = some (o - f) ∧
      count BLACK B = some (n + f + 1) ∧
      e = cell_count initialise_board EMPTY ∧
      cell_count B EMPTY = cell_count initialise_board EMPTY - 1 :=
  ⟨initialise_board_wf, by decide,
    C24_move_changes_counts initialise_board BLACK 34 initialise_board_wf (Or.inl rfl)
      (by decide)⟩

end Othello
